import Mathlib

/-!
The rolling checksum, signature, delta and patch of simple-rdiff.

A shallow embedding of the Go packages `rollsum` and `librsync` of
`Pirellik/simple-rdiff`, followed by theorems about them.

Conventions of the embedding

* A byte is a `Fin 256`; a byte slice is a `List Byte` (value semantics).
  `uint16`, `uint32` and `uint64` values are natural numbers, every
  arithmetic operation of the source being followed by an explicit
  reduction modulo `2^16`, `2^32` or `2^64`.  The length of a slice is an
  `int`, so its conversion to `uint64` is exact and is written without a
  reduction.
* An `io.Reader` is the list of the bytes that are still unread.  A single
  `Read` call behaves as `bytes.Buffer.Read` and `os.File.Read` do on a
  regular file: it delivers `min (len p) remaining` bytes, and reports
  `io.EOF` when nothing is left and `len p > 0`.
* An `io.Writer` is the list of the bytes written so far; writing to it does
  not fail (`bytes.Buffer`).  Functions that write return the new contents
  together with the returned `error` (`none` for `nil`).
* A Go function returning `(T, error)` returns `Except Err T`.  Run-time
  panics and the exhaustion of the loop fuel are constructors of `Err` of
  their own, told apart from returned errors by `Err.returned`.
* Loops are structural recursions on a fuel argument; every entry point
  supplies a fuel that is proved sufficient below.
* Memory limits are not modelled: `make` always succeeds.
-/

/-- One byte of a stream or slice (Go `byte`). -/
abbrev Byte := Fin 256

/-- Conversion of an unsigned integer to `byte`: the low eight bits. -/
def byte (x : Nat) : Byte := ⟨x % 256, Nat.mod_lt x (by decide)⟩

/-- The errors, panics and fuel exhaustion an operation can end with. -/
inductive Err where
  /-- The value `io.EOF`. -/
  | EOF
  /-- The value `io.ErrUnexpectedEOF`. -/
  | ErrUnexpectedEOF
  /-- NewSignature: too small block size. -/
  | tooSmallBlockSize
  /-- ReadSignature: too short strong hash, with the number of bytes got. -/
  | tooShortStrongHash (got : Nat)
  /-- The error of readChunk: corrupted chunk, length mismatch. -/
  | lengthMismatch (got want : Nat)
  /-- The error of readChunk: corrupted chunk, unknown type. -/
  | unknownType (cType : Nat)
  /-- Seek to a negative position (`bytes.Reader.Seek`, `os.File.Seek`). -/
  | negativePosition
  /-- Run-time panic: index out of range. -/
  | indexOutOfRange
  /-- Run-time panic: slice bounds out of range. -/
  | sliceOutOfRange
  /-- The fuel of the model ran out (the Go loop would still be running). -/
  | outOfFuel
  deriving DecidableEq, Repr

deriving instance DecidableEq for Except

/-- The outcomes that are Go `error` values handed back to the caller. -/
def Err.returned : Err → Bool
  | .indexOutOfRange => false
  | .sliceOutOfRange => false
  | .outOfFuel => false
  | _ => true

namespace stream

/-- A single `Read(p)` call with `len p = n` on the unread bytes `r`: the
bytes delivered and the bytes left. -/
def Read (r : List Byte) (n : Nat) : Except Err (List Byte × List Byte) :=
  if n = 0 then .ok ([], r)
  else if r = [] then .error .EOF
  else .ok (r.take n, r.drop n)

/-- The call `io.ReadFull(r, buf)` with `len buf = n`: exactly `n` bytes,
`io.EOF` when no byte could be read, `io.ErrUnexpectedEOF` when some but
fewer than `n` could. -/
def ReadFull (r : List Byte) (n : Nat) : Except Err (List Byte × List Byte) :=
  if n = 0 then .ok ([], r)
  else if r = [] then .error .EOF
  else if r.length < n then .error .ErrUnexpectedEOF
  else .ok (r.take n, r.drop n)

/-- Big-endian value of a byte sequence (`binary.BigEndian.Uint32`,
`Uint64`, and the single byte of a `chunkType`). -/
def beUint (bs : List Byte) : Nat := bs.foldl (fun acc b => acc * 256 + b.val) 0

/-- The four bytes of `binary.BigEndian.PutUint32`. -/
def putUint32 (v : Nat) : List Byte :=
  [byte (v >>> 24), byte (v >>> 16), byte (v >>> 8), byte v]

/-- The eight bytes of `binary.BigEndian.PutUint64`. -/
def putUint64 (v : Nat) : List Byte :=
  [byte (v >>> 56), byte (v >>> 48), byte (v >>> 40), byte (v >>> 32),
   byte (v >>> 24), byte (v >>> 16), byte (v >>> 8), byte v]

/-- The call `binary.Read(r, binary.BigEndian, &x)` for a fixed-size
unsigned integer `x` of `n` bytes: the value and the bytes left. -/
def binaryRead (r : List Byte) (n : Nat) : Except Err (Nat × List Byte) :=
  match ReadFull r n with
  | .error e => .error e
  | .ok (bs, rest) => .ok (beUint bs, rest)

/-- Conversion `int64(u)` of a `uint64`. -/
def toInt64 (u : Nat) : Int :=
  if u % 18446744073709551616 < 9223372036854775808 then ((u % 18446744073709551616 : Nat) : Int)
  else ((u % 18446744073709551616 : Nat) : Int) - 18446744073709551616

end stream

namespace sha256

/-- The round constants of SHA-256 (FIPS 180-4, section 4.2.2). -/
def K : List Nat := [
  1116352408, 1899447441, 3049323471, 3921009573, 961987163, 1508970993, 2453635748, 2870763221,
  3624381080, 310598401, 607225278, 1426881987, 1925078388, 2162078206, 2614888103, 3248222580,
  3835390401, 4022224774, 264347078, 604807628, 770255983, 1249150122, 1555081692, 1996064986,
  2554220882, 2821834349, 2952996808, 3210313671, 3336571891, 3584528711, 113926993, 338241895,
  666307205, 773529912, 1294757372, 1396182291, 1695183700, 1986661051, 2177026350, 2456956037,
  2730485921, 2820302411, 3259730800, 3345764771, 3516065817, 3600352804, 4094571909, 275423344,
  430227734, 506948616, 659060556, 883997877, 958139571, 1322822218, 1537002063, 1747873779,
  1955562222, 2024104815, 2227730452, 2361852424, 2428436474, 2756734187, 3204031479, 3329325298]

/-- The initial hash value of SHA-256 (FIPS 180-4, section 5.3.3). -/
def initialHash : List Nat :=
  [1779033703, 3144134277, 1013904242, 2773480762, 1359893119, 2600822924, 528734635, 1541459225]

/-- Addition of 32-bit words. -/
def add32 (x y : Nat) : Nat := (x + y) % 4294967296

/-- Rotation of a 32-bit word to the right. -/
def rotr (x n : Nat) : Nat := ((x >>> n) ||| (x <<< (32 - n))) % 4294967296

/-- The function written as capital sigma 0 in FIPS 180-4. -/
def bigSigma0 (x : Nat) : Nat := rotr x 2 ^^^ rotr x 13 ^^^ rotr x 22

/-- The function written as capital sigma 1 in FIPS 180-4. -/
def bigSigma1 (x : Nat) : Nat := rotr x 6 ^^^ rotr x 11 ^^^ rotr x 25

/-- The function written as small sigma 0 in FIPS 180-4. -/
def smallSigma0 (x : Nat) : Nat := rotr x 7 ^^^ rotr x 18 ^^^ (x >>> 3)

/-- The function written as small sigma 1 in FIPS 180-4. -/
def smallSigma1 (x : Nat) : Nat := rotr x 17 ^^^ rotr x 19 ^^^ (x >>> 10)

/-- The choice function Ch. -/
def ch (x y z : Nat) : Nat := (x &&& y) ^^^ ((4294967295 - x) &&& z)

/-- The majority function Maj. -/
def maj (x y z : Nat) : Nat := (x &&& y) ^^^ (x &&& z) ^^^ (y &&& z)

/-- The big-endian 32-bit words of a message block. -/
def words : List Byte → List Nat
  | a :: b :: c :: d :: rest =>
    (a.val * 16777216 + b.val * 65536 + c.val * 256 + d.val) :: words rest
  | _ => []

/-- The message schedule: `n` more words after the ones in `w`. -/
def schedule : Nat → List Nat → List Nat
  | 0, w => w
  | n + 1, w =>
    let t := w.length
    schedule n (w ++ [add32 (add32 (smallSigma1 (w.getD (t - 2) 0)) (w.getD (t - 7) 0))
      (add32 (smallSigma0 (w.getD (t - 15) 0)) (w.getD (t - 16) 0))])

/-- One round of the compression function on the working variables. -/
def round (s : List Nat) (kw : Nat × Nat) : List Nat :=
  match s with
  | [a, b, c, d, e, f, g, h] =>
    let t1 := add32 (add32 (add32 h (bigSigma1 e)) (add32 (ch e f g) kw.1)) kw.2
    let t2 := add32 (bigSigma0 a) (maj a b c)
    [add32 t1 t2, a, b, c, add32 d t1, e, f, g]
  | _ => s

/-- The compression of one 64-byte block into the hash value. -/
def compress (h : List Nat) (block : List Byte) : List Nat :=
  let w := schedule 48 (words block)
  List.zipWith add32 h ((K.zip w).foldl round h)

/-- The 64-byte blocks of a padded message. -/
def blocks64 : Nat → List Byte → List (List Byte)
  | 0, _ => []
  | n + 1, l => if l = [] then [] else l.take 64 :: blocks64 n (l.drop 64)

/-- The padding of a message: the bit 1, zeros up to 56 modulo 64 bytes, and
the length in bits as a 64-bit big-endian integer. -/
def pad (msg : List Byte) : List Byte :=
  msg ++ [128] ++ List.replicate ((119 - msg.length % 64) % 64) 0
    ++ stream.putUint64 (msg.length * 8)

/-- The SHA-256 digest of a message (`sha256.New`, `Write`, `Sum(nil)`): the
eight words of the final hash value, big-endian. -/
def Sum256 (msg : List Byte) : List Byte :=
  let p := pad msg
  let h := (blocks64 p.length p).foldl compress initialHash
  (List.range 8).flatMap fun i => stream.putUint32 (h.getD i 0)

end sha256

namespace rollsum

/-- The rolling checksum state: three `uint16` counters. -/
structure RollingSum where
  /-- Sum of the bytes of the window. -/
  a : Nat
  /-- Weighted sum of the bytes of the window. -/
  b : Nat
  /-- Length of the window. -/
  count : Nat
  deriving DecidableEq, Repr

/-- Conversion to `uint16`. -/
def u16 (x : Nat) : Nat := x % 65536

/-- Subtraction of `uint16` values, wrapping around. -/
def sub16 (x y : Nat) : Nat := (x % 65536 + 65536 - y % 65536) % 65536

/-- The constructor `New`: the zero state. -/
def New : RollingSum := { a := 0, b := 0, count := 0 }

/-- The method `Reset`. -/
def RollingSum.Reset (s : RollingSum) : RollingSum := { s with count := 0, a := 0, b := 0 }

/-- The loop of `Init`: `for i, elem := range in`, from index `i` on. -/
def RollingSum.initLoop (s : RollingSum) : Nat → List Byte → RollingSum
  | _, [] => s
  | i, elem :: rest =>
    RollingSum.initLoop
      { s with
        a := u16 (s.a + u16 elem.val),
        b := u16 (s.b + u16 (sub16 s.count (u16 i) * u16 elem.val)) }
      (i + 1) rest

/-- The method `Init`: reset, set `count = uint16(len(in))`, then accumulate. -/
def RollingSum.Init (s : RollingSum) (window : List Byte) : RollingSum :=
  RollingSum.initLoop { s.Reset with count := u16 window.length } 0 window

/-- The method `Roll(out, in)`. -/
def RollingSum.Roll (s : RollingSum) (outgoing incoming : Byte) : RollingSum :=
  let a := u16 (s.a + sub16 (u16 incoming.val) (u16 outgoing.val))
  { s with a := a, b := u16 (s.b + sub16 a (u16 (s.count * u16 outgoing.val))) }

/-- The method `Sum`: `(uint32(s.b) << 16) | uint32(s.a)`. -/
def RollingSum.Sum (s : RollingSum) : Nat :=
  (((s.b % 4294967296) <<< 16) % 4294967296) ||| (s.a % 4294967296)

/-- The loop of TestRoll: each incoming byte is rolled in while the first
byte of the current window is rolled out. -/
def rollAll (s : RollingSum) : List Byte → List Byte → RollingSum
  | _, [] => s
  | [], _ => s
  | o :: w, x :: xs => rollAll (s.Roll o x) (w ++ [x]) xs

/-- The sum of the bytes of a window. -/
def byteSum (w : List Byte) : Nat := (w.map Fin.val).sum

/-- The weighted sum of a window inside a window of length `n`: the byte at
position `i`, `i + 1`, ... weighs `n - i`, `n - (i + 1)`, ... -/
def weightedSum (n : Nat) : Nat → List Byte → Nat
  | _, [] => 0
  | i, e :: rest => (n - i) * e.val + weightedSum n (i + 1) rest

end rollsum

namespace librsync

/-- Conversion to `uint64`. -/
def u64 (x : Nat) : Nat := x % 18446744073709551616

/-- The call `computeRollingChecksum`: a fresh rolling sum, `Init`, `Sum`. -/
def computeRollingChecksum (block : List Byte) : Nat :=
  (rollsum.New.Init block).Sum

/-- The call `computeStrongChecksum`: the SHA-256 digest of the block. -/
def computeStrongChecksum (block : List Byte) : List Byte :=
  sha256.Sum256 block

/-- Assignment `m[k] = v` on a Go map kept as an association list with one
entry per key: an existing key keeps its place, a new key goes to the end. -/
def mapSet : List (Nat × Nat) → Nat → Nat → List (Nat × Nat)
  | [], k, v => [(k, v)]
  | (k1, v1) :: m, k, v => if k1 = k then (k, v) :: m else (k1, v1) :: mapSet m k v

/-- The struct `Signature`.  The map is read with `List.lookup` and written
with `mapSet`. -/
structure Signature where
  /-- Block length, a `uint32`. -/
  blockLength : Nat
  /-- Strong hashes, indexed by block id. -/
  strongSignatures : List (List Byte)
  /-- Weak checksum to block id. -/
  weakSignaturesToBlockID : List (Nat × Nat)
  deriving DecidableEq, Repr

/-- The loop of `NewSignature`, with the reader `r` and the signature built
so far. -/
def NewSignature.loop (blockLen : Nat) : Nat → List Byte → Signature → Except Err Signature
  | 0, _, _ => .error .outOfFuel
  | fuel + 1, r, sig =>
    match stream.Read r blockLen with
    | .error .EOF => .ok sig
    | .error e => .error e
    | .ok (block, rest) =>
      let weakSig := computeRollingChecksum block
      let strongSig := computeStrongChecksum block
      NewSignature.loop blockLen fuel rest
        { sig with
          weakSignaturesToBlockID :=
            mapSet sig.weakSignaturesToBlockID weakSig sig.strongSignatures.length,
          strongSignatures := sig.strongSignatures ++ [strongSig] }

/-- The function `NewSignature(in, blockLen)`; `sha256.Size` is 32. -/
def NewSignature (r : List Byte) (blockLen : Nat) : Except Err Signature :=
  if blockLen < 32 then .error .tooSmallBlockSize
  else NewSignature.loop blockLen (r.length + 1) r
    { blockLength := blockLen, strongSignatures := [], weakSignaturesToBlockID := [] }

/-- The loop of `ReadSignature`. -/
def ReadSignature.loop :
    Nat → List Byte → List (List Byte) → List (Nat × Nat) →
      Except Err (List (List Byte) × List (Nat × Nat))
  | 0, _, _, _ => .error .outOfFuel
  | fuel + 1, r, strongSigs, weakSigToBlockID =>
    match stream.binaryRead r 4 with
    | .error .EOF => .ok (strongSigs, weakSigToBlockID)
    | .error e => .error e
    | .ok (weakSig, r1) =>
      match stream.Read r1 32 with
      | .error e => .error e
      | .ok (strongSig, r2) =>
        if strongSig.length ≠ 32 then .error (.tooShortStrongHash strongSig.length)
        else ReadSignature.loop fuel r2 (strongSigs ++ [strongSig])
          (mapSet weakSigToBlockID weakSig strongSigs.length)

/-- The function `ReadSignature(in)`. -/
def ReadSignature (r : List Byte) : Except Err Signature :=
  match stream.binaryRead r 4 with
  | .error e => .error e
  | .ok (blockLength, r1) =>
    match ReadSignature.loop (r1.length + 1) r1 [] [] with
    | .error e => .error e
    | .ok (strongSigs, weakSigToBlockID) =>
      .ok { blockLength := blockLength, strongSignatures := strongSigs,
            weakSignaturesToBlockID := weakSigToBlockID }

/-- The first loop of `Signature.Write`: `weakSigs[int(ID)] = sig` for every
entry of the map (in the order of the association list; Go leaves the order
open, which matters only when two keys carry the same id). -/
def Signature.fillWeakSigs : List (Nat × Nat) → List Nat → Except Err (List Nat)
  | [], weakSigs => .ok weakSigs
  | (sig, id) :: m, weakSigs =>
    if id < weakSigs.length then Signature.fillWeakSigs m (weakSigs.set id sig)
    else .error .indexOutOfRange

/-- The second loop of `Signature.Write`: the entries, from index `i` on. -/
def Signature.writeEntries (strong : List (List Byte)) :
    Nat → List Nat → List Byte → List Byte × Option Err
  | _, [], out => (out, none)
  | i, weakSig :: rest, out =>
    match strong.get? i with
    | none => (out ++ stream.putUint32 weakSig, some .indexOutOfRange)
    | some h => Signature.writeEntries strong (i + 1) rest (out ++ stream.putUint32 weakSig ++ h)

/-- The method `Signature.Write(out)`. -/
def Signature.Write (s : Signature) (out : List Byte) : List Byte × Option Err :=
  let out1 := out ++ stream.putUint32 s.blockLength
  match Signature.fillWeakSigs s.weakSignaturesToBlockID
      (List.replicate s.strongSignatures.length 0) with
  | .error e => (out1, some e)
  | .ok weakSigs => Signature.writeEntries s.strongSignatures 0 weakSigs out1

/-- The type `chunkType`, a byte. -/
abbrev chunkType := Byte

/-- The constant `chunkTypeReusable` (iota 0). -/
def chunkTypeReusable : chunkType := 0

/-- The constant `chunkTypeModified` (iota 1). -/
def chunkTypeModified : chunkType := 1

/-- The two implementations of the interface `chunk`: the structs `reusable`
and `modified`. -/
inductive chunk where
  /-- A range of the basis. -/
  | reusable (startPosition length : Nat)
  /-- Literal bytes. -/
  | modified (data : List Byte)
  deriving DecidableEq, Repr

/-- The method `chunkType()`. -/
def chunk.chunkType : chunk → librsync.chunkType
  | .reusable _ _ => chunkTypeReusable
  | .modified _ => chunkTypeModified

/-- The method `append(c)`: `r.length += casted.length`, or
`m.data = append(m.data, casted.data...)`.  On chunks of different kinds the
type assertion of the source panics; `addChunk`, the only caller, calls it on
chunks of the same kind only, and the receiver is returned unchanged here. -/
def chunk.append : chunk → chunk → chunk
  | .reusable startPosition length, .reusable _ length1 =>
    .reusable startPosition (u64 (length + length1))
  | .modified data, .modified data1 => .modified (data ++ data1)
  | c, _ => c

/-- The method `write(out)`: the tag, then the fields. -/
def chunk.write : chunk → List Byte → List Byte × Option Err
  | .reusable startPosition length, out =>
    (out ++ [chunkTypeReusable] ++ stream.putUint64 startPosition ++ stream.putUint64 length, none)
  | .modified data, out =>
    (out ++ [chunkTypeModified] ++ stream.putUint64 data.length ++ data, none)

/-- The call `io.CopyN(out, base, n)` with `base` positioned at `pos`: a
limit `n <= 0` copies nothing and reports no error; otherwise the bytes
available are copied and `io.EOF` is reported when they are fewer than `n`. -/
def CopyN (out base : List Byte) (pos : Nat) (n : Int) : List Byte × Option Err :=
  if n ≤ 0 then (out, none)
  else
    let data := (base.drop pos).take n.toNat
    if data.length = n.toNat then (out ++ data, none) else (out ++ data, some .EOF)

/-- The method `patch(base, out)`: seek and copy for `reusable`, write the
data for `modified`. -/
def chunk.patch : chunk → List Byte → List Byte → List Byte × Option Err
  | .reusable startPosition length, base, out =>
    if stream.toInt64 startPosition < 0 then (out, some .negativePosition)
    else CopyN out base (stream.toInt64 startPosition).toNat (stream.toInt64 length)
  | .modified data, _, out => (out ++ data, none)

/-- The function `readChunk(in)`: the chunk and the bytes left. -/
def readChunk (r : List Byte) : Except Err (chunk × List Byte) :=
  match stream.binaryRead r 1 with
  | .error e => .error e
  | .ok (cType, r1) =>
    if cType = chunkTypeReusable.val then
      match stream.binaryRead r1 8 with
      | .error e => .error e
      | .ok (startPosition, r2) =>
        match stream.binaryRead r2 8 with
        | .error e => .error e
        | .ok (length, r3) => .ok (.reusable startPosition length, r3)
    else if cType = chunkTypeModified.val then
      match stream.binaryRead r1 8 with
      | .error e => .error e
      | .ok (length, r2) =>
        match stream.Read r2 length with
        | .error e => .error e
        | .ok (data, r3) =>
          if data.length ≠ length then .error (.lengthMismatch data.length length)
          else .ok (.modified data, r3)
    else .error (.unknownType cType)

/-- The struct `Delta`. -/
structure Delta where
  /-- The chunks, in order. -/
  chunks : List chunk
  deriving DecidableEq, Repr

/-- The method `addChunk(c)`. -/
def Delta.addChunk (d : Delta) (c : chunk) : Delta :=
  match d.chunks.getLast? with
  | none => { chunks := d.chunks ++ [c] }
  | some last =>
    if last.chunkType = c.chunkType then { chunks := d.chunks.dropLast ++ [last.append c] }
    else { chunks := d.chunks ++ [c] }

/-- The function `getChunk(block, weakSum, s)`.  The slice `block[:1]` of an
empty block panics when the capacity is 0 (block length 0); with a block
length of at least 1 the block is never empty. -/
def getChunk (block : List Byte) (weakSum : Nat) (s : Signature) : Except Err chunk :=
  let literal : Except Err chunk :=
    match block with
    | [] => .error .sliceOutOfRange
    | b :: _ => .ok (.modified [b])
  match s.weakSignaturesToBlockID.lookup weakSum with
  | none => literal
  | some blockID =>
    match s.strongSignatures.get? blockID with
    | none => .error .indexOutOfRange
    | some strong =>
      if strong = computeStrongChecksum block then
        .ok (.reusable (u64 (blockID * block.length)) block.length)
      else literal

/-- The loop of `NewDelta`: the reader, the current `block`, the rolling sum,
`prevChunkType` and the delta built so far. -/
def NewDelta.loop (s : Signature) :
    Nat → List Byte → List Byte → rollsum.RollingSum → chunkType → Delta → Except Err Delta
  | 0, _, _, _, _, _ => .error .outOfFuel
  | fuel + 1, r, block, rSum, prevChunkType, delta =>
    if prevChunkType = chunkTypeReusable then
      match stream.Read r block.length with
      | .error .EOF => .ok delta
      | .error e => .error e
      | .ok (data, rest) =>
        let block1 := data
        let rSum1 := rSum.Init block1
        match getChunk block1 rSum1.Sum s with
        | .error e => .error e
        | .ok c => NewDelta.loop s fuel rest block1 rSum1 c.chunkType (delta.addChunk c)
    else
      match block with
      | [] => .error .sliceOutOfRange
      | b0 :: tail =>
        match stream.Read r 1 with
        | .error .EOF => .ok (delta.addChunk (.modified tail))
        | .error e => .error e
        | .ok (singleByte, rest) =>
          match singleByte with
          | [] => .error .indexOutOfRange
          | x :: _ =>
            let rSum1 := rSum.Roll b0 x
            let block1 := tail ++ singleByte
            match getChunk block1 rSum1.Sum s with
            | .error e => .error e
            | .ok c => NewDelta.loop s fuel rest block1 rSum1 c.chunkType (delta.addChunk c)

/-- The function `NewDelta(in, s)`. -/
def NewDelta (r : List Byte) (s : Signature) : Except Err Delta :=
  NewDelta.loop s (r.length + 1) r (List.replicate s.blockLength 0) rollsum.New
    chunkTypeReusable { chunks := [] }

/-- The loop of `ReadDelta`. -/
def ReadDelta.loop : Nat → List Byte → Delta → Except Err Delta
  | 0, _, _ => .error .outOfFuel
  | fuel + 1, r, delta =>
    match readChunk r with
    | .error .EOF => .ok delta
    | .error e => .error e
    | .ok (c, rest) => ReadDelta.loop fuel rest { chunks := delta.chunks ++ [c] }

/-- The function `ReadDelta(in)`. -/
def ReadDelta (r : List Byte) : Except Err Delta :=
  ReadDelta.loop (r.length + 1) r { chunks := [] }

/-- The loop of `Delta.Patch` over the chunks. -/
def Delta.patchLoop : List chunk → List Byte → List Byte → List Byte × Option Err
  | [], _, out => (out, none)
  | c :: cs, base, out =>
    match c.patch base out with
    | (out1, some e) => (out1, some e)
    | (out1, none) => Delta.patchLoop cs base out1

/-- The method `Delta.Patch(base, out)`. -/
def Delta.Patch (d : Delta) (base out : List Byte) : List Byte × Option Err :=
  Delta.patchLoop d.chunks base out

/-- The loop of `Delta.Write` over the chunks. -/
def Delta.writeLoop : List chunk → List Byte → List Byte × Option Err
  | [], out => (out, none)
  | c :: cs, out =>
    match c.write out with
    | (out1, some e) => (out1, some e)
    | (out1, none) => Delta.writeLoop cs out1

/-- The method `Delta.Write(out)`. -/
def Delta.Write (d : Delta) (out : List Byte) : List Byte × Option Err :=
  Delta.writeLoop d.chunks out

/-- The big-endian representation of `v` on `n` bytes, as the wire formats
describe it: the most significant byte first. -/
def bigEndian (n v : Nat) : List Byte :=
  (List.range n).map fun i => byte (v / 256 ^ (n - 1 - i))

/-- The record of a chunk in the delta wire format: the tag 0, `startPosition`
and `length` as 8-byte big-endian integers for a Reusable chunk; the tag 1,
the data length as an 8-byte big-endian integer and the data for a Literal
chunk. -/
def chunkRecord : chunk → List Byte
  | .reusable startPosition length => [0] ++ bigEndian 8 startPosition ++ bigEndian 8 length
  | .modified data => [1] ++ bigEndian 8 data.length ++ data

/-- The values a chunk can hold in the source: `uint64` fields, and a slice
length within `uint64`. -/
def chunk.wellFormed : chunk → Prop
  | .reusable startPosition length =>
    startPosition < 18446744073709551616 ∧ length < 18446744073709551616
  | .modified data => data.length < 18446744073709551616

instance chunk.decidableWellFormed : DecidablePred chunk.wellFormed := fun c => by
  cases c <;> unfold chunk.wellFormed <;> infer_instance

/-- The bytes a chunk stands for over a basis: the range
`basis[startPosition .. startPosition+length)` for a Reusable chunk, the data
for a Literal chunk. -/
def chunk.content (basis : List Byte) : chunk → List Byte
  | .reusable startPosition length => (basis.drop startPosition).take length
  | .modified data => data

/-- A chunk whose range, if it is Reusable, lies inside the basis. -/
def chunk.inside (basis : List Byte) : chunk → Prop
  | .reusable startPosition length => startPosition + length ≤ basis.length
  | .modified _ => True

instance chunk.decidableInside (basis : List Byte) : DecidablePred (chunk.inside basis) :=
  fun c => by cases c <;> unfold chunk.inside <;> infer_instance

/-- The 66-byte basis of the tests: `hello ` eleven times. -/
def testBasis : List Byte :=
  [104, 101, 108, 108, 111, 32, 104, 101, 108, 108, 111, 32, 104, 101, 108, 108, 111, 32,
   104, 101, 108, 108, 111, 32, 104, 101, 108, 108, 111, 32, 104, 101, 108, 108, 111, 32,
   104, 101, 108, 108, 111, 32, 104, 101, 108, 108, 111, 32, 104, 101, 108, 108, 111, 32,
   104, 101, 108, 108, 111, 32, 104, 101, 108, 108, 111, 32]

/-- The delta of TestReadDelta, TestDeltaWrite and TestDeltaPatch. -/
def testDelta : Delta :=
  { chunks := [.reusable 0 32, .modified [19], .reusable 32 34] }

/-- The 44 bytes of TestReadDelta and TestDeltaWrite. -/
def testDeltaBytes : List Byte :=
  [0, 0, 0, 0, 0, 0, 0, 0, 0, 0, 0, 0, 0, 0, 0, 0, 32,
   1, 0, 0, 0, 0, 0, 0, 0, 1, 19,
   0, 0, 0, 0, 0, 0, 0, 0, 32, 0, 0, 0, 0, 0, 0, 0, 34]

/-- The output expected by TestDeltaPatch: the basis with the byte 19
inserted at offset 32. -/
def testPatched : List Byte :=
  [104, 101, 108, 108, 111, 32, 104, 101, 108, 108, 111, 32, 104, 101, 108, 108, 111, 32,
   104, 101, 108, 108, 111, 32, 104, 101, 108, 108, 111, 32, 104, 101, 19, 108, 108, 111,
   32, 104, 101, 108, 108, 111, 32, 104, 101, 108, 108, 111, 32, 104, 101, 108, 108, 111,
   32, 104, 101, 108, 108, 111, 32, 104, 101, 108, 108, 111, 32]

/-- The blocks `NewSignature` cuts a stream into: `blockLen` bytes each, the
last one possibly shorter (with a fuel, as the loop). -/
def blocks (blockLen : Nat) : Nat → List Byte → List (List Byte)
  | 0, _ => []
  | fuel + 1, r =>
    if r = [] then [] else r.take blockLen :: blocks blockLen fuel (r.drop blockLen)

/-- The blocks of a basis for a block length. -/
def blocksOf (basis : List Byte) (blockLen : Nat) : List (List Byte) :=
  blocks blockLen basis.length basis

/-- The effect of the body of the loop of `NewSignature` on a signature, for
a list of blocks read one after the other. -/
def addBlocks (sig : Signature) : List (List Byte) → Signature
  | [] => sig
  | block :: rest =>
    addBlocks
      { sig with
        weakSignaturesToBlockID :=
          mapSet sig.weakSignaturesToBlockID (computeRollingChecksum block)
            sig.strongSignatures.length,
        strongSignatures := sig.strongSignatures ++ [computeStrongChecksum block] }
      rest

/-- Every block id of the map is an index of the strong hashes. -/
def Signature.idsInRange (s : Signature) : Prop :=
  ∀ p ∈ s.weakSignaturesToBlockID, p.2 < s.strongSignatures.length

instance Signature.decidableIdsInRange (s : Signature) : Decidable s.idsInRange := by
  unfold Signature.idsInRange
  infer_instance

/-- No two adjacent chunks of the delta are of the same kind. -/
def Delta.noAdjacentSameKind (d : Delta) : Prop :=
  List.Chain' (fun x y => x.chunkType ≠ y.chunkType) d.chunks

instance Delta.decidableNoAdjacentSameKind (d : Delta) : Decidable d.noAdjacentSameKind := by
  unfold Delta.noAdjacentSameKind
  infer_instance

/-- The composition `NewDelta(new, NewSignature(basis, blockLen))`. -/
def deltaAgainst (basis new : List Byte) (blockLen : Nat) : Except Err Delta :=
  match NewSignature basis blockLen with
  | .error e => .error e
  | .ok sig => NewDelta new sig

/-- Signature, delta and patch in a row: the output and the error of
`Delta.Patch` on the basis, for the delta of `new` against the signature of
the basis. -/
def signatureDeltaPatch (basis new : List Byte) (blockLen : Nat) :
    Except Err (List Byte × Option Err) :=
  match deltaAgainst basis new blockLen with
  | .error e => .error e
  | .ok d => .ok (d.Patch basis [])

/-- The signature of the tests in delta_test.go. -/
def testSignature : Signature :=
  { blockLength := 32,
    strongSignatures := [
      [61, 7, 188, 146, 183, 66, 102, 5, 216, 249, 196, 2, 184, 114, 200, 118, 207, 233, 146,
       244, 196, 82, 188, 82, 74, 178, 66, 250, 206, 163, 215, 240],
      [1, 84, 112, 6, 249, 182, 164, 120, 200, 26, 252, 211, 98, 67, 127, 254, 81, 223, 36, 86,
       194, 26, 205, 54, 85, 246, 96, 23, 101, 215, 125, 41],
      [134, 176, 225, 187, 226, 118, 88, 57, 49, 158, 133, 226, 87, 193, 5, 129, 20, 56, 212,
       158, 60, 234, 21, 240, 68, 11, 190, 154, 195, 62, 165, 28]],
    weakSignaturesToBlockID := [(3308522449, 0), (3276082140, 1), (16646287, 2)] }

/-- The number of bytes of the new stream a chunk accounts for: the length
of a Reusable chunk, the data length of a Literal chunk. -/
def chunk.byteCount : chunk → Nat
  | .reusable _ length => length
  | .modified data => data.length

/-- The sum of the chunk lengths of a delta. -/
def Delta.byteCount (d : Delta) : Nat := (d.chunks.map chunk.byteCount).sum

/-- The match test of `getChunk` on a window: the weak checksum of the window
is a key of the map and the strong hash stored for its block id equals the
strong hash of the window. -/
def Signature.matchesWindow (s : Signature) (window : List Byte) : Prop :=
  match s.weakSignaturesToBlockID.lookup (computeRollingChecksum window) with
  | none => False
  | some blockID => s.strongSignatures.get? blockID = some (computeStrongChecksum window)

instance Signature.decidableMatchesWindow (s : Signature) (window : List Byte) :
    Decidable (s.matchesWindow window) := by
  unfold Signature.matchesWindow
  cases s.weakSignaturesToBlockID.lookup (computeRollingChecksum window) <;> infer_instance

/-- The loop of the naive scan: the loop of `NewDelta` in which the weak
checksum handed to `getChunk` is computed from scratch on every window
(`Init` then `Sum` on a fresh rolling sum) instead of being kept up to date
by `Init` and `Roll`. -/
def naiveDelta.loop (s : Signature) :
    Nat → List Byte → List Byte → chunkType → Delta → Except Err Delta
  | 0, _, _, _, _ => .error .outOfFuel
  | fuel + 1, r, block, prevChunkType, delta =>
    if prevChunkType = chunkTypeReusable then
      match stream.Read r block.length with
      | .error .EOF => .ok delta
      | .error e => .error e
      | .ok (data, rest) =>
        match getChunk data (computeRollingChecksum data) s with
        | .error e => .error e
        | .ok c => naiveDelta.loop s fuel rest data c.chunkType (delta.addChunk c)
    else
      match block with
      | [] => .error .sliceOutOfRange
      | _ :: tail =>
        match stream.Read r 1 with
        | .error .EOF => .ok (delta.addChunk (.modified tail))
        | .error e => .error e
        | .ok (singleByte, rest) =>
          match singleByte with
          | [] => .error .indexOutOfRange
          | _ :: _ =>
            match getChunk (tail ++ singleByte) (computeRollingChecksum (tail ++ singleByte)) s with
            | .error e => .error e
            | .ok c =>
              naiveDelta.loop s fuel rest (tail ++ singleByte) c.chunkType (delta.addChunk c)

/-- The naive scan of a new stream against a signature. -/
def naiveDelta (r : List Byte) (s : Signature) : Except Err Delta :=
  naiveDelta.loop s (r.length + 1) r (List.replicate s.blockLength 0) chunkTypeReusable
    { chunks := [] }

end librsync

/-! ## The rolling checksum -/

namespace rollsum

theorem cast_u16 (x : Nat) : ((u16 x : Nat) : ZMod 65536) = (x : ZMod 65536) := by
  unfold u16
  exact ZMod.natCast_mod x 65536

theorem cast_sub16 (x y : Nat) :
    ((sub16 x y : Nat) : ZMod 65536) = (x : ZMod 65536) - (y : ZMod 65536) := by
  unfold sub16
  rw [ZMod.natCast_mod]
  have h : y % 65536 ≤ x % 65536 + 65536 := by omega
  rw [Nat.cast_sub h]
  push_cast
  rw [ZMod.natCast_mod, ZMod.natCast_mod]
  have h0 : ((65536 : Nat) : ZMod 65536) = 0 := ZMod.natCast_self 65536
  have h1 : (65536 : ZMod 65536) = 0 := by exact_mod_cast h0
  rw [h1]
  ring

theorem u16_lt (x : Nat) : u16 x < 65536 := Nat.mod_lt x (by decide)

theorem eq_of_cast_eq {x y : Nat} (hx : x < 65536) (hy : y < 65536)
    (h : (x : ZMod 65536) = (y : ZMod 65536)) : x = y := by
  have h1 := (ZMod.natCast_eq_natCast_iff' x y 65536).mp h
  omega

theorem eq_mod_of_cast_eq {x y : Nat} (hx : x < 65536)
    (h : (x : ZMod 65536) = (y : ZMod 65536)) : x = y % 65536 := by
  have h1 := (ZMod.natCast_eq_natCast_iff' x y 65536).mp h
  omega

theorem initLoop_count (l : List Byte) : ∀ (s : RollingSum) (i : Nat),
    (s.initLoop i l).count = s.count := by
  induction l with
  | nil => intro s i; rfl
  | cons e rest ih => intro s i; simp only [RollingSum.initLoop]; rw [ih]

theorem initLoop_lt (l : List Byte) : ∀ (s : RollingSum) (i : Nat),
    s.a < 65536 → s.b < 65536 → (s.initLoop i l).a < 65536 ∧ (s.initLoop i l).b < 65536 := by
  induction l with
  | nil => intro s i ha hb; exact ⟨ha, hb⟩
  | cons e rest ih =>
    intro s i _ _
    simp only [RollingSum.initLoop]
    exact ih _ _ (u16_lt _) (u16_lt _)

theorem initLoop_cast (n : Nat) (l : List Byte) : ∀ (s : RollingSum) (i : Nat),
    i + l.length ≤ n → (s.count : ZMod 65536) = (n : ZMod 65536) →
    ((s.initLoop i l).a : ZMod 65536) = (s.a : ZMod 65536) + (byteSum l : ZMod 65536) ∧
    ((s.initLoop i l).b : ZMod 65536) = (s.b : ZMod 65536) + (weightedSum n i l : ZMod 65536) := by
  induction l with
  | nil => intro s i _ _; simp [RollingSum.initLoop, byteSum, weightedSum]
  | cons e rest ih =>
    intro s i hi hc
    simp only [List.length_cons] at hi
    simp only [RollingSum.initLoop]
    have hle : i ≤ n := by omega
    obtain ⟨h1, h2⟩ := ih { s with
        a := u16 (s.a + u16 e.val),
        b := u16 (s.b + u16 (sub16 s.count (u16 i) * u16 e.val)) } (i + 1) (by omega) hc
    rw [h1, h2]
    simp only [cast_u16, Nat.cast_add, Nat.cast_mul, cast_sub16, hc, byteSum, weightedSum,
      List.map_cons, List.sum_cons, Nat.cast_sub hle]
    constructor <;> ring



theorem byteSum_append (w : List Byte) (x : Byte) : byteSum (w ++ [x]) = byteSum w + x.val := by
  simp [byteSum]

theorem weightedSum_append (n : Nat) (w : List Byte) (x : Byte) : ∀ i : Nat,
    weightedSum n i (w ++ [x]) = weightedSum n i w + (n - (i + w.length)) * x.val := by
  induction w with
  | nil => intro i; simp [weightedSum]
  | cons e rest ih =>
    intro i
    have h : i + 1 + rest.length = i + (rest.length + 1) := by omega
    show weightedSum n i (e :: (rest ++ [x])) = _
    rw [weightedSum, weightedSum, ih (i + 1), List.length_cons, h]
    ring

theorem weightedSum_shift (n : Nat) (w : List Byte) : ∀ i : Nat, i + w.length ≤ n →
    weightedSum n i w = weightedSum n (i + 1) w + byteSum w := by
  induction w with
  | nil => intro i _; simp [weightedSum, byteSum]
  | cons e rest ih =>
    intro i hi
    simp only [List.length_cons] at hi
    simp only [weightedSum, byteSum, List.map_cons, List.sum_cons]
    rw [ih (i + 1) (by omega)]
    have h : n - i = (n - (i + 1)) + 1 := by omega
    rw [h]
    simp only [byteSum]
    ring

theorem byteSum_eq_sum (w : List Byte) :
    byteSum w = ∑ i in Finset.range w.length, (w.getD i 0).val := by
  induction w with
  | nil => simp [byteSum]
  | cons e rest ih =>
    rw [List.length_cons, Finset.sum_range_succ']
    simp only [byteSum, List.map_cons, List.sum_cons, List.getD_cons_succ, List.getD_cons_zero]
    simp only [byteSum] at ih
    rw [ih]
    ring

theorem weightedSum_eq_sum (n : Nat) (w : List Byte) : ∀ k : Nat,
    weightedSum n k w = ∑ i in Finset.range w.length, (n - (k + i)) * (w.getD i 0).val := by
  induction w with
  | nil => intro k; simp [weightedSum]
  | cons e rest ih =>
    intro k
    rw [List.length_cons, Finset.sum_range_succ']
    simp only [weightedSum, List.getD_cons_succ, List.getD_cons_zero, ih (k + 1), Nat.add_zero]
    rw [Nat.add_comm]
    congr 1
    apply Finset.sum_congr rfl
    intro i _
    have h : k + 1 + i = k + (i + 1) := by omega
    rw [h]

theorem Init_count (s : RollingSum) (w : List Byte) : (s.Init w).count = w.length % 65536 := by
  unfold RollingSum.Init
  rw [initLoop_count]
  rfl

theorem Init_lt (s : RollingSum) (w : List Byte) :
    (s.Init w).a < 65536 ∧ (s.Init w).b < 65536 := by
  unfold RollingSum.Init
  exact initLoop_lt w _ 0 (by simp [RollingSum.Reset]) (by simp [RollingSum.Reset])

theorem Init_cast (s : RollingSum) (w : List Byte) :
    ((s.Init w).a : ZMod 65536) = (byteSum w : ZMod 65536) ∧
    ((s.Init w).b : ZMod 65536) = (weightedSum w.length 0 w : ZMod 65536) := by
  unfold RollingSum.Init
  have h := initLoop_cast w.length w { s.Reset with count := u16 w.length } 0 (by omega)
    (by simp only [cast_u16])
  simpa [RollingSum.Reset] using h

theorem Init_roll (s t : RollingSum) (o : Byte) (w : List Byte) (x : Byte) :
    (s.Init (o :: w)).Roll o x = t.Init (w ++ [x]) := by
  obtain ⟨ha, hb⟩ := Init_cast s (o :: w)
  obtain ⟨ha2, hb2⟩ := Init_cast t (w ++ [x])
  obtain ⟨hla, hlb⟩ := Init_lt t (w ++ [x])
  have hc := Init_count s (o :: w)
  have hc2 := Init_count t (w ++ [x])
  have hcc : ((s.Init (o :: w)).count : ZMod 65536) = ((w.length + 1 : Nat) : ZMod 65536) := by
    rw [hc, List.length_cons, ZMod.natCast_mod]
  have hlen : (w ++ [x]).length = w.length + 1 := by simp
  have e1 : ((s.Init (o :: w)).Roll o x).a = (t.Init (w ++ [x])).a := by
    apply eq_of_cast_eq (u16_lt _) hla
    rw [ha2]
    simp only [RollingSum.Roll, cast_u16, Nat.cast_add, cast_sub16, ha, byteSum_append]
    simp only [byteSum, List.map_cons, List.sum_cons, Nat.cast_add]
    ring
  have e2 : ((s.Init (o :: w)).Roll o x).b = (t.Init (w ++ [x])).b := by
    apply eq_of_cast_eq (u16_lt _) hlb
    rw [hb2, hlen, weightedSum_append, weightedSum_shift (w.length + 1) w 0 (by omega)]
    simp only [RollingSum.Roll, cast_u16, Nat.cast_add, Nat.cast_mul, cast_sub16, ha, hb, hcc]
    simp only [weightedSum, byteSum, List.map_cons, List.sum_cons, Nat.cast_add, Nat.cast_mul,
      List.length_cons, Nat.zero_add, Nat.sub_zero]
    have h1 : w.length + 1 - w.length = 1 := by omega
    rw [h1]
    push_cast
    ring
  have e3 : ((s.Init (o :: w)).Roll o x).count = (t.Init (w ++ [x])).count := by
    simp only [RollingSum.Roll, hc, hc2, hlen, List.length_cons]
  cases h1 : (s.Init (o :: w)).Roll o x
  cases h2 : t.Init (w ++ [x])
  rw [h1, h2] at e1 e2 e3
  simp only at e1 e2 e3
  rw [e1, e2, e3]

theorem rollAll_init (xs : List Byte) : ∀ (s : RollingSum) (o : Byte) (w : List Byte),
    rollAll (s.Init (o :: w)) (o :: w) xs = s.Init (((o :: w) ++ xs).drop xs.length) := by
  induction xs with
  | nil => intro s o w; simp [rollAll]
  | cons x xs ih =>
    intro s o w
    simp only [rollAll]
    rw [Init_roll s s o w x]
    cases w with
    | nil =>
      have h := ih s x []
      simp only [List.nil_append] at h ⊢
      rw [h]
      simp
    | cons o1 w1 =>
      have h := ih s o1 (w1 ++ [x])
      simp only [List.cons_append] at h ⊢
      rw [h]
      simp

theorem Sum_eq (s : RollingSum) (ha : s.a < 65536) (hb : s.b < 65536) :
    s.Sum = s.b * 65536 + s.a ∧ s.Sum = (s.b <<< 16) ||| s.a := by
  unfold RollingSum.Sum
  have h1 : s.b % 4294967296 = s.b := Nat.mod_eq_of_lt (by omega)
  have h2 : s.a % 4294967296 = s.a := Nat.mod_eq_of_lt (by omega)
  have h3 : s.b <<< 16 = 2 ^ 16 * s.b := by rw [Nat.shiftLeft_eq, Nat.mul_comm]
  have h4 : (s.b <<< 16) % 4294967296 = s.b <<< 16 := by
    apply Nat.mod_eq_of_lt
    rw [h3]
    omega
  rw [h1, h2, h4]
  refine ⟨?_, rfl⟩
  rw [h3, ← Nat.mul_add_lt_is_or (by omega : s.a < 2 ^ 16)]
  omega

/-- C3. For every non-empty window `o :: w` and every byte `x`, `Init` on the
window followed by `Roll(o, x)` leaves the state `(a, b, count)`, and hence
`Sum()`, that `Init` leaves on the shifted window `w ++ [x]`; and `Init`
followed by any number of rolls equals `Init` on the final window, as in
TestRoll, where `hello` is rolled six times into `world`. -/
theorem C3_roll_equals_init (s t : RollingSum) (o : Byte) (w : List Byte) (x : Byte)
    (xs : List Byte) :
    (s.Init (o :: w)).Roll o x = t.Init (w ++ [x]) ∧
    ((s.Init (o :: w)).Roll o x).Sum = (t.Init (w ++ [x])).Sum ∧
    rollAll (s.Init (o :: w)) (o :: w) xs = t.Init (((o :: w) ++ xs).drop xs.length) ∧
    (rollAll (New.Init [104, 101, 108, 108, 111]) [104, 101, 108, 108, 111]
        [32, 119, 111, 114, 108, 100]).Sum = (New.Init [119, 111, 114, 108, 100]).Sum := by
  refine ⟨Init_roll s t o w x, by rw [Init_roll s t o w x], ?_, by decide⟩
  rw [rollAll_init]
  unfold RollingSum.Init
  rfl

/-- C4. After `Init(w)` on a window of length `n`: `count = n mod 2^16`,
`a` is the sum of the bytes modulo `2^16`, `b` is the sum of `(n - i) * w_i`
over the 0-based positions `i` modulo `2^16`, and `Sum()` is
`b * 2^16 + a`, that is `(b << 16) | a`; `Init([1,2,3]).Sum()` is 655366. -/
theorem C4_init_closed_form (s : RollingSum) (w : List Byte) :
    (s.Init w).count = w.length % 65536 ∧
    (s.Init w).a = (∑ i in Finset.range w.length, (w.getD i 0).val) % 65536 ∧
    (s.Init w).b =
      (∑ i in Finset.range w.length, (w.length - i) * (w.getD i 0).val) % 65536 ∧
    (s.Init w).Sum = (s.Init w).b * 65536 + (s.Init w).a ∧
    (s.Init w).Sum = ((s.Init w).b <<< 16) ||| (s.Init w).a ∧
    (New.Init [1, 2, 3]).Sum = 655366 := by
  obtain ⟨hla, hlb⟩ := Init_lt s w
  obtain ⟨ha, hb⟩ := Init_cast s w
  obtain ⟨hs1, hs2⟩ := Sum_eq (s.Init w) hla hlb
  refine ⟨Init_count s w, ?_, ?_, hs1, hs2, by decide⟩
  · rw [← byteSum_eq_sum]
    exact eq_mod_of_cast_eq hla ha
  · have h := weightedSum_eq_sum w.length w 0
    simp only [Nat.zero_add] at h
    rw [← h]
    exact eq_mod_of_cast_eq hlb hb

end rollsum

/-! ## Byte streams and big-endian integers -/

namespace stream

theorem putUint64_length (v : Nat) : (putUint64 v).length = 8 := rfl

theorem putUint32_length (v : Nat) : (putUint32 v).length = 4 := rfl

theorem beUint_putUint64 (v : Nat) :
    beUint (putUint64 v) = v % 18446744073709551616 := by
  simp only [beUint, putUint64, byte, List.foldl, Nat.shiftRight_eq_div_pow]
  omega

theorem beUint_putUint32 (v : Nat) : beUint (putUint32 v) = v % 4294967296 := by
  simp only [beUint, putUint32, byte, List.foldl, Nat.shiftRight_eq_div_pow]
  omega

theorem ReadFull_append (bs rest : List Byte) (h : bs ≠ []) :
    ReadFull (bs ++ rest) bs.length = .ok (bs, rest) := by
  have h1 : bs.length ≠ 0 := fun h0 => h (List.length_eq_zero.mp h0)
  have h2 : bs ++ rest ≠ [] := by simp [h]
  have h3 : ¬ (bs ++ rest).length < bs.length := by simp
  simp only [ReadFull, h1, h2, h3, if_false, List.take_left, List.drop_left]

theorem binaryRead_putUint64 (v : Nat) (rest : List Byte) :
    binaryRead (putUint64 v ++ rest) 8 = .ok (v % 18446744073709551616, rest) := by
  have h := ReadFull_append (putUint64 v) rest (by simp [putUint64])
  rw [putUint64_length] at h
  simp only [binaryRead, h, beUint_putUint64]

theorem binaryRead_putUint32 (v : Nat) (rest : List Byte) :
    binaryRead (putUint32 v ++ rest) 4 = .ok (v % 4294967296, rest) := by
  have h := ReadFull_append (putUint32 v) rest (by simp [putUint32])
  rw [putUint32_length] at h
  simp only [binaryRead, h, beUint_putUint32]

theorem binaryRead_byte (b : Byte) (rest : List Byte) :
    binaryRead (b :: rest) 1 = .ok (b.val, rest) := by
  have h := ReadFull_append [b] rest (by simp)
  simp only [List.length_singleton, List.singleton_append] at h
  simp [binaryRead, h, beUint]

theorem Read_append (bs rest : List Byte) (h : bs ≠ []) :
    Read (bs ++ rest) bs.length = .ok (bs, rest) := by
  have h1 : bs.length ≠ 0 := fun h0 => h (List.length_eq_zero.mp h0)
  have h2 : bs ++ rest ≠ [] := by simp [h]
  simp only [Read, h1, h2, if_false, List.take_left, List.drop_left]

theorem toInt64_of_lt (u : Nat) (h : u < 9223372036854775808) : toInt64 u = (u : Int) := by
  have h1 : u % 18446744073709551616 = u := Nat.mod_eq_of_lt (by omega)
  simp only [toInt64, h1, h, if_true]

end stream

/-! ## The delta wire format, and patching -/

namespace librsync

theorem bigEndian_eight (v : Nat) : bigEndian 8 v = stream.putUint64 v := by
  simp [bigEndian, stream.putUint64, List.range_succ, Nat.shiftRight_eq_div_pow]

theorem bigEndian_four (v : Nat) : bigEndian 4 v = stream.putUint32 v := by
  simp [bigEndian, stream.putUint32, List.range_succ, Nat.shiftRight_eq_div_pow]

theorem chunk_write_eq (c : chunk) (out : List Byte) :
    c.write out = (out ++ chunkRecord c, none) := by
  cases c <;>
    simp [chunk.write, chunkRecord, bigEndian_eight, chunkTypeReusable, chunkTypeModified]

theorem writeLoop_eq (cs : List chunk) : ∀ out : List Byte,
    Delta.writeLoop cs out = (out ++ cs.flatMap chunkRecord, none) := by
  induction cs with
  | nil => intro out; simp [Delta.writeLoop]
  | cons c cs ih =>
    intro out
    simp only [Delta.writeLoop, chunk_write_eq, ih, List.flatMap_cons, List.append_assoc]

theorem readChunk_record (c : chunk) (rest : List Byte) (h : c.wellFormed) :
    readChunk (chunkRecord c ++ rest) = .ok (c, rest) := by
  cases c with
  | reusable sp len =>
    obtain ⟨h1, h2⟩ := h
    have e : chunkRecord (.reusable sp len) ++ rest =
        (0 : Byte) :: (stream.putUint64 sp ++ (stream.putUint64 len ++ rest)) := by
      simp [chunkRecord, bigEndian_eight]
    rw [e]
    simp only [readChunk, stream.binaryRead_byte, stream.binaryRead_putUint64,
      Nat.mod_eq_of_lt h1, Nat.mod_eq_of_lt h2]
    rw [if_pos (by decide)]
  | modified data =>
    have h1 : data.length < 18446744073709551616 := h
    have e : chunkRecord (.modified data) ++ rest =
        (1 : Byte) :: (stream.putUint64 data.length ++ (data ++ rest)) := by
      simp [chunkRecord, bigEndian_eight]
    rw [e]
    simp only [readChunk, stream.binaryRead_byte, stream.binaryRead_putUint64,
      Nat.mod_eq_of_lt h1]
    rw [if_neg (by decide), if_pos (by decide)]
    cases data with
    | nil => simp [stream.Read]
    | cons b bs =>
      rw [stream.Read_append (b :: bs) rest (by simp)]
      simp

theorem ReadDelta_loop_records (cs : List chunk) : ∀ (fuel : Nat) (acc : List chunk),
    cs.length < fuel → (∀ c ∈ cs, c.wellFormed) →
    ReadDelta.loop fuel (cs.flatMap chunkRecord) { chunks := acc } = .ok { chunks := acc ++ cs } := by
  induction cs with
  | nil =>
    intro fuel acc hf _
    cases fuel with
    | zero => omega
    | succ f => simp [ReadDelta.loop, readChunk, stream.binaryRead, stream.ReadFull]
  | cons c cs ih =>
    intro fuel acc hf hw
    cases fuel with
    | zero => omega
    | succ f =>
      simp only [List.length_cons] at hf
      simp only [ReadDelta.loop, List.flatMap_cons,
        readChunk_record c _ (hw c (List.mem_cons_self c cs))]
      rw [ih f (acc ++ [c]) (by omega) (fun x hx => hw x (List.mem_cons_of_mem c hx))]
      simp

theorem chunkRecord_length_pos (c : chunk) : 0 < (chunkRecord c).length := by
  cases c <;> simp [chunkRecord]

theorem flatMap_record_length (cs : List chunk) :
    cs.length ≤ (cs.flatMap chunkRecord).length := by
  induction cs with
  | nil => simp
  | cons c cs ih =>
    have h := chunkRecord_length_pos c
    simp only [List.flatMap_cons, List.length_append, List.length_cons]
    omega

/-- C7. `Delta.Write` emits the records of the chunks in order, with nothing
before, between or after them: 17 bytes for a Reusable chunk (tag 0,
`startPosition`, `length`, big-endian on 8 bytes each), `9 + n` bytes for a
Literal chunk of `n` data bytes (tag 1, data length, data); the delta of
TestDeltaWrite is written as the 44 bytes the test asserts. -/
theorem C7_write_format (d : Delta) (out : List Byte) :
    d.Write out = (out ++ d.chunks.flatMap chunkRecord, none) ∧
    (∀ startPosition length : Nat, (chunkRecord (.reusable startPosition length)).length = 17) ∧
    (∀ data : List Byte, (chunkRecord (.modified data)).length = 9 + data.length) ∧
    testDelta.Write [] = (testDeltaBytes, none) := by
  refine ⟨writeLoop_eq d.chunks out, ?_, ?_, by decide⟩
  · intro sp len
    simp [chunkRecord, bigEndian]
  · intro data
    simp [chunkRecord, bigEndian]
    omega

/-- C5. `ReadDelta` applied to the bytes written by `d.Write` succeeds and
returns `d` itself, for every delta `d` whose chunks hold values of the
source types (`uint64` fields, a data length within `uint64`). -/
theorem C5_read_write_delta (d : Delta) (h : ∀ c ∈ d.chunks, c.wellFormed) :
    (d.Write []).2 = none ∧ ReadDelta (d.Write []).1 = .ok d := by
  have hw : d.Write [] = ([] ++ d.chunks.flatMap chunkRecord, none) := writeLoop_eq d.chunks []
  rw [hw]
  refine ⟨rfl, ?_⟩
  simp only [List.nil_append, ReadDelta]
  have hl := flatMap_record_length d.chunks
  rw [ReadDelta_loop_records d.chunks _ [] (by omega) h]
  rfl

/-- C5, at the delta `[Reusable(0,32), Literal([19]), Reusable(32,34)]` and
the 44-byte stream of TestReadDelta and TestDeltaWrite. -/
theorem C5_read_write_delta_witness :
    (∀ c ∈ testDelta.chunks, c.wellFormed) ∧
    ((testDelta.Write []).2 = none ∧ ReadDelta (testDelta.Write []).1 = .ok testDelta) ∧
    (testDelta.Write []).1 = testDeltaBytes ∧ ReadDelta testDeltaBytes = .ok testDelta :=
  ⟨by decide, C5_read_write_delta testDelta (by decide), by decide, by decide⟩

theorem patch_inside (base : List Byte) (hb : base.length < 9223372036854775808) (c : chunk)
    (h : c.inside base) (out : List Byte) :
    c.patch base out = (out ++ c.content base, none) := by
  cases c with
  | modified data => rfl
  | reusable sp len =>
    have h1 : sp + len ≤ base.length := h
    have e1 := stream.toInt64_of_lt sp (by omega)
    have e2 := stream.toInt64_of_lt len (by omega)
    simp only [chunk.patch, chunk.content, e1, e2, CopyN, Int.toNat_ofNat]
    have h2 : ¬ ((sp : Int) < 0) := by omega
    simp only [h2, if_false]
    by_cases h3 : (len : Int) ≤ 0
    · have h4 : len = 0 := by omega
      simp [h4]
    · have h5 : ((base.drop sp).take len).length = len := by
        simp only [List.length_take, List.length_drop]
        omega
      simp only [h3, h5, if_true, if_false]

theorem patchLoop_inside (base : List Byte) (hb : base.length < 9223372036854775808)
    (cs : List chunk) : ∀ out : List Byte, (∀ c ∈ cs, c.inside base) →
    Delta.patchLoop cs base out = (out ++ cs.flatMap (chunk.content base), none) := by
  induction cs with
  | nil => intro out _; simp [Delta.patchLoop]
  | cons c cs ih =>
    intro out h
    simp only [Delta.patchLoop, patch_inside base hb c (h c (List.mem_cons_self c cs)),
      ih _ (fun x hx => h x (List.mem_cons_of_mem c hx)), List.flatMap_cons, List.append_assoc]

/-- C8. For every basis (of a length a seekable Go source can have, below
`2^63`) and every delta all of whose Reusable chunks lie inside the basis,
`Delta.Patch` succeeds and appends to the output, in chunk order, the range
`basis[startPosition .. startPosition+length)` of each Reusable chunk and the
data of each Literal chunk. -/
theorem C8_patch_output (d : Delta) (base out : List Byte)
    (hb : base.length < 9223372036854775808) (h : ∀ c ∈ d.chunks, c.inside base) :
    d.Patch base out = (out ++ d.chunks.flatMap (chunk.content base), none) :=
  patchLoop_inside base hb d.chunks out h

/-- C8, at TestDeltaPatch: the test delta over the 66-byte basis yields the
basis with the byte 19 inserted at offset 32. -/
theorem C8_patch_output_witness :
    testBasis.length < 9223372036854775808 ∧ (∀ c ∈ testDelta.chunks, c.inside testBasis) ∧
    testDelta.Patch testBasis [] = ([] ++ testDelta.chunks.flatMap (chunk.content testBasis), none) ∧
    testDelta.Patch testBasis [] = (testPatched, none) ∧
    testPatched = testBasis.take 32 ++ [19] ++ testBasis.drop 32 :=
  ⟨by decide, by decide, C8_patch_output testDelta testBasis [] (by decide) (by decide),
    by decide, by decide⟩

end librsync

/-! ## The scan of `NewDelta`: termination and the alternation of kinds -/

namespace librsync

theorem append_chunkType (a c : chunk) : (a.append c).chunkType = a.chunkType := by
  cases a <;> cases c <;> rfl

theorem addChunk_nil (c : chunk) : Delta.addChunk { chunks := [] } c = { chunks := [c] } := rfl

theorem addChunk_concat (l : List chunk) (last c : chunk) :
    Delta.addChunk { chunks := l ++ [last] } c =
      if last.chunkType = c.chunkType then { chunks := l ++ [last.append c] }
      else { chunks := l ++ [last, c] } := by
  have h1 : (l ++ [last]).getLast? = some last := by simp
  have h2 : (l ++ [last]).dropLast = l := by simp
  simp only [Delta.addChunk, h1, h2, List.append_assoc, List.singleton_append]

theorem addChunk_noAdjacent (d : Delta) (c : chunk) (h : d.noAdjacentSameKind) :
    (d.addChunk c).noAdjacentSameKind := by
  obtain ⟨chunks⟩ := d
  rcases List.eq_nil_or_concat chunks with h0 | ⟨l, last, h1⟩
  · subst h0
    simp [addChunk_nil, Delta.noAdjacentSameKind]
  · subst h1
    rw [List.concat_eq_append] at h ⊢
    rw [addChunk_concat]
    unfold Delta.noAdjacentSameKind at h
    rw [List.chain'_append] at h
    obtain ⟨h2, _, h4⟩ := h
    by_cases hk : last.chunkType = c.chunkType
    · rw [if_pos hk]
      unfold Delta.noAdjacentSameKind
      rw [List.chain'_append]
      refine ⟨h2, List.chain'_singleton _, ?_⟩
      intro x hx y hy
      simp only [List.head?_cons, Option.mem_def, Option.some.injEq] at hy
      subst hy
      rw [append_chunkType]
      exact h4 x hx last (by simp)
    · rw [if_neg hk]
      unfold Delta.noAdjacentSameKind
      rw [List.chain'_append]
      refine ⟨h2, ?_, ?_⟩
      · simp [List.chain'_cons, hk]
      · intro x hx y hy
        simp only [List.head?_cons, Option.mem_def, Option.some.injEq] at hy
        rw [← hy]
        exact h4 x hx last (by simp)

theorem lookup_mem (m : List (Nat × Nat)) (k v : Nat) (h : m.lookup k = some v) :
    (k, v) ∈ m := by
  induction m with
  | nil => simp at h
  | cons p m ih =>
    obtain ⟨k1, v1⟩ := p
    rw [List.lookup_cons] at h
    by_cases hk : k = k1
    · subst hk
      simp only [beq_self_eq_true] at h
      simp only [Option.some.injEq] at h
      subst h
      exact List.mem_cons_self _ _
    · have hb : (k == k1) = false := by simpa using hk
      simp only [hb] at h
      exact List.mem_cons_of_mem _ (ih h)

theorem getChunk_ok (block : List Byte) (weakSum : Nat) (s : Signature) (hb : block ≠ [])
    (hs : s.idsInRange) : ∃ c, getChunk block weakSum s = .ok c := by
  obtain ⟨b, tl, rfl⟩ := List.exists_cons_of_ne_nil hb
  unfold getChunk
  cases hl : s.weakSignaturesToBlockID.lookup weakSum with
  | none => exact ⟨_, rfl⟩
  | some blockID =>
    have hlt : blockID < s.strongSignatures.length := hs _ (lookup_mem _ _ _ hl)
    obtain ⟨strong, hg⟩ : ∃ strong, s.strongSignatures.get? blockID = some strong :=
      ⟨_, List.get?_eq_get hlt⟩
    simp only [hg]
    by_cases he : strong = computeStrongChecksum (b :: tl)
    · exact ⟨_, by rw [if_pos he]⟩
    · exact ⟨_, by rw [if_neg he]⟩

theorem getChunk_kind (block : List Byte) (weakSum : Nat) (s : Signature) (c : chunk)
    (h : getChunk block weakSum s = .ok c) :
    (∃ blockID, c = .reusable (u64 (blockID * block.length)) block.length) ∨
    (∃ b tl, block = b :: tl ∧ c = .modified [b]) := by
  unfold getChunk at h
  have hlit : ∀ c1 : chunk,
      (match block with
        | [] => (Except.error Err.sliceOutOfRange : Except Err chunk)
        | b :: _ => Except.ok (chunk.modified [b])) = Except.ok c1 →
      ∃ b tl, block = b :: tl ∧ c1 = .modified [b] := by
    intro c1 h1
    cases block with
    | nil => simp at h1
    | cons b tl =>
      simp only [Except.ok.injEq] at h1
      exact ⟨b, tl, rfl, h1.symm⟩
  cases hl : s.weakSignaturesToBlockID.lookup weakSum with
  | none =>
    rw [hl] at h
    exact Or.inr (hlit c h)
  | some blockID =>
    rw [hl] at h
    simp only at h
    cases hg : s.strongSignatures.get? blockID with
    | none => rw [hg] at h; simp at h
    | some strong =>
      rw [hg] at h
      simp only at h
      by_cases he : strong = computeStrongChecksum block
      · rw [if_pos he] at h
        simp only [Except.ok.injEq] at h
        exact Or.inl ⟨blockID, h.symm⟩
      · rw [if_neg he] at h
        exact Or.inr (hlit c h)

theorem Read_ok_length (r : List Byte) (n : Nat) (data rest : List Byte)
    (h : stream.Read r n = .ok (data, rest)) :
    data = r.take n ∧ rest = r.drop n ∧ (n ≠ 0 → r ≠ []) := by
  unfold stream.Read at h
  by_cases h0 : n = 0
  · rw [if_pos h0] at h
    simp only [Except.ok.injEq, Prod.mk.injEq] at h
    subst h0
    simp [h.1, h.2]
  · rw [if_neg h0] at h
    by_cases h1 : r = []
    · rw [if_pos h1] at h
      simp at h
    · rw [if_neg h1] at h
      simp only [Except.ok.injEq, Prod.mk.injEq] at h
      exact ⟨h.1.symm, h.2.symm, fun _ => h1⟩

theorem Read_cases (r : List Byte) (n : Nat) :
    (n = 0 ∧ stream.Read r n = .ok ([], r)) ∨
    (n ≠ 0 ∧ r = [] ∧ stream.Read r n = .error .EOF) ∨
    (n ≠ 0 ∧ r ≠ [] ∧ stream.Read r n = .ok (r.take n, r.drop n)) := by
  unfold stream.Read
  by_cases h0 : n = 0
  · exact Or.inl ⟨h0, by rw [if_pos h0]⟩
  · by_cases h1 : r = []
    · exact Or.inr (Or.inl ⟨h0, h1, by rw [if_neg h0, if_pos h1]⟩)
    · exact Or.inr (Or.inr ⟨h0, h1, by rw [if_neg h0, if_neg h1]⟩)

theorem NewDelta_loop_zero (s : Signature) (r block : List Byte) (rSum : rollsum.RollingSum)
    (prev : chunkType) (delta : Delta) :
    NewDelta.loop s 0 r block rSum prev delta = .error .outOfFuel := rfl

theorem NewDelta_loop_succ (s : Signature) (fuel : Nat) (r block : List Byte)
    (rSum : rollsum.RollingSum) (prev : chunkType) (delta : Delta) :
    NewDelta.loop s (fuel + 1) r block rSum prev delta =
      if prev = chunkTypeReusable then
        match stream.Read r block.length with
        | .error .EOF => .ok delta
        | .error e => .error e
        | .ok (data, rest) =>
          match getChunk data (rSum.Init data).Sum s with
          | .error e => .error e
          | .ok c => NewDelta.loop s fuel rest data (rSum.Init data) c.chunkType (delta.addChunk c)
      else
        match block with
        | [] => .error .sliceOutOfRange
        | b0 :: tail =>
          match stream.Read r 1 with
          | .error .EOF => .ok (delta.addChunk (.modified tail))
          | .error e => .error e
          | .ok (singleByte, rest) =>
            match singleByte with
            | [] => .error .indexOutOfRange
            | x :: _ =>
              match getChunk (tail ++ singleByte) (rSum.Roll b0 x).Sum s with
              | .error e => .error e
              | .ok c =>
                NewDelta.loop s fuel rest (tail ++ singleByte) (rSum.Roll b0 x) c.chunkType
                  (delta.addChunk c) := rfl

theorem NewDelta_loop_ok (s : Signature) (hs : s.idsInRange) : ∀ (fuel : Nat) (r block : List Byte)
    (rSum : rollsum.RollingSum) (prev : chunkType) (delta : Delta),
    r.length < fuel → block ≠ [] →
    ∃ d, NewDelta.loop s fuel r block rSum prev delta = .ok d := by
  intro fuel
  induction fuel with
  | zero => intro r _ _ _ _ h; omega
  | succ f ih =>
    intro r block rSum prev delta hf hb
    have hbl : block.length ≠ 0 := fun h0 => hb (List.length_eq_zero.mp h0)
    rw [NewDelta_loop_succ]
    by_cases hp : prev = chunkTypeReusable
    · rw [if_pos hp]
      rcases Read_cases r block.length with ⟨h0, _⟩ | ⟨_, _, h2⟩ | ⟨_, h1, h2⟩
      · exact absurd h0 hbl
      · rw [h2]
        exact ⟨delta, rfl⟩
      · rw [h2]
        have hne : r.take block.length ≠ [] := by
          intro h3
          rw [List.take_eq_nil_iff] at h3
          rcases h3 with h3 | h3
          · exact hbl h3
          · exact h1 h3
        obtain ⟨c, hc⟩ := getChunk_ok (r.take block.length)
          (rSum.Init (r.take block.length)).Sum s hne hs
        simp only [hc]
        have hlen : (r.drop block.length).length < f := by
          have : r.length ≠ 0 := fun h0 => h1 (List.length_eq_zero.mp h0)
          simp only [List.length_drop]
          omega
        exact ih _ _ _ _ _ hlen hne
    · rw [if_neg hp]
      obtain ⟨b0, tail, rfl⟩ := List.exists_cons_of_ne_nil hb
      simp only
      rcases Read_cases r 1 with ⟨h0, _⟩ | ⟨_, _, h2⟩ | ⟨_, h1, h2⟩
      · exact absurd h0 (by decide)
      · rw [h2]
        exact ⟨_, rfl⟩
      · rw [h2]
        obtain ⟨x, rest, rfl⟩ := List.exists_cons_of_ne_nil h1
        simp only [List.take_succ_cons, List.take_zero, List.drop_succ_cons, List.drop_zero]
        have hne : tail ++ [x] ≠ [] := by simp
        obtain ⟨c, hc⟩ := getChunk_ok (tail ++ [x]) (rSum.Roll b0 x).Sum s hne hs
        simp only [hc]
        simp only [List.length_cons] at hf
        exact ih _ _ _ _ _ (by omega) hne

theorem NewDelta_loop_noAdjacent (s : Signature) : ∀ (fuel : Nat) (r block : List Byte)
    (rSum : rollsum.RollingSum) (prev : chunkType) (delta d : Delta),
    delta.noAdjacentSameKind →
    NewDelta.loop s fuel r block rSum prev delta = .ok d → d.noAdjacentSameKind := by
  intro fuel
  induction fuel with
  | zero => intro r _ _ _ _ _ _ h; simp [NewDelta_loop_zero] at h
  | succ f ih =>
    intro r block rSum prev delta d hd h
    rw [NewDelta_loop_succ] at h
    by_cases hp : prev = chunkTypeReusable
    · rw [if_pos hp] at h
      rcases Read_cases r block.length with ⟨_, h2⟩ | ⟨_, _, h2⟩ | ⟨_, _, h2⟩
      all_goals rw [h2] at h
      · simp only at h
        cases hc : getChunk [] (rSum.Init []).Sum s with
        | error e => rw [hc] at h; simp at h
        | ok c =>
          rw [hc] at h
          exact ih _ _ _ _ _ _ (addChunk_noAdjacent delta c hd) h
      · simp only [Except.ok.injEq] at h
        rw [← h]
        exact hd
      · simp only at h
        cases hc : getChunk (r.take block.length) (rSum.Init (r.take block.length)).Sum s with
        | error e => rw [hc] at h; simp at h
        | ok c =>
          rw [hc] at h
          exact ih _ _ _ _ _ _ (addChunk_noAdjacent delta c hd) h
    · rw [if_neg hp] at h
      cases block with
      | nil => simp at h
      | cons b0 tail =>
        simp only at h
        rcases Read_cases r 1 with ⟨h0, _⟩ | ⟨_, _, h2⟩ | ⟨_, h1, h2⟩
        · exact absurd h0 (by decide)
        · rw [h2] at h
          simp only [Except.ok.injEq] at h
          rw [← h]
          exact addChunk_noAdjacent delta _ hd
        · rw [h2] at h
          obtain ⟨x, rest, rfl⟩ := List.exists_cons_of_ne_nil h1
          simp only [List.take_succ_cons, List.take_zero, List.drop_succ_cons,
            List.drop_zero] at h
          cases hc : getChunk (tail ++ [x]) (rSum.Roll b0 x).Sum s with
          | error e => rw [hc] at h; simp at h
          | ok c =>
            rw [hc] at h
            exact ih _ _ _ _ _ _ (addChunk_noAdjacent delta c hd) h

/-- C9. The delta returned by `NewDelta` never contains two adjacent chunks
of the same kind; and on every signature with a block length of at least 1
whose block ids are indices of its strong hashes (as `NewSignature` and
`ReadSignature` build them), `NewDelta` does return a delta, for every new
stream. -/
theorem C9_no_adjacent_same_kind (r : List Byte) (s : Signature) (hL : 1 ≤ s.blockLength) :
    (∀ d, NewDelta r s = .ok d → d.noAdjacentSameKind) ∧
    (s.idsInRange → ∃ d, NewDelta r s = .ok d ∧ d.noAdjacentSameKind) := by
  have h1 : ∀ d, NewDelta r s = .ok d → d.noAdjacentSameKind := fun d h =>
    NewDelta_loop_noAdjacent s _ _ _ _ _ _ d List.chain'_nil h
  refine ⟨h1, fun hs => ?_⟩
  have hb : List.replicate s.blockLength (0 : Byte) ≠ [] := by
    intro h
    have h2 := congrArg List.length h
    simp only [List.length_replicate, List.length_nil] at h2
    omega
  obtain ⟨d, hd⟩ := NewDelta_loop_ok s hs (r.length + 1) r _ rollsum.New chunkTypeReusable
    { chunks := [] } (by omega) hb
  exact ⟨d, hd, h1 d hd⟩

/-- C9, at the stream of the test `should handle additions` and the
signature of the tests. -/
theorem C9_no_adjacent_same_kind_witness :
    1 ≤ testSignature.blockLength ∧
    ((∀ d, NewDelta testPatched testSignature = .ok d → d.noAdjacentSameKind) ∧
     (testSignature.idsInRange →
       ∃ d, NewDelta testPatched testSignature = .ok d ∧ d.noAdjacentSameKind)) :=
  ⟨by decide, C9_no_adjacent_same_kind testPatched testSignature (by decide)⟩

end librsync

/-! ## Signatures: construction, serialization, and reading back -/

namespace librsync

theorem blocks_fuel (L : Nat) (hL : 1 ≤ L) : ∀ (f1 f2 : Nat) (r : List Byte),
    r.length ≤ f1 → r.length ≤ f2 → blocks L f1 r = blocks L f2 r := by
  intro f1
  induction f1 with
  | zero =>
    intro f2 r h1 _
    have hr : r = [] := List.length_eq_zero.mp (by omega)
    subst hr
    cases f2 <;> simp [blocks]
  | succ f ih =>
    intro f2 r h1 h2
    cases f2 with
    | zero =>
      have hr : r = [] := List.length_eq_zero.mp (by omega)
      subst hr
      simp [blocks]
    | succ g =>
      by_cases hr : r = []
      · simp [blocks, hr]
      · have hlen : 0 < r.length := List.length_pos.mpr hr
        simp only [blocks, hr, if_false]
        rw [ih g (r.drop L) (by simp only [List.length_drop]; omega)
          (by simp only [List.length_drop]; omega)]

theorem NewSignature_loop_zero (L : Nat) (r : List Byte) (sig : Signature) :
    NewSignature.loop L 0 r sig = .error .outOfFuel := rfl

theorem NewSignature_loop_succ (L fuel : Nat) (r : List Byte) (sig : Signature) :
    NewSignature.loop L (fuel + 1) r sig =
      match stream.Read r L with
      | .error .EOF => .ok sig
      | .error e => .error e
      | .ok (block, rest) =>
        NewSignature.loop L fuel rest
          { sig with
            weakSignaturesToBlockID :=
              mapSet sig.weakSignaturesToBlockID (computeRollingChecksum block)
                sig.strongSignatures.length,
            strongSignatures := sig.strongSignatures ++ [computeStrongChecksum block] } := rfl

theorem NewSignature_loop_eq (L : Nat) (hL : 1 ≤ L) : ∀ (fuel : Nat) (r : List Byte)
    (sig : Signature), r.length < fuel →
    NewSignature.loop L fuel r sig = .ok (addBlocks sig (blocks L fuel r)) := by
  intro fuel
  induction fuel with
  | zero => intro r _ h; omega
  | succ f ih =>
    intro r sig hf
    rw [NewSignature_loop_succ]
    rcases Read_cases r L with ⟨h0, _⟩ | ⟨_, h1, h2⟩ | ⟨_, h1, h2⟩
    · omega
    · rw [h2]
      simp [blocks, h1, addBlocks]
    · rw [h2]
      have hlen : 0 < r.length := List.length_pos.mpr h1
      simp only [blocks, h1, if_false, addBlocks]
      exact ih _ _ (by simp only [List.length_drop]; omega)

theorem NewSignature_eq (r : List Byte) (L : Nat) (hL : 32 ≤ L) :
    NewSignature r L =
      .ok (addBlocks { blockLength := L, strongSignatures := [], weakSignaturesToBlockID := [] }
        (blocksOf r L)) := by
  unfold NewSignature
  rw [if_neg (by omega), NewSignature_loop_eq L (by omega) _ _ _ (by omega)]
  unfold blocksOf
  rw [blocks_fuel L (by omega) (r.length + 1) r.length r (by omega) (by omega)]

theorem addBlocks_blockLength (bs : List (List Byte)) : ∀ sig : Signature,
    (addBlocks sig bs).blockLength = sig.blockLength := by
  induction bs with
  | nil => intro sig; rfl
  | cons b bs ih => intro sig; simp only [addBlocks]; rw [ih]

theorem addBlocks_strong (bs : List (List Byte)) : ∀ sig : Signature,
    (addBlocks sig bs).strongSignatures =
      sig.strongSignatures ++ bs.map computeStrongChecksum := by
  induction bs with
  | nil => intro sig; simp [addBlocks]
  | cons b bs ih => intro sig; simp only [addBlocks]; rw [ih]; simp

theorem mapSet_fresh (m : List (Nat × Nat)) (k v : Nat) (h : k ∉ m.map Prod.fst) :
    mapSet m k v = m ++ [(k, v)] := by
  induction m with
  | nil => rfl
  | cons p m ih =>
    obtain ⟨k1, v1⟩ := p
    simp only [List.map_cons, List.mem_cons, not_or] at h
    have hne : ¬ k1 = k := fun e => h.1 e.symm
    simp only [mapSet, hne, if_false, ih h.2, List.cons_append]

theorem addBlocks_map_nodup (bs : List (List Byte)) : ∀ sig : Signature,
    (sig.weakSignaturesToBlockID.map Prod.fst ++ bs.map computeRollingChecksum).Nodup →
    (addBlocks sig bs).weakSignaturesToBlockID =
      sig.weakSignaturesToBlockID ++
        (bs.map computeRollingChecksum).zip (List.range' sig.strongSignatures.length bs.length) := by
  induction bs with
  | nil => intro sig _; simp [addBlocks]
  | cons b bs ih =>
    intro sig hnd
    simp only [addBlocks]
    have hfresh : computeRollingChecksum b ∉ sig.weakSignaturesToBlockID.map Prod.fst := by
      intro hm
      rw [List.nodup_append] at hnd
      exact hnd.2.2 hm (by simp)
    rw [ih]
    · simp only [mapSet_fresh _ _ _ hfresh, List.length_append, List.length_singleton,
        List.map_cons, List.length_cons, List.range'_succ, List.zip_cons_cons,
        List.append_assoc, List.singleton_append, List.length_nil, Nat.zero_add]
    · simp only [mapSet_fresh _ _ _ hfresh, List.map_append, List.map_cons, List.map_nil,
        List.append_assoc, List.singleton_append]
      simpa using hnd

theorem fillWeakSigs_zip (ws : List Nat) : ∀ pre : List Nat,
    Signature.fillWeakSigs (ws.zip (List.range' pre.length ws.length))
      (pre ++ List.replicate ws.length 0) = .ok (pre ++ ws) := by
  induction ws with
  | nil => intro pre; simp [Signature.fillWeakSigs]
  | cons w ws ih =>
    intro pre
    simp only [List.length_cons, List.range'_succ, List.zip_cons_cons, Signature.fillWeakSigs,
      List.length_append, List.length_replicate, List.replicate_succ]
    rw [if_pos (by omega)]
    have hset : (pre ++ 0 :: List.replicate ws.length 0).set pre.length w =
        (pre ++ [w]) ++ List.replicate ws.length 0 := by
      rw [List.set_append_right _ _ (Nat.le_refl _)]
      simp
    rw [hset]
    have h := ih (pre ++ [w])
    simp only [List.length_append, List.length_singleton, List.append_assoc,
      List.singleton_append] at h ⊢
    exact h

theorem writeEntries_eq (bs : List (List Byte)) : ∀ (pre : List (List Byte)) (out : List Byte),
    Signature.writeEntries (pre ++ bs.map computeStrongChecksum) pre.length
      (bs.map computeRollingChecksum) out =
      (out ++ bs.flatMap fun b =>
        stream.putUint32 (computeRollingChecksum b) ++ computeStrongChecksum b, none) := by
  induction bs with
  | nil => intro pre out; simp [Signature.writeEntries]
  | cons b bs ih =>
    intro pre out
    have hg : (pre ++ List.map computeStrongChecksum (b :: bs)).get? pre.length =
        some (computeStrongChecksum b) := by
      rw [List.get?_eq_getElem?, List.getElem?_append_right (Nat.le_refl _)]
      simp
    simp only [List.map_cons, Signature.writeEntries] at hg ⊢
    rw [hg]
    simp only
    have h := ih (pre ++ [computeStrongChecksum b])
      (out ++ stream.putUint32 (computeRollingChecksum b) ++ computeStrongChecksum b)
    simp only [List.length_append, List.length_singleton, List.append_assoc,
      List.singleton_append] at h ⊢
    rw [h]
    simp

theorem Write_nodup (L : Nat) (bs : List (List Byte)) (out : List Byte)
    (hnd : (bs.map computeRollingChecksum).Nodup) :
    (addBlocks { blockLength := L, strongSignatures := [], weakSignaturesToBlockID := [] }
      bs).Write out =
      (out ++ stream.putUint32 L ++ bs.flatMap fun b =>
        stream.putUint32 (computeRollingChecksum b) ++ computeStrongChecksum b, none) := by
  unfold Signature.Write
  rw [addBlocks_map_nodup bs _ (by simpa using hnd), addBlocks_strong, addBlocks_blockLength]
  simp only [List.nil_append, List.length_nil, List.length_map]
  have h1 := fillWeakSigs_zip (bs.map computeRollingChecksum) []
  simp only [List.length_nil, List.length_map, List.nil_append] at h1
  rw [h1]
  have h2 := writeEntries_eq bs [] (out ++ stream.putUint32 L)
  simp only [List.length_nil, List.nil_append] at h2
  exact h2

theorem Sum256_length (msg : List Byte) : (sha256.Sum256 msg).length = 32 := by
  simp [sha256.Sum256, List.range_succ, stream.putUint32]

theorem computeStrongChecksum_length (b : List Byte) : (computeStrongChecksum b).length = 32 :=
  Sum256_length b

theorem computeRollingChecksum_lt (b : List Byte) : computeRollingChecksum b < 4294967296 := by
  unfold computeRollingChecksum
  obtain ⟨ha, hb⟩ := rollsum.Init_lt rollsum.New b
  rw [(rollsum.Sum_eq _ ha hb).1]
  omega

theorem ReadSignature_loop_zero (r : List Byte) (strongSigs : List (List Byte))
    (m : List (Nat × Nat)) : ReadSignature.loop 0 r strongSigs m = .error .outOfFuel := rfl

theorem ReadSignature_loop_succ (fuel : Nat) (r : List Byte) (strongSigs : List (List Byte))
    (m : List (Nat × Nat)) :
    ReadSignature.loop (fuel + 1) r strongSigs m =
      match stream.binaryRead r 4 with
      | .error .EOF => .ok (strongSigs, m)
      | .error e => .error e
      | .ok (weakSig, r1) =>
        match stream.Read r1 32 with
        | .error e => .error e
        | .ok (strongSig, r2) =>
          if strongSig.length ≠ 32 then .error (.tooShortStrongHash strongSig.length)
          else ReadSignature.loop fuel r2 (strongSigs ++ [strongSig])
            (mapSet m weakSig strongSigs.length) := rfl

theorem ReadSignature_loop_entries (bs : List (List Byte)) : ∀ (fuel : Nat) (sig : Signature),
    bs.length < fuel →
    ReadSignature.loop fuel
      (bs.flatMap fun b => stream.putUint32 (computeRollingChecksum b) ++ computeStrongChecksum b)
      sig.strongSignatures sig.weakSignaturesToBlockID =
      .ok ((addBlocks sig bs).strongSignatures, (addBlocks sig bs).weakSignaturesToBlockID) := by
  induction bs with
  | nil =>
    intro fuel sig hf
    cases fuel with
    | zero => omega
    | succ f =>
      rw [ReadSignature_loop_succ]
      simp [stream.binaryRead, stream.ReadFull, addBlocks]
  | cons b bs ih =>
    intro fuel sig hf
    cases fuel with
    | zero => omega
    | succ f =>
      simp only [List.length_cons] at hf
      rw [ReadSignature_loop_succ]
      simp only [List.flatMap_cons, List.append_assoc, stream.binaryRead_putUint32,
        Nat.mod_eq_of_lt (computeRollingChecksum_lt b)]
      have hne : computeStrongChecksum b ≠ [] := by
        intro h
        have := computeStrongChecksum_length b
        rw [h] at this
        simp at this
      have hr := stream.Read_append (computeStrongChecksum b)
        (bs.flatMap fun b =>
          stream.putUint32 (computeRollingChecksum b) ++ computeStrongChecksum b) hne
      rw [computeStrongChecksum_length] at hr
      rw [hr]
      simp only [computeStrongChecksum_length, ne_eq, not_true_eq_false, if_false]
      have h := ih f
        { sig with
          weakSignaturesToBlockID :=
            mapSet sig.weakSignaturesToBlockID (computeRollingChecksum b)
              sig.strongSignatures.length,
          strongSignatures := sig.strongSignatures ++ [computeStrongChecksum b] } (by omega)
      simp only [addBlocks]
      exact h

theorem entries_length (bs : List (List Byte)) :
    bs.length ≤ (bs.flatMap fun b =>
      stream.putUint32 (computeRollingChecksum b) ++ computeStrongChecksum b).length := by
  induction bs with
  | nil => simp
  | cons b bs ih =>
    simp only [List.flatMap_cons, List.length_append, List.length_cons, stream.putUint32_length]
    omega

/-- C6. For every basis and every block length `L` with `32 <= L` (a
`uint32`) such that the blocks of the basis have pairwise distinct weak
checksums, `NewSignature` succeeds, `Write` succeeds, and `ReadSignature`
applied to the bytes written returns the signature itself: the same block
length, strong hashes and map. -/
theorem C6_read_write_signature (basis : List Byte) (L : Nat) (hL : 32 ≤ L)
    (hL32 : L < 4294967296)
    (hnd : ((blocksOf basis L).map computeRollingChecksum).Nodup) :
    ∃ sig, NewSignature basis L = .ok sig ∧ (sig.Write []).2 = none ∧
      ReadSignature (sig.Write []).1 = .ok sig := by
  refine ⟨_, NewSignature_eq basis L hL, ?_⟩
  rw [Write_nodup L (blocksOf basis L) [] hnd]
  refine ⟨rfl, ?_⟩
  simp only [List.nil_append, ReadSignature, List.append_assoc, stream.binaryRead_putUint32,
    Nat.mod_eq_of_lt hL32]
  have hlen := entries_length (blocksOf basis L)
  have h := ReadSignature_loop_entries (blocksOf basis L)
    ((blocksOf basis L).flatMap fun b =>
      stream.putUint32 (computeRollingChecksum b) ++ computeStrongChecksum b).length.succ
    { blockLength := L, strongSignatures := [], weakSignaturesToBlockID := [] } (by omega)
  simp only [Nat.succ_eq_add_one] at h
  rw [h]
  have hbl := addBlocks_blockLength (blocksOf basis L)
    { blockLength := L, strongSignatures := [], weakSignaturesToBlockID := [] }
  simp only at hbl
  cases hsig : addBlocks
    { blockLength := L, strongSignatures := [], weakSignaturesToBlockID := [] }
    (blocksOf basis L) with
  | mk bl ss wm =>
    rw [hsig] at hbl
    simp only at hbl
    simp only [hbl]

/-- C6, at the 66-byte test basis with `L = 32`, whose three blocks have
distinct weak checksums. -/
theorem C6_read_write_signature_witness :
    32 ≤ 32 ∧ 32 < 4294967296 ∧
    ((blocksOf testBasis 32).map computeRollingChecksum).Nodup ∧
    ∃ sig, NewSignature testBasis 32 = .ok sig ∧ (sig.Write []).2 = none ∧
      ReadSignature (sig.Write []).1 = .ok sig :=
  ⟨by decide, by decide, by decide,
    C6_read_write_signature testBasis 32 (by decide) (by decide) (by decide)⟩

end librsync

/-! ## The delta of a basis against its own signature -/

namespace librsync

theorem Init_receiver (s t : rollsum.RollingSum) (w : List Byte) : s.Init w = t.Init w := rfl

theorem lookup_zip_range (ws : List Nat) (hnd : ws.Nodup) : ∀ (s j : Nat) (w : Nat),
    ws.get? j = some w → List.lookup w (ws.zip (List.range' s ws.length)) = some (s + j) := by
  induction ws with
  | nil => intro s j w h; simp at h
  | cons w0 ws ih =>
    intro s j w h
    rw [List.nodup_cons] at hnd
    simp only [List.length_cons, List.range'_succ, List.zip_cons_cons, List.lookup_cons]
    cases j with
    | zero =>
      simp only [List.get?_cons_zero, Option.some.injEq] at h
      subst h
      simp
    | succ j =>
      simp only [List.get?_cons_succ] at h
      have hmem : w ∈ ws := List.get?_mem h
      have hne : w ≠ w0 := fun e => hnd.1 (e ▸ hmem)
      have hb : (w == w0) = false := by simpa using hne
      rw [hb]
      simp only
      rw [ih hnd.2 (s + 1) j w h]
      congr 1
      omega

theorem addBlocks_facts (L : Nat) (bs : List (List Byte))
    (hnd : (bs.map computeRollingChecksum).Nodup) (j : Nat) (b : List Byte)
    (h : bs.get? j = some b) :
    List.lookup (computeRollingChecksum b)
      (addBlocks { blockLength := L, strongSignatures := [], weakSignaturesToBlockID := [] }
        bs).weakSignaturesToBlockID = some j ∧
    (addBlocks { blockLength := L, strongSignatures := [], weakSignaturesToBlockID := [] }
        bs).strongSignatures.get? j = some (computeStrongChecksum b) := by
  rw [addBlocks_map_nodup bs _ (by simpa using hnd), addBlocks_strong]
  simp only [List.nil_append, List.length_nil]
  have hj : bs[j]? = some b := by rw [← List.get?_eq_getElem?]; exact h
  constructor
  · have h1 := lookup_zip_range (bs.map computeRollingChecksum) hnd 0 j
      (computeRollingChecksum b) (by simp [hj])
    simpa using h1
  · simp [hj]

/-- The chunk `getChunk` returns for the block of index `p.1` when it
matches: the range of the block in the basis as the source computes it. -/
theorem getChunk_match (s : Signature) (block : List Byte) (rSum : rollsum.RollingSum) (k : Nat)
    (h1 : List.lookup (computeRollingChecksum block) s.weakSignaturesToBlockID = some k)
    (h2 : s.strongSignatures.get? k = some (computeStrongChecksum block)) :
    getChunk block (rSum.Init block).Sum s =
      .ok (.reusable (u64 (k * block.length)) block.length) := by
  have e : (rSum.Init block).Sum = computeRollingChecksum block := rfl
  unfold getChunk
  rw [e, h1]
  simp only [h2, if_true]

theorem self_loop (s : Signature) (L : Nat) (hL : 1 ≤ L) : ∀ (fuel : Nat) (r block : List Byte)
    (rSum : rollsum.RollingSum) (k : Nat) (delta : Delta),
    r.length < fuel → block ≠ [] → (r ≠ [] → block.length = L) →
    (∀ j b, (blocks L fuel r).get? j = some b →
      List.lookup (computeRollingChecksum b) s.weakSignaturesToBlockID = some (k + j) ∧
      s.strongSignatures.get? (k + j) = some (computeStrongChecksum b)) →
    NewDelta.loop s fuel r block rSum chunkTypeReusable delta =
      .ok ((((blocks L fuel r).enumFrom k).map fun p =>
        chunk.reusable (u64 (p.1 * p.2.length)) p.2.length).foldl Delta.addChunk delta) := by
  intro fuel
  induction fuel with
  | zero => intro r _ _ _ _ h; omega
  | succ f ih =>
    intro r block rSum k delta hf hb hbl hfacts
    have hbl0 : block.length ≠ 0 := fun h0 => hb (List.length_eq_zero.mp h0)
    rw [NewDelta_loop_succ, if_pos rfl]
    rcases Read_cases r block.length with ⟨h0, _⟩ | ⟨_, h1, h2⟩ | ⟨_, h1, h2⟩
    · exact absurd h0 hbl0
    · rw [h2]
      simp [blocks, h1]
    · rw [h2, hbl h1]
      have hblocks : blocks L (f + 1) r = r.take L :: blocks L f (r.drop L) := by
        simp [blocks, h1]
      have h0 := hfacts 0 (r.take L) (by rw [hblocks]; rfl)
      simp only [Nat.add_zero] at h0
      simp only [getChunk_match s (r.take L) rSum k h0.1 h0.2]
      have hrlen : 0 < r.length := List.length_pos.mpr h1
      have hne : r.take L ≠ [] := by
        intro h3
        rw [List.take_eq_nil_iff] at h3
        rcases h3 with h3 | h3
        · omega
        · exact h1 h3
      have hk : (chunk.reusable (u64 (k * (r.take L).length)) (r.take L).length).chunkType =
          chunkTypeReusable := rfl
      rw [hk, ih (r.drop L) (r.take L) _ (k + 1) _
        (by simp only [List.length_drop]; omega) hne]
      · rw [hblocks]
        simp only [List.enumFrom_cons, List.map_cons, List.foldl_cons]
      · intro h4
        have h5 : L < r.length := by
          by_contra h6
          exact h4 (List.drop_eq_nil_of_le (by omega))
        simp only [List.length_take]
        omega
      · intro j b hj
        have h6 := hfacts (j + 1) b (by rw [hblocks]; simpa using hj)
        have h7 : k + (j + 1) = k + 1 + j := by omega
        rw [h7] at h6
        exact h6

theorem addChunk_reusable (s l s1 l1 : Nat) :
    Delta.addChunk { chunks := [.reusable s l] } (.reusable s1 l1) =
      { chunks := [.reusable s (u64 (l + l1))] } := rfl

theorem fold_reusable (bs : List (List Byte)) : ∀ (k s l : Nat),
    l + (bs.map List.length).sum < 18446744073709551616 →
    ((bs.enumFrom k).map fun p =>
      chunk.reusable (u64 (p.1 * p.2.length)) p.2.length).foldl Delta.addChunk
        { chunks := [.reusable s l] } =
      { chunks := [.reusable s (l + (bs.map List.length).sum)] } := by
  induction bs with
  | nil => intro k s l _; simp
  | cons b bs ih =>
    intro k s l h
    simp only [List.map_cons, List.sum_cons] at h
    simp only [List.enumFrom_cons, List.map_cons, List.foldl_cons, addChunk_reusable,
      List.sum_cons]
    have hu : u64 (l + b.length) = l + b.length := Nat.mod_eq_of_lt (by omega)
    rw [hu, ih (k + 1) s (l + b.length) (by omega)]
    simp only [Nat.add_assoc]

theorem blocks_length_sum (L : Nat) (hL : 1 ≤ L) : ∀ (fuel : Nat) (r : List Byte),
    r.length ≤ fuel → ((blocks L fuel r).map List.length).sum = r.length := by
  intro fuel
  induction fuel with
  | zero =>
    intro r h
    have hr : r = [] := List.length_eq_zero.mp (by omega)
    simp [blocks, hr]
  | succ f ih =>
    intro r h
    by_cases hr : r = []
    · simp [blocks, hr]
    · have hrlen : 0 < r.length := List.length_pos.mpr hr
      simp only [blocks, hr, if_false, List.map_cons, List.sum_cons]
      rw [ih (r.drop L) (by simp only [List.length_drop]; omega)]
      simp only [List.length_take, List.length_drop]
      omega

theorem NewDelta_self (basis : List Byte) (L : Nat) (hne : basis ≠ []) (hL : 1 ≤ L)
    (hlen : basis.length < 18446744073709551616)
    (hnd : ((blocksOf basis L).map computeRollingChecksum).Nodup) :
    NewDelta basis
      (addBlocks { blockLength := L, strongSignatures := [], weakSignaturesToBlockID := [] }
        (blocksOf basis L)) = .ok { chunks := [.reusable 0 basis.length] } := by
  have hfuel : blocks L (basis.length + 1) basis = blocksOf basis L :=
    blocks_fuel L hL _ _ basis (by omega) (by omega)
  have hrep : List.replicate L (0 : Byte) ≠ [] := by
    intro h
    have h2 := congrArg List.length h
    simp only [List.length_replicate, List.length_nil] at h2
    omega
  unfold NewDelta
  rw [addBlocks_blockLength]
  rw [self_loop _ L hL (basis.length + 1) basis (List.replicate L 0) rollsum.New 0
    { chunks := [] } (by omega) hrep (fun _ => by simp)]
  · rw [hfuel]
    have hsum := blocks_length_sum L hL basis.length basis (Nat.le_refl _)
    have hb : blocksOf basis L = basis.take L :: blocks L (basis.length - 1) (basis.drop L) := by
      unfold blocksOf
      obtain ⟨n, hn⟩ : ∃ n, basis.length = n + 1 :=
        ⟨basis.length - 1, by have := List.length_pos.mpr hne; omega⟩
      rw [hn]
      simp [blocks, hne]
    change ((blocksOf basis L).map List.length).sum = basis.length at hsum
    rw [hb] at hsum ⊢
    simp only [List.map_cons, List.sum_cons] at hsum
    simp only [List.enumFrom_cons, List.map_cons, List.foldl_cons, addChunk_nil, Nat.zero_mul]
    have hz : u64 0 = 0 := rfl
    rw [hz, fold_reusable _ _ _ _ (by omega), hsum]
  · intro j b hj
    rw [hfuel] at hj
    have h := addBlocks_facts L (blocksOf basis L) hnd j b hj
    simpa using h

/-- C2, as amended. For every non-empty basis (shorter than `2^63` bytes, as a
seekable source is) and every block length `L >= 32` such that the blocks of
the basis have pairwise distinct weak checksums, the delta of the basis
against its own signature is exactly the single chunk
`Reusable(0, len(basis))`, and patching the basis with it yields the basis
again. -/
theorem C2_self_delta (basis : List Byte) (L : Nat) (hne : basis ≠ []) (hL : 32 ≤ L)
    (hlen : basis.length < 9223372036854775808)
    (hnd : ((blocksOf basis L).map computeRollingChecksum).Nodup) :
    deltaAgainst basis basis L = .ok { chunks := [.reusable 0 basis.length] } ∧
    signatureDeltaPatch basis basis L = .ok (basis, none) := by
  have h1 : deltaAgainst basis basis L = .ok { chunks := [.reusable 0 basis.length] } := by
    unfold deltaAgainst
    rw [NewSignature_eq basis L hL]
    exact NewDelta_self basis L hne (by omega) (by omega) hnd
  refine ⟨h1, ?_⟩
  unfold signatureDeltaPatch
  rw [h1]
  simp only [Delta.Patch]
  rw [patchLoop_inside basis hlen _ [] (by simp [chunk.inside])]
  simp [chunk.content]

/-- C2, as amended, at the 66-byte test basis with `L = 32`: the delta is
`[Reusable(0, 66)]`. -/
theorem C2_self_delta_witness :
    testBasis ≠ [] ∧ 32 ≤ 32 ∧ testBasis.length < 9223372036854775808 ∧
    ((blocksOf testBasis 32).map computeRollingChecksum).Nodup ∧
    deltaAgainst testBasis testBasis 32 = .ok { chunks := [.reusable 0 66] } ∧
    signatureDeltaPatch testBasis testBasis 32 = .ok (testBasis, none) :=
  ⟨by decide, by decide, by decide, by decide,
    C2_self_delta testBasis 32 (by decide) (by decide) (by decide) (by decide)⟩

set_option maxRecDepth 100000 in
/-- C2 as stated fails on a basis of 64 zero bytes with `L = 32`: the two
blocks are equal, the map keeps block id 1 for their weak checksum, both
windows are matched to block 1 and merged, and the delta is
`[Reusable(32, 64)]`, not `[Reusable(0, 64)]`; patching the basis with it
stops with `io.EOF` after 32 bytes. -/
theorem C2_counterexample :
    deltaAgainst (List.replicate 64 0) (List.replicate 64 0) 32 =
      .ok { chunks := [.reusable 32 64] } ∧
    deltaAgainst (List.replicate 64 0) (List.replicate 64 0) 32 ≠
      .ok { chunks := [.reusable 0 (List.replicate 64 (0 : Byte)).length] } ∧
    signatureDeltaPatch (List.replicate 64 0) (List.replicate 64 0) 32 =
      .ok (List.replicate 32 0, some .EOF) := by
  decide!

end librsync

/-! ## The tests of the repository, and the inputs on which the code fails -/

namespace librsync

set_option maxRecDepth 100000 in
/-- The signature recorded in delta_test.go is the one `NewSignature` builds
from the 66-byte test basis with a block length of 32: the SHA-256 digests
and the weak checksums of the model are those of the Go code. -/
theorem NewSignature_testBasis : NewSignature testBasis 32 = .ok testSignature := by
  decide!

set_option maxRecDepth 100000 in
/-- TestNewDelta: no changes, a changed byte, an added byte, a removed byte. -/
theorem NewDelta_tests :
    NewDelta testBasis testSignature = .ok { chunks := [.reusable 0 66] } ∧
    NewDelta (testBasis.set 31 102) testSignature =
      .ok { chunks := [.modified ((testBasis.take 32).set 31 102), .reusable 32 34] } ∧
    NewDelta testPatched testSignature = .ok testDelta ∧
    NewDelta (testBasis.take 31 ++ testBasis.drop 32) testSignature =
      .ok { chunks := [.modified (testBasis.take 31), .reusable 32 34] } := by
  decide!

set_option maxRecDepth 100000 in
/-- C1 fails on the code. With the basis of 32 bytes 0 followed by 32 bytes 1
and the new stream of 64 bytes 0, both windows of the new stream match block
0; `addChunk` merges the two chunks `Reusable(0, 32)` into `Reusable(0, 64)`
although the second does not continue the first, and `Patch` succeeds and
writes the basis, not the new stream.  With the basis of 32 bytes 0 followed
by the byte 7 and the new stream `[7]`, the short window matches block 1 and
`getChunk` computes its start as `1 * 1` instead of `1 * 32`: `Patch`
succeeds and writes `[0]`. -/
theorem C1_reconstruction_fails :
    deltaAgainst (List.replicate 32 0 ++ List.replicate 32 1) (List.replicate 64 0) 32 =
      .ok { chunks := [.reusable 0 64] } ∧
    signatureDeltaPatch (List.replicate 32 0 ++ List.replicate 32 1) (List.replicate 64 0) 32 =
      .ok (List.replicate 32 0 ++ List.replicate 32 1, none) ∧
    (List.replicate 32 0 ++ List.replicate 32 1 : List Byte) ≠ List.replicate 64 0 ∧
    deltaAgainst (List.replicate 32 0 ++ [7]) [7] 32 = .ok { chunks := [.reusable 1 1] } ∧
    signatureDeltaPatch (List.replicate 32 0 ++ [7]) [7] 32 = .ok ([0], none) := by
  decide!

theorem ReadDelta_loop_after_records (cs : List chunk) (tail : List Byte) :
    ∀ (fuel : Nat) (acc : List chunk), (∀ c ∈ cs, c.wellFormed) →
    ReadDelta.loop (cs.length + fuel) (cs.flatMap chunkRecord ++ tail) { chunks := acc } =
      ReadDelta.loop fuel tail { chunks := acc ++ cs } := by
  induction cs with
  | nil => intro fuel acc _; simp
  | cons c cs ih =>
    intro fuel acc hw
    have hf : (c :: cs).length + fuel = (cs.length + fuel) + 1 := by
      simp only [List.length_cons]; omega
    rw [hf]
    simp only [ReadDelta.loop, List.flatMap_cons, List.append_assoc,
      readChunk_record c _ (hw c (List.mem_cons_self c cs))]
    rw [ih fuel (acc ++ [c]) (fun x hx => hw x (List.mem_cons_of_mem c hx))]
    simp

theorem ReadDelta_after_records (cs : List chunk) (tail : List Byte) (hw : ∀ c ∈ cs, c.wellFormed) :
    ReadDelta (cs.flatMap chunkRecord ++ tail) =
      ReadDelta.loop ((cs.flatMap chunkRecord).length - cs.length + tail.length + 1) tail
        { chunks := cs } := by
  unfold ReadDelta
  have hl := flatMap_record_length cs
  have hf : (cs.flatMap chunkRecord ++ tail).length + 1 =
      cs.length + ((cs.flatMap chunkRecord).length - cs.length + tail.length + 1) := by
    simp only [List.length_append]
    omega
  rw [hf, ReadDelta_loop_after_records cs tail _ [] hw]
  simp

/-- The cases of corruption `ReadDelta` does and does not report, after any
number of well-formed records: an unknown tag and a Literal payload that is
cut short but not empty are errors; a Literal record whose payload is missing
altogether ends the stream without an error, the records before it being
returned. -/
theorem ReadDelta_corrupt (cs : List chunk) (hw : ∀ c ∈ cs, c.wellFormed) :
    (∀ (t : Byte) (rest : List Byte), t.val ≠ 0 → t.val ≠ 1 →
      ReadDelta (cs.flatMap chunkRecord ++ t :: rest) = .error (.unknownType t.val)) ∧
    (∀ (n : Nat) (payload : List Byte), n < 18446744073709551616 → payload ≠ [] →
      payload.length < n →
      ReadDelta (cs.flatMap chunkRecord ++ (1 :: stream.putUint64 n ++ payload)) =
        .error (.lengthMismatch payload.length n)) ∧
    (∀ n : Nat, n < 18446744073709551616 → 0 < n →
      ReadDelta (cs.flatMap chunkRecord ++ (1 :: stream.putUint64 n)) = .ok { chunks := cs }) := by
  refine ⟨?_, ?_, ?_⟩
  · intro t rest h0 h1
    rw [ReadDelta_after_records cs _ hw]
    simp only [ReadDelta.loop, readChunk, stream.binaryRead_byte]
    have e0 : ¬ t.val = chunkTypeReusable.val := h0
    have e1 : ¬ t.val = chunkTypeModified.val := h1
    rw [if_neg e0, if_neg e1]
  · intro n payload hn hp hlt
    rw [ReadDelta_after_records cs _ hw]
    have e : (1 : Byte) :: stream.putUint64 n ++ payload =
        (1 : Byte) :: (stream.putUint64 n ++ payload) := rfl
    rw [e]
    simp only [ReadDelta.loop, readChunk, stream.binaryRead_byte, stream.binaryRead_putUint64,
      Nat.mod_eq_of_lt hn]
    rw [if_neg (by decide), if_pos (by decide)]
    have hn0 : n ≠ 0 := by omega
    have ht : (payload.take n).length = payload.length := by
      simp only [List.length_take]
      omega
    simp only [stream.Read, hn0, hp, if_false, ht]
    have hne : payload.length ≠ n := by omega
    simp only [ne_eq, hne, not_false_eq_true, if_true]
  · intro n hn h0
    rw [ReadDelta_after_records cs _ hw]
    have e : (1 : Byte) :: stream.putUint64 n = (1 : Byte) :: (stream.putUint64 n ++ []) := by
      simp
    rw [e]
    simp only [ReadDelta.loop, readChunk, stream.binaryRead_byte, stream.binaryRead_putUint64,
      Nat.mod_eq_of_lt hn]
    rw [if_neg (by decide), if_pos (by decide)]
    have hn0 : n ≠ 0 := by omega
    simp only [stream.Read, hn0, if_false, if_true]

/-- C10 fails on the code. The stream of the tag 1 and the data length 1
with no payload byte is accepted: `ReadDelta` returns the empty delta and no
error; after the 44 bytes of the test delta, a Literal record announcing 5
bytes of which none is present is dropped silently and the test delta is
returned.  An unknown tag, and a payload cut short but not empty, are
reported as errors. -/
theorem C10_truncated_literal_accepted :
    ReadDelta [1, 0, 0, 0, 0, 0, 0, 0, 1] = .ok { chunks := [] } ∧
    ReadDelta (testDeltaBytes ++ [1, 0, 0, 0, 0, 0, 0, 0, 5]) = .ok testDelta ∧
    ReadDelta [1, 0, 0, 0, 0, 0, 0, 0, 2, 7] = .error (.lengthMismatch 1 2) ∧
    ReadDelta [2] = .error (.unknownType 2) := by
  decide

end librsync

/-! ## Merging of chunks, patching past the end of the basis, truncated signatures -/

namespace librsync

/-- C16. `Delta.addChunk`: on an empty delta, or when the last chunk is of
the other kind, the new chunk becomes a new last element; a Reusable chunk
after a last chunk `Reusable(s, l)` only adds its length to `l` (in `uint64`,
whatever its own start is); a Literal chunk after a last Literal chunk has
its data appended; the earlier chunks `cs` are unchanged in every case. -/
theorem C16_addChunk_cases (cs : List chunk) (last c : chunk) (s l s1 l1 : Nat)
    (d d1 : List Byte) :
    Delta.addChunk { chunks := [] } c = { chunks := [c] } ∧
    (last.chunkType ≠ c.chunkType →
      Delta.addChunk { chunks := cs ++ [last] } c = { chunks := cs ++ [last, c] }) ∧
    Delta.addChunk { chunks := cs ++ [.reusable s l] } (.reusable s1 l1) =
      { chunks := cs ++ [.reusable s ((l + l1) % 18446744073709551616)] } ∧
    (l + l1 < 18446744073709551616 →
      Delta.addChunk { chunks := cs ++ [.reusable s l] } (.reusable s1 l1) =
        { chunks := cs ++ [.reusable s (l + l1)] }) ∧
    Delta.addChunk { chunks := cs ++ [.modified d] } (.modified d1) =
      { chunks := cs ++ [.modified (d ++ d1)] } ∧
    Delta.addChunk { chunks := [.reusable 0 32] } (.reusable 64 2) =
      { chunks := [.reusable 0 34] } := by
  have h3 : Delta.addChunk { chunks := cs ++ [.reusable s l] } (.reusable s1 l1) =
      { chunks := cs ++ [.reusable s ((l + l1) % 18446744073709551616)] } := by
    rw [addChunk_concat]
    exact if_pos rfl
  refine ⟨rfl, ?_, h3, ?_, ?_, rfl⟩
  · intro h
    rw [addChunk_concat, if_neg h]
  · intro h
    rw [h3, Nat.mod_eq_of_lt h]
  · rw [addChunk_concat]
    exact if_pos rfl

theorem patchLoop_append_inside (base : List Byte) (hb : base.length < 9223372036854775808)
    (pre rest : List chunk) (out : List Byte) (h : ∀ c ∈ pre, c.inside base) :
    Delta.patchLoop (pre ++ rest) base out =
      Delta.patchLoop rest base (out ++ pre.flatMap (chunk.content base)) := by
  induction pre generalizing out with
  | nil => simp
  | cons c cs ih =>
    rw [List.cons_append]
    simp only [Delta.patchLoop, patch_inside base hb c (h c (List.mem_cons_self c cs))]
    rw [ih _ (fun x hx => h x (List.mem_cons_of_mem c hx))]
    simp

theorem patch_past_end (base out : List Byte) (sp len : Nat)
    (hb : base.length < 9223372036854775808) (hsp : sp < 18446744073709551616)
    (hlen1 : 1 ≤ len) (hlen2 : len < 9223372036854775808) (hpast : base.length < sp + len) :
    ∃ e, (chunk.reusable sp len).patch base out = (out ++ (base.drop sp).take len, some e) ∧
      e.returned = true := by
  have e2 := stream.toInt64_of_lt len hlen2
  by_cases h : sp < 9223372036854775808
  · have e1 := stream.toInt64_of_lt sp h
    refine ⟨.EOF, ?_, rfl⟩
    simp only [chunk.patch, e1, e2, CopyN, Int.toNat_ofNat]
    have h2 : ¬ ((sp : Int) < 0) := by omega
    have h3 : ¬ ((len : Int) ≤ 0) := by omega
    have h5 : ((base.drop sp).take len).length ≠ len := by
      simp only [List.length_take, List.length_drop]
      omega
    simp only [h2, h3, h5, if_false]
  · refine ⟨.negativePosition, ?_, rfl⟩
    have hm : sp % 18446744073709551616 = sp := Nat.mod_eq_of_lt hsp
    have hneg : stream.toInt64 sp < 0 := by
      simp only [stream.toInt64, hm, h, if_false]
      omega
    have hd : base.drop sp = [] := List.drop_eq_nil_of_le (by omega)
    simp only [chunk.patch, hneg, if_true, hd, List.take_nil, List.append_nil]

/-- C11, as amended. For every basis (shorter than `2^63` bytes) and every
delta in which the chunks `pre` lie inside the basis and are followed by a
Reusable chunk of a length of at least 1 and below `2^63` whose range extends
past the end of the basis, `Delta.Patch` returns an error, and the output
then holds the bytes of the chunks `pre` followed by the part of the range of
that chunk that exists in the basis. -/
theorem C11_patch_past_end (base out : List Byte) (pre post : List chunk) (sp len : Nat)
    (hb : base.length < 9223372036854775808) (hpre : ∀ c ∈ pre, c.inside base)
    (hsp : sp < 18446744073709551616) (hlen1 : 1 ≤ len) (hlen2 : len < 9223372036854775808)
    (hpast : base.length < sp + len) :
    ∃ e, Delta.Patch { chunks := pre ++ .reusable sp len :: post } base out =
        (out ++ pre.flatMap (chunk.content base) ++ (base.drop sp).take len, some e) ∧
      e.returned = true := by
  obtain ⟨e, he, hr⟩ := patch_past_end base (out ++ pre.flatMap (chunk.content base)) sp len hb
    hsp hlen1 hlen2 hpast
  refine ⟨e, ?_, hr⟩
  unfold Delta.Patch
  rw [patchLoop_append_inside base hb pre _ out hpre]
  simp only [Delta.patchLoop, he]

/-- C11, as amended, on the test basis: after `Reusable(0,32)` and
`Literal([19])`, the chunk `Reusable(32,40)` reaches 6 bytes past the end;
the output holds the first 32 bytes, the byte 19 and the 34 bytes left. -/
theorem C11_patch_past_end_witness :
    testBasis.length < 9223372036854775808 ∧
    (∀ c ∈ [chunk.reusable 0 32, chunk.modified [19]], c.inside testBasis) ∧
    32 < 18446744073709551616 ∧ 1 ≤ 40 ∧ 40 < 9223372036854775808 ∧
    testBasis.length < 32 + 40 ∧
    (∃ e, Delta.Patch
        { chunks := [chunk.reusable 0 32, chunk.modified [19]] ++
            chunk.reusable 32 40 :: [chunk.modified [1]] } testBasis [] =
        ([] ++ [chunk.reusable 0 32, chunk.modified [19]].flatMap (chunk.content testBasis) ++
          (testBasis.drop 32).take 40, some e) ∧ e.returned = true) ∧
    [] ++ [chunk.reusable 0 32, chunk.modified [19]].flatMap (chunk.content testBasis) ++
      (testBasis.drop 32).take 40 = testPatched :=
  ⟨by decide, by decide, by decide, by decide, by decide, by decide,
    C11_patch_past_end testBasis [] [chunk.reusable 0 32, chunk.modified [19]]
      [chunk.modified [1]] 32 40 (by decide) (by decide) (by decide) (by decide) (by decide)
      (by decide),
    by decide⟩

/-- C11 as stated fails on the 66-byte test basis: the chunk `Reusable(67, 0)`
has `startPosition + length > len(basis)`, yet `io.CopyN` of 0 bytes reports
no error and `Patch` succeeds; so does `Reusable(0, 2^63)`, whose length is
negative as an `int64`. -/
theorem C11_counterexample :
    testBasis.length < 67 + 0 ∧
    Delta.Patch { chunks := [.reusable 67 0] } testBasis [] = ([], none) ∧
    testBasis.length < 0 + 9223372036854775808 ∧
    Delta.Patch { chunks := [.reusable 0 9223372036854775808] } testBasis [] = ([], none) := by
  decide

theorem binaryRead_of_le (r : List Byte) (n : Nat) (h0 : n ≠ 0) (h : n ≤ r.length) :
    stream.binaryRead r n = .ok (stream.beUint (r.take n), r.drop n) := by
  have h1 : r ≠ [] := by
    intro h2
    rw [h2] at h
    simp only [List.length_nil] at h
    omega
  have h3 : ¬ r.length < n := by omega
  simp only [stream.binaryRead, stream.ReadFull, h0, h1, h3, if_false]

theorem ReadSignature_loop_lengths : ∀ (N fuel : Nat) (r : List Byte)
    (strong : List (List Byte)) (m : List (Nat × Nat)), N < fuel →
    (r.length = 36 * N →
      ∃ s1 m1, ReadSignature.loop fuel r strong m = .ok (s1, m1) ∧
        s1.length = strong.length + N) ∧
    (∀ t, t < 32 → r.length = 36 * N + 4 + t →
      ReadSignature.loop fuel r strong m =
        .error (if t = 0 then .EOF else .tooShortStrongHash t)) := by
  intro N
  induction N with
  | zero =>
    intro fuel r strong m hf
    obtain ⟨f, rfl⟩ : ∃ f, fuel = f + 1 := ⟨fuel - 1, by omega⟩
    constructor
    · intro hr
      have h : r = [] := List.length_eq_zero.mp (by omega)
      subst h
      exact ⟨strong, m, by simp [ReadSignature_loop_succ, stream.binaryRead, stream.ReadFull],
        by simp⟩
    · intro t ht hr
      rw [ReadSignature_loop_succ, binaryRead_of_le r 4 (by decide) (by omega)]
      simp only
      rcases Read_cases (r.drop 4) 32 with ⟨h0, _⟩ | ⟨_, h1, h2⟩ | ⟨_, h1, h2⟩
      · exact absurd h0 (by decide)
      · rw [h2]
        have hl := congrArg List.length h1
        simp only [List.length_drop, List.length_nil] at hl
        have ht0 : t = 0 := by omega
        simp [ht0]
      · rw [h2]
        have hl : ((r.drop 4).take 32).length = t := by
          simp only [List.length_take, List.length_drop]
          omega
        have ht0 : t ≠ 0 := by
          intro h0
          apply h1
          apply List.length_eq_zero.mp
          simp only [List.length_drop]
          omega
        have h32 : t ≠ 32 := by omega
        simp only [hl, ne_eq, h32, not_false_eq_true, if_true, ht0, if_false]
  | succ N ih =>
    intro fuel r strong m hf
    obtain ⟨f, rfl⟩ : ∃ f, fuel = f + 1 := ⟨fuel - 1, by omega⟩
    have step : 36 * (N + 1) ≤ r.length →
        ReadSignature.loop (f + 1) r strong m =
          ReadSignature.loop f ((r.drop 4).drop 32) (strong ++ [(r.drop 4).take 32])
            (mapSet m (stream.beUint (r.take 4)) strong.length) := by
      intro hr
      rw [ReadSignature_loop_succ, binaryRead_of_le r 4 (by decide) (by omega)]
      simp only
      have hne : r.drop 4 ≠ [] := by
        intro h1
        have hl := congrArg List.length h1
        simp only [List.length_drop, List.length_nil] at hl
        omega
      have hl : ((r.drop 4).take 32).length = 32 := by
        simp only [List.length_take, List.length_drop]
        omega
      rcases Read_cases (r.drop 4) 32 with ⟨h0, _⟩ | ⟨_, h1, _⟩ | ⟨_, _, h2⟩
      · exact absurd h0 (by decide)
      · exact absurd h1 hne
      · rw [h2]
        simp only [hl, ne_eq, not_true_eq_false, if_false]
    have hdl : ((r.drop 4).drop 32).length = r.length - 36 := by
      simp only [List.length_drop]
      omega
    constructor
    · intro hr
      rw [step (by omega)]
      obtain ⟨s1, m1, h1, h2⟩ := (ih f ((r.drop 4).drop 32) (strong ++ [(r.drop 4).take 32])
        (mapSet m (stream.beUint (r.take 4)) strong.length) (by omega)).1 (by omega)
      refine ⟨s1, m1, h1, ?_⟩
      rw [h2]
      simp only [List.length_append, List.length_singleton]
      omega
    · intro t ht hr
      rw [step (by omega)]
      exact (ih f ((r.drop 4).drop 32) (strong ++ [(r.drop 4).take 32])
        (mapSet m (stream.beUint (r.take 4)) strong.length) (by omega)).2 t ht (by omega)

/-- C12. `ReadSignature` returns an error on every stream in which a
strong-hash field is truncated: the 4 bytes of the block length, `N` entries
of 36 bytes, the 4 bytes of a weak checksum and then `t < 32` bytes (`io.EOF`
when `t = 0`, the too-short-strong-hash error otherwise); and it accepts
every stream of exactly `4 + 36 * N` bytes, which yields `N` strong hashes. -/
theorem C12_truncated_strong_hash (r : List Byte) (N t : Nat) :
    (r.length = 4 + 36 * N + 4 + t → t < 32 →
      ReadSignature r = .error (if t = 0 then .EOF else .tooShortStrongHash t) ∧
      (if t = 0 then Err.EOF else Err.tooShortStrongHash t).returned = true) ∧
    (r.length = 4 + 36 * N →
      ∃ sig, ReadSignature r = .ok sig ∧ sig.strongSignatures.length = N) := by
  constructor
  · intro hr ht
    constructor
    · unfold ReadSignature
      rw [binaryRead_of_le r 4 (by decide) (by omega)]
      simp only
      rw [(ReadSignature_loop_lengths N _ (r.drop 4) [] [] (by
        simp only [List.length_drop]; omega)).2 t ht (by simp only [List.length_drop]; omega)]
    · by_cases h0 : t = 0
      · simp [h0, Err.returned]
      · simp [h0, Err.returned]
  · intro hr
    unfold ReadSignature
    rw [binaryRead_of_le r 4 (by decide) (by omega)]
    simp only
    obtain ⟨s1, m1, h1, h2⟩ := (ReadSignature_loop_lengths N ((r.drop 4).length + 1) (r.drop 4)
      [] [] (by simp only [List.length_drop]; omega)).1 (by simp only [List.length_drop]; omega)
    rw [h1]
    exact ⟨_, rfl, by simpa using h2⟩

end librsync

/-! ## The scan of `NewDelta`: literals only, byte accounting, and the naive scan -/

namespace librsync

theorem getChunk_empty_map (s : Signature) (hm : s.weakSignaturesToBlockID = []) (b : Byte)
    (tl : List Byte) (w : Nat) : getChunk (b :: tl) w s = .ok (.modified [b]) := by
  simp [getChunk, hm]

theorem addChunk_modified (d d1 : List Byte) :
    Delta.addChunk { chunks := [.modified d] } (.modified d1) =
      { chunks := [.modified (d ++ d1)] } := rfl

theorem resync_all_literal (s : Signature) (hm : s.weakSignaturesToBlockID = []) :
    ∀ (fuel : Nat) (r block : List Byte) (rSum : rollsum.RollingSum) (d : List Byte),
    r.length < fuel → block ≠ [] →
    NewDelta.loop s fuel r block rSum chunkTypeModified { chunks := [.modified d] } =
      .ok { chunks := [.modified (d ++ (block ++ r).tail)] } := by
  intro fuel
  induction fuel with
  | zero => intro r _ _ _ h; omega
  | succ f ih =>
    intro r block rSum d hf hb
    obtain ⟨b0, tail, rfl⟩ := List.exists_cons_of_ne_nil hb
    rw [NewDelta_loop_succ, if_neg (by decide)]
    simp only
    cases r with
    | nil =>
      simp [stream.Read, addChunk_modified]
    | cons x r1 =>
      have hread : stream.Read (x :: r1) 1 = .ok ([x], r1) := by simp [stream.Read]
      rw [hread]
      simp only
      obtain ⟨b1, tl1, hbt⟩ : ∃ b1 tl1, tail ++ [x] = b1 :: tl1 := by
        cases tail with
        | nil => exact ⟨x, [], rfl⟩
        | cons t ts => exact ⟨t, ts ++ [x], rfl⟩
      rw [hbt, getChunk_empty_map s hm]
      simp only [addChunk_modified]
      have hk : (chunk.modified [b1]).chunkType = chunkTypeModified := rfl
      simp only [List.length_cons] at hf
      rw [hk, ih r1 (b1 :: tl1) _ _ (by omega) (by simp)]
      have e : (b0 :: tail ++ x :: r1).tail = b1 :: (tl1 ++ r1) := by
        have : tail ++ x :: r1 = (tail ++ [x]) ++ r1 := by simp
        simp only [List.cons_append, List.tail_cons]
        rw [this, hbt]
        rfl
      rw [e]
      simp

/-- C17. For every signature with a block length of at least 1 whose
weak-checksum map is empty, `NewDelta` returns, for a non-empty new stream,
exactly one chunk, a Literal whose data is the whole new stream in order,
and for the empty new stream a delta with no chunks. -/
theorem C17_empty_map_literal (r : List Byte) (s : Signature) (hL : 1 ≤ s.blockLength)
    (hm : s.weakSignaturesToBlockID = []) :
    NewDelta r s = .ok (if r = [] then { chunks := [] } else { chunks := [.modified r] }) := by
  unfold NewDelta
  rw [NewDelta_loop_succ, if_pos rfl]
  have hbl : (List.replicate s.blockLength (0 : Byte)).length = s.blockLength := by simp
  rw [hbl]
  rcases Read_cases r s.blockLength with ⟨h0, _⟩ | ⟨_, h1, h2⟩ | ⟨_, h1, h2⟩
  · omega
  · rw [h2, if_pos h1]
  · rw [h2, if_neg h1]
    simp only
    obtain ⟨b, tl, hbt⟩ : ∃ b tl, r.take s.blockLength = b :: tl := by
      cases hr : r with
      | nil => exact absurd hr h1
      | cons x xs =>
        obtain ⟨n, hn⟩ : ∃ n, s.blockLength = n + 1 := ⟨s.blockLength - 1, by omega⟩
        rw [hn]
        exact ⟨x, xs.take n, rfl⟩
    rw [hbt, getChunk_empty_map s hm]
    simp only [addChunk_nil]
    have hk : (chunk.modified [b]).chunkType = chunkTypeModified := rfl
    have hlen : (r.drop s.blockLength).length < r.length := by
      have : 0 < r.length := List.length_pos.mpr h1
      simp only [List.length_drop]
      omega
    rw [hk, resync_all_literal s hm _ _ _ _ _ hlen (by simp)]
    rw [← hbt, List.take_append_drop]
    have hr : r = b :: r.tail := by
      cases hr : r with
      | nil => exact absurd hr h1
      | cons x xs =>
        rw [hr] at hbt
        obtain ⟨n, hn⟩ : ∃ n, s.blockLength = n + 1 := ⟨s.blockLength - 1, by omega⟩
        rw [hn] at hbt
        simp only [List.take_succ_cons, List.cons.injEq] at hbt
        rw [hbt.1]
        rfl
    rw [List.singleton_append, ← hr]

set_option maxRecDepth 100000 in
/-- C17, at the signature of the empty basis (block length 32) and the
66-byte test basis as the new stream. -/
theorem C17_empty_map_literal_witness :
    1 ≤ (Signature.mk 32 [] []).blockLength ∧
    (Signature.mk 32 [] []).weakSignaturesToBlockID = [] ∧
    NewDelta testBasis (Signature.mk 32 [] []) =
      .ok (if testBasis = [] then { chunks := [] } else { chunks := [.modified testBasis] }) ∧
    NewSignature [] 32 = .ok (Signature.mk 32 [] []) ∧
    NewDelta [] (Signature.mk 32 [] []) = .ok { chunks := [] } :=
  ⟨by decide, rfl, C17_empty_map_literal testBasis (Signature.mk 32 [] []) (by decide) rfl,
    by decide, by decide⟩

theorem byteCount_concat (l : List chunk) (c : chunk) :
    Delta.byteCount { chunks := l ++ [c] } = Delta.byteCount { chunks := l } + c.byteCount := by
  simp [Delta.byteCount]

theorem addChunk_byteCount (d : Delta) (c : chunk)
    (h : d.byteCount + c.byteCount < 18446744073709551616) :
    (d.addChunk c).byteCount = d.byteCount + c.byteCount := by
  obtain ⟨chunks⟩ := d
  rcases List.eq_nil_or_concat chunks with h0 | ⟨l, last, h1⟩
  · subst h0
    simp [addChunk_nil, Delta.byteCount]
  · subst h1
    rw [List.concat_eq_append] at h ⊢
    rw [addChunk_concat]
    rw [byteCount_concat] at h ⊢
    by_cases hk : last.chunkType = c.chunkType
    · rw [if_pos hk, byteCount_concat]
      cases last with
      | reusable s l1 =>
        cases c with
        | reusable s1 l2 =>
          simp only [chunk.byteCount] at h
          have hu : u64 (l1 + l2) = l1 + l2 := Nat.mod_eq_of_lt (by omega)
          simp only [chunk.append, chunk.byteCount, hu]
          omega
        | modified d1 =>
          have hk2 : chunkTypeReusable = chunkTypeModified := hk
          exact absurd hk2 (by decide)
      | modified d0 =>
        cases c with
        | reusable s1 l2 =>
          have hk2 : chunkTypeModified = chunkTypeReusable := hk
          exact absurd hk2 (by decide)
        | modified d1 =>
          simp only [chunk.append, chunk.byteCount, List.length_append]
          omega
    · rw [if_neg hk]
      have e : l ++ [last, c] = (l ++ [last]) ++ [c] := by simp
      rw [e, byteCount_concat, byteCount_concat]

theorem getChunk_byteCount (block : List Byte) (w : Nat) (s : Signature) (c : chunk)
    (h : getChunk block w s = .ok c) :
    block ≠ [] ∧
    ((c.chunkType = chunkTypeReusable ∧ c.byteCount = block.length) ∨
     (c.chunkType ≠ chunkTypeReusable ∧ c.byteCount = 1)) ∨
    (block = [] ∧ c.chunkType = chunkTypeReusable ∧ c.byteCount = 0) := by
  rcases getChunk_kind block w s c h with ⟨id, rfl⟩ | ⟨b, tl, rfl, rfl⟩
  · by_cases hb : block = []
    · exact Or.inr ⟨hb, rfl, by simp [chunk.byteCount, hb]⟩
    · exact Or.inl ⟨hb, Or.inl ⟨rfl, rfl⟩⟩
  · have hk : chunkTypeModified ≠ chunkTypeReusable := by decide
    exact Or.inl ⟨by simp, Or.inr ⟨hk, rfl⟩⟩

theorem NewDelta_loop_byteCount (s : Signature) : ∀ (fuel : Nat) (r block : List Byte)
    (rSum : rollsum.RollingSum) (prev : chunkType) (delta d : Delta),
    NewDelta.loop s fuel r block rSum prev delta = .ok d →
    delta.byteCount + (if prev = chunkTypeReusable then 0 else block.length - 1) + r.length <
      18446744073709551616 →
    d.byteCount =
      delta.byteCount + (if prev = chunkTypeReusable then 0 else block.length - 1) + r.length := by
  intro fuel
  induction fuel with
  | zero => intro r _ _ _ _ _ h; simp [NewDelta_loop_zero] at h
  | succ f ih =>
    intro r block rSum prev delta d h hlt
    rw [NewDelta_loop_succ] at h
    by_cases hp : prev = chunkTypeReusable
    · rw [if_pos hp] at h hlt ⊢
      have step : ∀ data : List Byte, data = r.take block.length →
          (match getChunk data (rSum.Init data).Sum s with
            | .error e => .error e
            | .ok c => NewDelta.loop s f (r.drop block.length) data (rSum.Init data) c.chunkType
                (delta.addChunk c)) = Except.ok d →
          d.byteCount = delta.byteCount + 0 + r.length := by
        intro data hdata h
        have hdl : data.length + (r.drop block.length).length = r.length := by
          rw [hdata]
          simp only [List.length_take, List.length_drop]
          omega
        cases hc : getChunk data (rSum.Init data).Sum s with
        | error e => rw [hc] at h; simp at h
        | ok c =>
          rw [hc] at h
          simp only at h
          rcases getChunk_byteCount data _ s c hc with ⟨hne, ⟨hk, hbc⟩ | ⟨hk, hbc⟩⟩ | ⟨he, hk, hbc⟩
          · have hadd := addChunk_byteCount delta c (by omega)
            have h2 := ih _ _ _ _ _ _ h (by rw [if_pos hk, hadd]; omega)
            rw [h2, if_pos hk, hadd]
            omega
          · have hpos : 0 < data.length := List.length_pos.mpr hne
            have hadd := addChunk_byteCount delta c (by omega)
            have h2 := ih _ _ _ _ _ _ h (by rw [if_neg hk, hadd]; omega)
            rw [h2, if_neg hk, hadd]
            omega
          · have hd0 : data.length = 0 := by rw [he]; rfl
            have hadd := addChunk_byteCount delta c (by omega)
            have h2 := ih _ _ _ _ _ _ h (by rw [if_pos hk, hadd]; omega)
            rw [h2, if_pos hk, hadd]
            omega
      rcases Read_cases r block.length with ⟨h0, h2⟩ | ⟨_, h1, h2⟩ | ⟨_, _, h2⟩
      · rw [h2] at h
        simp only at h
        have h3 := step [] (by rw [h0]; rfl) (by rw [h0]; exact h)
        exact h3
      · rw [h2] at h
        simp only [Except.ok.injEq] at h
        rw [← h, h1]
        simp
      · rw [h2] at h
        exact step _ rfl h
    · rw [if_neg hp] at h hlt ⊢
      cases block with
      | nil => simp at h
      | cons b0 tail =>
        simp only at h
        simp only [List.length_cons, Nat.add_sub_cancel] at hlt ⊢
        cases r with
        | nil =>
          have hread : stream.Read ([] : List Byte) 1 = .error .EOF := by simp [stream.Read]
          rw [hread] at h
          simp only [Except.ok.injEq] at h
          rw [← h, addChunk_byteCount delta _ (by simp only [chunk.byteCount]; simpa using hlt)]
          simp [chunk.byteCount]
        | cons x r1 =>
          have hread : stream.Read (x :: r1) 1 = .ok ([x], r1) := by simp [stream.Read]
          rw [hread] at h
          simp only at h
          simp only [List.length_cons] at hlt ⊢
          cases hc : getChunk (tail ++ [x]) (rSum.Roll b0 x).Sum s with
          | error e => rw [hc] at h; simp at h
          | ok c =>
            rw [hc] at h
            simp only at h
            have hbl : (tail ++ [x]).length = tail.length + 1 := by simp
            rcases getChunk_byteCount _ _ s c hc with ⟨_, ⟨hk, hbc⟩ | ⟨hk, hbc⟩⟩ | ⟨he, _, _⟩
            · have hadd := addChunk_byteCount delta c (by omega)
              have h2 := ih _ _ _ _ _ _ h (by rw [if_pos hk, hadd]; omega)
              rw [h2, if_pos hk, hadd]
              omega
            · have hadd := addChunk_byteCount delta c (by omega)
              have h2 := ih _ _ _ _ _ _ h (by rw [if_neg hk, hadd, hbl]; omega)
              rw [h2, if_neg hk, hadd, hbl]
              omega
            · simp at he

/-- C19. For every new stream (shorter than `2^64` bytes) and every signature
with a block length of at least 1, the chunk lengths of the delta `NewDelta`
returns sum to exactly the length of the new stream; and `NewDelta` does
return a delta when the block ids of the map index the strong hashes. -/
theorem C19_byte_accounting (r : List Byte) (s : Signature) (hL : 1 ≤ s.blockLength)
    (hn : r.length < 18446744073709551616) :
    (∀ d, NewDelta r s = .ok d → d.byteCount = r.length) ∧
    (s.idsInRange → ∃ d, NewDelta r s = .ok d ∧ d.byteCount = r.length) := by
  have h1 : ∀ d, NewDelta r s = .ok d → d.byteCount = r.length := by
    intro d hd
    have h := NewDelta_loop_byteCount s _ _ _ _ _ _ d hd
      (by simp only [Delta.byteCount, List.map_nil, List.sum_nil, if_true]; omega)
    simpa [Delta.byteCount] using h
  refine ⟨h1, fun hs => ?_⟩
  have hb : List.replicate s.blockLength (0 : Byte) ≠ [] := by
    intro h
    have h2 := congrArg List.length h
    simp only [List.length_replicate, List.length_nil] at h2
    omega
  obtain ⟨d, hd⟩ := NewDelta_loop_ok s hs (r.length + 1) r _ rollsum.New chunkTypeReusable
    { chunks := [] } (by omega) hb
  exact ⟨d, hd, h1 d hd⟩

set_option maxRecDepth 100000 in
/-- C19, at the stream of the test `should handle additions`: the chunks
`Reusable(0,32)`, `Literal([19])`, `Reusable(32,34)` account for 67 bytes. -/
theorem C19_byte_accounting_witness :
    1 ≤ testSignature.blockLength ∧ testPatched.length < 18446744073709551616 ∧
    ((∀ d, NewDelta testPatched testSignature = .ok d → d.byteCount = testPatched.length) ∧
     (testSignature.idsInRange →
       ∃ d, NewDelta testPatched testSignature = .ok d ∧ d.byteCount = testPatched.length)) ∧
    testDelta.byteCount = 67 ∧ testPatched.length = 67 :=
  ⟨by decide, by decide,
    C19_byte_accounting testPatched testSignature (by decide) (by decide), by decide, by decide⟩

end librsync

/-! ## The rolling checksum inside the scan, and the naive scan -/

namespace librsync

theorem naiveDelta_loop_zero (s : Signature) (r block : List Byte) (prev : chunkType)
    (delta : Delta) : naiveDelta.loop s 0 r block prev delta = .error .outOfFuel := rfl

theorem naiveDelta_loop_succ (s : Signature) (fuel : Nat) (r block : List Byte)
    (prev : chunkType) (delta : Delta) :
    naiveDelta.loop s (fuel + 1) r block prev delta =
      if prev = chunkTypeReusable then
        match stream.Read r block.length with
        | .error .EOF => .ok delta
        | .error e => .error e
        | .ok (data, rest) =>
          match getChunk data (computeRollingChecksum data) s with
          | .error e => .error e
          | .ok c => naiveDelta.loop s fuel rest data c.chunkType (delta.addChunk c)
      else
        match block with
        | [] => .error .sliceOutOfRange
        | _ :: tail =>
          match stream.Read r 1 with
          | .error .EOF => .ok (delta.addChunk (.modified tail))
          | .error e => .error e
          | .ok (singleByte, rest) =>
            match singleByte with
            | [] => .error .indexOutOfRange
            | _ :: _ =>
              match getChunk (tail ++ singleByte)
                  (computeRollingChecksum (tail ++ singleByte)) s with
              | .error e => .error e
              | .ok c =>
                naiveDelta.loop s fuel rest (tail ++ singleByte) c.chunkType
                  (delta.addChunk c) := rfl

theorem roll_sum_eq (b0 x : Byte) (tail : List Byte) :
    ((rollsum.New.Init (b0 :: tail)).Roll b0 x).Sum = computeRollingChecksum (tail ++ [x]) := by
  rw [rollsum.Init_roll rollsum.New rollsum.New b0 tail x]
  rfl

theorem NewDelta_loop_eq_naive (s : Signature) : ∀ (fuel : Nat) (r block : List Byte)
    (rSum : rollsum.RollingSum) (prev : chunkType) (delta : Delta),
    (prev ≠ chunkTypeReusable → rSum = rollsum.New.Init block) →
    NewDelta.loop s fuel r block rSum prev delta = naiveDelta.loop s fuel r block prev delta := by
  intro fuel
  induction fuel with
  | zero => intro r block rSum prev delta _; rfl
  | succ f ih =>
    intro r block rSum prev delta hinv
    rw [NewDelta_loop_succ, naiveDelta_loop_succ]
    by_cases hp : prev = chunkTypeReusable
    · rw [if_pos hp, if_pos hp]
      rcases Read_cases r block.length with ⟨_, h2⟩ | ⟨_, _, h2⟩ | ⟨_, _, h2⟩
      all_goals rw [h2]
      all_goals simp only
      · have e : (rSum.Init ([] : List Byte)).Sum = computeRollingChecksum [] := rfl
        rw [e]
        cases getChunk [] (computeRollingChecksum []) s with
        | error e => rfl
        | ok c => exact ih _ _ _ _ _ (fun _ => rfl)
      · have e : (rSum.Init (r.take block.length)).Sum =
            computeRollingChecksum (r.take block.length) := rfl
        rw [e]
        cases getChunk (r.take block.length) (computeRollingChecksum (r.take block.length)) s with
        | error e => rfl
        | ok c => exact ih _ _ _ _ _ (fun _ => rfl)
    · rw [if_neg hp, if_neg hp]
      cases block with
      | nil => rfl
      | cons b0 tail =>
        simp only
        cases r with
        | nil => rfl
        | cons x r1 =>
          have hread : stream.Read (x :: r1) 1 = .ok ([x], r1) := by simp [stream.Read]
          rw [hread]
          simp only
          have hr : rSum.Roll b0 x = rollsum.New.Init (tail ++ [x]) := by
            rw [hinv hp]
            exact rollsum.Init_roll rollsum.New rollsum.New b0 tail x
          have e : (rSum.Roll b0 x).Sum = computeRollingChecksum (tail ++ [x]) := by
            rw [hr]
            rfl
          rw [e]
          cases getChunk (tail ++ [x]) (computeRollingChecksum (tail ++ [x])) s with
          | error e => rfl
          | ok c => exact ih _ _ _ _ _ (fun _ => hr)

/-- C20. In `NewDelta` the weak checksum handed to `getChunk` is the checksum
computed from scratch over the current window: after `Init` in aligned mode
(on a full block or on a short final block), and after `Roll` in resync mode,
where the rolling sum is that of the window before the slide; the loop of
`NewDelta` started from any state in which the rolling sum is that of the
current window agrees with the loop of the naive scan, for every signature;
hence `NewDelta` returns what the naive scan returns. -/
theorem C20_rolling_equals_naive (r : List Byte) (s : Signature) :
    (∀ (rSum : rollsum.RollingSum) (data : List Byte),
      (rSum.Init data).Sum = (rollsum.New.Init data).Sum) ∧
    (∀ (b0 x : Byte) (tail : List Byte),
      ((rollsum.New.Init (b0 :: tail)).Roll b0 x).Sum = (rollsum.New.Init (tail ++ [x])).Sum) ∧
    (∀ (fuel : Nat) (r1 block : List Byte) (rSum : rollsum.RollingSum) (prev : chunkType)
      (delta : Delta), (prev ≠ chunkTypeReusable → rSum = rollsum.New.Init block) →
      NewDelta.loop s fuel r1 block rSum prev delta =
        naiveDelta.loop s fuel r1 block prev delta) ∧
    NewDelta r s = naiveDelta r s :=
  ⟨fun _ _ => rfl, fun b0 x tail => roll_sum_eq b0 x tail, NewDelta_loop_eq_naive s,
    NewDelta_loop_eq_naive s _ _ _ _ _ _ (fun h => absurd rfl h)⟩

end librsync

/-! ## The contents of a signature -/

namespace librsync

theorem blocks_getElem (L : Nat) (hL : 1 ≤ L) : ∀ (fuel : Nat) (r : List Byte) (i : Nat),
    r.length ≤ fuel →
    (blocks L fuel r)[i]? =
      if i * L < r.length then some ((r.drop (i * L)).take L) else none := by
  intro fuel
  induction fuel with
  | zero =>
    intro r i h
    have hr : r = [] := List.length_eq_zero.mp (by omega)
    simp [blocks, hr]
  | succ f ih =>
    intro r i h
    by_cases hr : r = []
    · simp [blocks, hr]
    · have hpos : 0 < r.length := List.length_pos.mpr hr
      simp only [blocks, hr, if_false]
      cases i with
      | zero => simp [hpos]
      | succ i =>
        rw [List.getElem?_cons_succ, ih (r.drop L) i (by simp only [List.length_drop]; omega)]
        have e : (i + 1) * L = L + i * L := by rw [Nat.succ_mul, Nat.add_comm]
        rw [e, List.drop_drop, List.length_drop]
        by_cases hc : i * L < r.length - L
        · rw [if_pos hc, if_pos (by omega)]
        · rw [if_neg hc, if_neg (by omega)]

theorem blocks_length (L : Nat) (hL : 1 ≤ L) : ∀ (fuel : Nat) (r : List Byte),
    r.length ≤ fuel → (blocks L fuel r).length = (r.length + L - 1) / L := by
  intro fuel
  induction fuel with
  | zero =>
    intro r h
    have hr : r = [] := List.length_eq_zero.mp (by omega)
    subst hr
    simp only [blocks, List.length_nil, Nat.zero_add]
    exact (Nat.div_eq_of_lt (by omega)).symm
  | succ f ih =>
    intro r h
    by_cases hr : r = []
    · subst hr
      simp only [blocks, if_true, List.length_nil, Nat.zero_add]
      exact (Nat.div_eq_of_lt (by omega)).symm
    · have hpos : 0 < r.length := List.length_pos.mpr hr
      simp only [blocks, hr, if_false, List.length_cons]
      rw [ih (r.drop L) (by simp only [List.length_drop]; omega), List.length_drop]
      have e : r.length + L - 1 = (r.length - 1) + L := by omega
      rw [e, Nat.add_div_right _ (by omega : 0 < L)]
      congr 1
      by_cases hc : r.length ≤ L
      · rw [Nat.div_eq_of_lt (by omega), Nat.div_eq_of_lt (by omega)]
      · congr 1
        omega

theorem blocksOf_getElem (basis : List Byte) (L : Nat) (hL : 1 ≤ L) (i : Nat) :
    (blocksOf basis L)[i]? =
      if i * L < basis.length then some ((basis.drop (i * L)).take L) else none :=
  blocks_getElem L hL basis.length basis i (Nat.le_refl _)

theorem blocksOf_length (basis : List Byte) (L : Nat) (hL : 1 ≤ L) :
    (blocksOf basis L).length = (basis.length + L - 1) / L :=
  blocks_length L hL basis.length basis (Nat.le_refl _)

theorem blocksOf_lt_iff (basis : List Byte) (L : Nat) (hL : 1 ≤ L) (i : Nat) :
    i < (basis.length + L - 1) / L ↔ i * L < basis.length := by
  rw [← blocksOf_length basis L hL]
  have h := blocksOf_getElem basis L hL i
  constructor
  · intro hi
    by_contra hc
    rw [if_neg hc, List.getElem?_eq_none_iff] at h
    omega
  · intro hi
    by_contra hc
    rw [if_pos hi, List.getElem?_eq_none (by omega)] at h
    simp at h

theorem addBlocks_append (bs cs : List (List Byte)) : ∀ sig : Signature,
    addBlocks sig (bs ++ cs) = addBlocks (addBlocks sig bs) cs := by
  induction bs with
  | nil => intro sig; rfl
  | cons b bs ih =>
    intro sig
    rw [List.cons_append]
    simp only [addBlocks]
    exact ih _

theorem lookup_mapSet (m : List (Nat × Nat)) (k k1 v : Nat) :
    List.lookup k (mapSet m k1 v) = if k = k1 then some v else List.lookup k m := by
  induction m with
  | nil =>
    by_cases h : k = k1
    · simp [mapSet, h]
    · have hb : (k == k1) = false := by simpa using h
      simp [mapSet, List.lookup_cons, hb, h]
  | cons p m ih =>
    obtain ⟨k2, v2⟩ := p
    by_cases h2 : k2 = k1
    · subst h2
      by_cases h : k = k2
      · simp [mapSet, h]
      · have hb : (k == k2) = false := by simpa using h
        simp [mapSet, List.lookup_cons, hb, h]
    · simp only [mapSet, h2, if_false, List.lookup_cons]
      by_cases h : k = k2
      · subst h
        simp [h2]
      · have hb : (k == k2) = false := by simpa using h
        simp only [hb, ih]

theorem mapSet_keys (m : List (Nat × Nat)) (k v : Nat) :
    (mapSet m k v).map Prod.fst =
      if k ∈ m.map Prod.fst then m.map Prod.fst else m.map Prod.fst ++ [k] := by
  induction m with
  | nil => simp [mapSet]
  | cons p m ih =>
    obtain ⟨k2, v2⟩ := p
    by_cases h2 : k2 = k
    · subst h2
      simp [mapSet]
    · have h3 : ¬ k = k2 := fun e => h2 e.symm
      simp only [mapSet, h2, if_false, List.map_cons, ih, List.mem_cons, h3, false_or]
      by_cases hm : k ∈ m.map Prod.fst
      · simp only [hm, if_true]
      · simp only [hm, if_false, List.cons_append]

theorem mapSet_keys_nodup (m : List (Nat × Nat)) (k v : Nat) (h : (m.map Prod.fst).Nodup) :
    ((mapSet m k v).map Prod.fst).Nodup := by
  rw [mapSet_keys]
  by_cases hm : k ∈ m.map Prod.fst
  · rw [if_pos hm]
    exact h
  · rw [if_neg hm]
    exact List.Nodup.append h (List.nodup_singleton k) (by simpa using hm)

theorem addBlocks_keys_nodup (bs : List (List Byte)) : ∀ sig : Signature,
    (sig.weakSignaturesToBlockID.map Prod.fst).Nodup →
    ((addBlocks sig bs).weakSignaturesToBlockID.map Prod.fst).Nodup := by
  induction bs with
  | nil => intro sig h; exact h
  | cons b bs ih =>
    intro sig h
    simp only [addBlocks]
    exact ih _ (mapSet_keys_nodup _ _ _ h)

theorem addBlocks_lookup (L : Nat) (bs : List (List Byte)) : ∀ (w id : Nat),
    List.lookup w
      (addBlocks { blockLength := L, strongSignatures := [], weakSignaturesToBlockID := [] }
        bs).weakSignaturesToBlockID = some id ↔
    ((bs[id]?).map computeRollingChecksum = some w ∧
      ∀ j, id < j → (bs[j]?).map computeRollingChecksum ≠ some w) := by
  induction bs using List.reverseRecOn with
  | nil => intro w id; simp [addBlocks]
  | append_singleton bs b ih =>
    intro w id
    rw [addBlocks_append]
    simp only [addBlocks, lookup_mapSet, addBlocks_strong, List.nil_append, List.length_map]
    have hlast : (bs ++ [b])[bs.length]? = some b := by
      rw [List.getElem?_append_right (Nat.le_refl _)]
      simp
    by_cases hw : w = computeRollingChecksum b
    · rw [if_pos hw]
      constructor
      · intro h
        simp only [Option.some.injEq] at h
        subst h
        refine ⟨by rw [hlast, hw]; rfl, ?_⟩
        intro j hj
        rw [List.getElem?_eq_none (by simp only [List.length_append, List.length_singleton]; omega)]
        simp
      · intro ⟨h1, h2⟩
        by_cases hid : id < bs.length
        · have h3 := h2 bs.length hid
          rw [hlast, hw] at h3
          exact absurd rfl h3
        · by_cases hid2 : id = bs.length
          · rw [hid2]
          · rw [List.getElem?_eq_none (by
              simp only [List.length_append, List.length_singleton]; omega)] at h1
            simp at h1
    · rw [if_neg hw, ih w id]
      constructor
      · intro ⟨h1, h2⟩
        have hid : id < bs.length := by
          by_contra hc
          rw [List.getElem?_eq_none (by omega)] at h1
          simp at h1
        refine ⟨by rw [List.getElem?_append_left hid]; exact h1, ?_⟩
        intro j hj
        by_cases hjl : j < bs.length
        · rw [List.getElem?_append_left hjl]
          exact h2 j hj
        · by_cases hj2 : j = bs.length
          · rw [hj2, hlast]
            simp only [Option.map_some', ne_eq, Option.some.injEq]
            exact fun e => hw e.symm
          · rw [List.getElem?_eq_none (by
              simp only [List.length_append, List.length_singleton]; omega)]
            simp
      · intro ⟨h1, h2⟩
        have hid : id < bs.length := by
          by_contra hc
          by_cases hid2 : id = bs.length
          · rw [hid2, hlast] at h1
            simp only [Option.map_some', Option.some.injEq] at h1
            exact hw h1.symm
          · rw [List.getElem?_eq_none (by
              simp only [List.length_append, List.length_singleton]; omega)] at h1
            simp at h1
        rw [List.getElem?_append_left hid] at h1
        refine ⟨h1, ?_⟩
        intro j hj
        by_cases hjl : j < bs.length
        · have h3 := h2 j hj
          rw [List.getElem?_append_left hjl] at h3
          exact h3
        · rw [List.getElem?_eq_none (by omega)]
          simp

/-- C13. `NewSignature` fails when the block length `L` is below 32;
otherwise it returns a signature with `blockLength = L`, exactly
`ceil(n / L)` strong hashes, the `i`-th being the SHA-256 digest of
`basis[i*L .. min((i+1)*L, n))`, and a map with one entry per key in which a
weak checksum `w` is mapped to `id` exactly when `id` is the largest block
index whose block has the weak checksum `w` (`Init` then `Sum`). -/
theorem C13_signature_contents (basis : List Byte) (L : Nat) :
    (L < 32 → NewSignature basis L = .error .tooSmallBlockSize) ∧
    (32 ≤ L → ∃ sig, NewSignature basis L = .ok sig ∧ sig.blockLength = L ∧
      sig.strongSignatures.length = (basis.length + L - 1) / L ∧
      (∀ i, i < (basis.length + L - 1) / L →
        sig.strongSignatures[i]? = some (sha256.Sum256 ((basis.drop (i * L)).take L))) ∧
      (sig.weakSignaturesToBlockID.map Prod.fst).Nodup ∧
      (∀ w id, List.lookup w sig.weakSignaturesToBlockID = some id ↔
        (id < (basis.length + L - 1) / L ∧
          (rollsum.New.Init ((basis.drop (id * L)).take L)).Sum = w ∧
          ∀ j, id < j → j < (basis.length + L - 1) / L →
            (rollsum.New.Init ((basis.drop (j * L)).take L)).Sum ≠ w))) := by
  constructor
  · intro h
    simp [NewSignature, h]
  · intro hL
    have hL1 : 1 ≤ L := by omega
    refine ⟨_, NewSignature_eq basis L hL, addBlocks_blockLength _ _, ?_, ?_, ?_, ?_⟩
    · rw [addBlocks_strong]
      simp [blocksOf_length basis L hL1]
    · intro i hi
      rw [addBlocks_strong]
      simp only [List.nil_append, List.getElem?_map, blocksOf_getElem basis L hL1,
        if_pos ((blocksOf_lt_iff basis L hL1 i).mp hi)]
      rfl
    · exact addBlocks_keys_nodup _ _ List.nodup_nil
    · intro w id
      rw [addBlocks_lookup]
      simp only [blocksOf_getElem basis L hL1]
      constructor
      · intro ⟨h1, h2⟩
        have hid : id * L < basis.length := by
          by_contra hc
          rw [if_neg hc] at h1
          simp at h1
        rw [if_pos hid] at h1
        simp only [Option.map_some', Option.some.injEq] at h1
        refine ⟨(blocksOf_lt_iff basis L hL1 id).mpr hid, h1, ?_⟩
        intro j hj hjn
        have h3 := h2 j hj
        rw [if_pos ((blocksOf_lt_iff basis L hL1 j).mp hjn)] at h3
        simp only [Option.map_some', ne_eq, Option.some.injEq] at h3
        exact h3
      · intro ⟨h1, h2, h3⟩
        rw [if_pos ((blocksOf_lt_iff basis L hL1 id).mp h1)]
        refine ⟨by simp only [Option.map_some', Option.some.injEq]; exact h2, ?_⟩
        intro j hj
        by_cases hjn : j * L < basis.length
        · rw [if_pos hjn]
          simp only [Option.map_some', ne_eq, Option.some.injEq]
          exact h3 j hj ((blocksOf_lt_iff basis L hL1 j).mpr hjn)
        · rw [if_neg hjn]
          simp

end librsync

/-! ## The entries `Signature.Write` emits -/

namespace librsync

theorem lookup_of_mem (m : List (Nat × Nat)) (hnd : (m.map Prod.fst).Nodup) (k v : Nat)
    (h : (k, v) ∈ m) : List.lookup k m = some v := by
  induction m with
  | nil => simp at h
  | cons p m ih =>
    obtain ⟨k1, v1⟩ := p
    simp only [List.map_cons, List.nodup_cons] at hnd
    rw [List.lookup_cons]
    rcases List.mem_cons.mp h with h1 | h1
    · simp only [Prod.mk.injEq] at h1
      rw [h1.1, h1.2]
      simp
    · have hne : k ≠ k1 := by
        intro e
        apply hnd.1
        rw [← e]
        exact List.mem_map.mpr ⟨(k, v), h1, rfl⟩
      have hb : (k == k1) = false := by simpa using hne
      rw [hb]
      exact ih hnd.2 h1

theorem fillWeakSigs_spec (m : List (Nat × Nat)) : ∀ acc : List Nat,
    (∀ p ∈ m, p.2 < acc.length) → (m.map Prod.snd).Nodup →
    ∃ ws, Signature.fillWeakSigs m acc = .ok ws ∧ ws.length = acc.length ∧
      (∀ w i, (w, i) ∈ m → ws[i]? = some w) ∧
      (∀ i, (∀ w, (w, i) ∉ m) → ws[i]? = acc[i]?) := by
  induction m with
  | nil =>
    intro acc _ _
    exact ⟨acc, rfl, rfl, by simp, fun _ _ => rfl⟩
  | cons p m ih =>
    intro acc hr hnd
    obtain ⟨w0, i0⟩ := p
    simp only [List.map_cons, List.nodup_cons] at hnd
    have hi0 : i0 < acc.length := hr (w0, i0) (List.mem_cons_self _ _)
    obtain ⟨ws, h1, h2, h3, h4⟩ := ih (acc.set i0 w0)
      (fun p hp => by rw [List.length_set]; exact hr p (List.mem_cons_of_mem _ hp)) hnd.2
    refine ⟨ws, ?_, by rw [h2, List.length_set], ?_, ?_⟩
    · simp only [Signature.fillWeakSigs, hi0, if_true]
      exact h1
    · intro w i hmem
      rcases List.mem_cons.mp hmem with h5 | h5
      · simp only [Prod.mk.injEq] at h5
        rw [h5.1, h5.2]
        have hno : ∀ w1, (w1, i0) ∉ m := by
          intro w1 hm
          exact hnd.1 (List.mem_map.mpr ⟨(w1, i0), hm, rfl⟩)
        rw [h4 i0 hno, List.getElem?_set_self hi0]
      · exact h3 w i h5
    · intro i hno
      have hne : i0 ≠ i := by
        intro e
        exact hno w0 (by rw [← e]; exact List.mem_cons_self _ _)
      rw [h4 i (fun w hm => hno w (List.mem_cons_of_mem _ hm)), List.getElem?_set_ne hne]

theorem writeEntries_range (strong : List (List Byte)) (E : Nat → Nat)
    (Hf : Nat → List Byte) : ∀ (n k : Nat) (out : List Byte),
    (∀ i, k ≤ i → i < k + n → strong.get? i = some (Hf i)) →
    Signature.writeEntries strong k ((List.range' k n).map E) out =
      (out ++ (List.range' k n).flatMap fun i => stream.putUint32 (E i) ++ Hf i, none) := by
  intro n
  induction n with
  | zero => intro k out _; simp [Signature.writeEntries]
  | succ n ih =>
    intro k out h
    simp only [List.range'_succ, List.map_cons, Signature.writeEntries,
      h k (Nat.le_refl _) (by omega), List.flatMap_cons]
    rw [ih (k + 1) _ (fun i h1 h2 => h i (by omega) (by omega))]
    simp

theorem addBlocks_mem (L : Nat) (bs : List (List Byte)) (w i : Nat)
    (h : (w, i) ∈ (addBlocks
      { blockLength := L, strongSignatures := [], weakSignaturesToBlockID := [] }
      bs).weakSignaturesToBlockID) :
    (bs[i]?).map computeRollingChecksum = some w ∧
    List.lookup w (addBlocks
      { blockLength := L, strongSignatures := [], weakSignaturesToBlockID := [] }
      bs).weakSignaturesToBlockID = some i := by
  have hl := lookup_of_mem _ (addBlocks_keys_nodup bs
    { blockLength := L, strongSignatures := [], weakSignaturesToBlockID := [] }
    List.nodup_nil) w i h
  exact ⟨((addBlocks_lookup L bs w i).mp hl).1, hl⟩

theorem addBlocks_fill (L : Nat) (bs : List (List Byte)) :
    Signature.fillWeakSigs
      (addBlocks { blockLength := L, strongSignatures := [], weakSignaturesToBlockID := [] }
        bs).weakSignaturesToBlockID (List.replicate bs.length 0) =
      .ok ((List.range' 0 bs.length).map fun i =>
        if List.lookup (computeRollingChecksum (bs.getD i []))
            (addBlocks { blockLength := L, strongSignatures := [], weakSignaturesToBlockID := [] }
              bs).weakSignaturesToBlockID = some i
        then computeRollingChecksum (bs.getD i []) else 0) := by
  have hkeys := addBlocks_keys_nodup bs
    { blockLength := L, strongSignatures := [], weakSignaturesToBlockID := [] } List.nodup_nil
  generalize hm : (addBlocks
    { blockLength := L, strongSignatures := [], weakSignaturesToBlockID := [] }
    bs).weakSignaturesToBlockID = m at hkeys
  have hmem : ∀ w i, (w, i) ∈ m →
      (bs[i]?).map computeRollingChecksum = some w ∧ List.lookup w m = some i := by
    intro w i h
    rw [← hm] at h ⊢
    exact addBlocks_mem L bs w i h
  have hrange : ∀ p ∈ m, p.2 < (List.replicate bs.length 0).length := by
    intro p hp
    obtain ⟨w, i⟩ := p
    have h1 := (hmem w i hp).1
    rw [List.length_replicate]
    by_contra hc
    rw [List.getElem?_eq_none (by omega)] at h1
    simp at h1
  have hsnd : (m.map Prod.snd).Nodup := by
    apply List.Nodup.map_on _ (List.Nodup.of_map _ hkeys)
    intro x hx y hy hxy
    obtain ⟨w1, i1⟩ := x
    obtain ⟨w2, i2⟩ := y
    simp only at hxy
    subst hxy
    have h1 := (hmem w1 i1 hx).1
    have h2 := (hmem w2 i1 hy).1
    rw [h1] at h2
    simp only [Option.some.injEq] at h2
    rw [h2]
  obtain ⟨ws, h1, h2, h3, h4⟩ := fillWeakSigs_spec m _ hrange hsnd
  rw [h1]
  congr 1
  apply List.ext_getElem?
  intro n
  rw [List.length_replicate] at h2
  by_cases hn : n < bs.length
  · have hb : bs[n]? = some (bs.getD n []) := by
      rw [List.getD_eq_getElem?_getD, List.getElem?_eq_getElem hn]
      rfl
    simp only [List.getElem?_map, List.getElem?_range', hn, if_true, Nat.zero_add, Nat.one_mul,
      Option.map_some']
    by_cases hl : List.lookup (computeRollingChecksum (bs.getD n [])) m = some n
    · rw [if_pos hl]
      exact h3 _ _ (lookup_mem _ _ _ hl)
    · rw [if_neg hl]
      have hno : ∀ w, (w, n) ∉ m := by
        intro w hw
        obtain ⟨h5, h6⟩ := hmem w n hw
        rw [hb] at h5
        simp only [Option.map_some', Option.some.injEq] at h5
        rw [← h5] at h6
        exact hl h6
      rw [h4 n hno]
      simp [hn]
  · rw [List.getElem?_eq_none (by omega), List.getElem?_eq_none (by simp; omega)]

/-- C18. For every signature built by `NewSignature`, `Signature.Write` emits
the 4-byte big-endian block length followed by one 36-byte entry per block in
block-index order: the 4-byte big-endian weak checksum, then the 32-byte
strong hash of the block.  For a block index `i` the map still points to, the
weak checksum emitted is the weak checksum of block `i` (the only key that
can point to `i`); for a block index whose key was taken over by a later
block with the same weak checksum, it is 0. -/
theorem C18_signature_write (basis out : List Byte) (L : Nat) (hL : 32 ≤ L) :
    ∃ sig, NewSignature basis L = .ok sig ∧
      sig.Write out =
        (out ++ bigEndian 4 L ++
          (List.range ((basis.length + L - 1) / L)).flatMap (fun i =>
            bigEndian 4
              (if List.lookup (computeRollingChecksum ((basis.drop (i * L)).take L))
                  sig.weakSignaturesToBlockID = some i
               then computeRollingChecksum ((basis.drop (i * L)).take L) else 0) ++
            computeStrongChecksum ((basis.drop (i * L)).take L)), none) ∧
      (∀ w i, List.lookup w sig.weakSignaturesToBlockID = some i →
        w = computeRollingChecksum ((basis.drop (i * L)).take L)) ∧
      (∀ (v : Nat) (block : List Byte),
        (bigEndian 4 v ++ computeStrongChecksum block).length = 36) := by
  have hL1 : 1 ≤ L := by omega
  refine ⟨_, NewSignature_eq basis L hL, ?_, ?_, ?_⟩
  · unfold Signature.Write
    simp only [addBlocks_blockLength, addBlocks_strong, List.nil_append, List.length_map]
    rw [addBlocks_fill L (blocksOf basis L)]
    simp only
    rw [writeEntries_range _ _ (fun i => computeStrongChecksum ((basis.drop (i * L)).take L))]
    · rw [bigEndian_four, List.range_eq_range', blocksOf_length basis L hL1]
      congr 2
      apply List.flatMap_congr
      intro i hi
      have hi2 : i < (basis.length + L - 1) / L := by
        have := List.mem_range'_1.mp hi
        omega
      have hb : (blocksOf basis L).getD i [] = (basis.drop (i * L)).take L := by
        rw [List.getD_eq_getElem?_getD, blocksOf_getElem basis L hL1,
          if_pos ((blocksOf_lt_iff basis L hL1 i).mp hi2)]
        rfl
      rw [hb, bigEndian_four]
    · intro i _ hi
      rw [List.get?_eq_getElem?, List.getElem?_map, blocksOf_getElem basis L hL1]
      have hi2 : i < (basis.length + L - 1) / L := by
        rw [← blocksOf_length basis L hL1]
        omega
      rw [if_pos ((blocksOf_lt_iff basis L hL1 i).mp hi2)]
      rfl
  · intro w i h
    have h1 := ((addBlocks_lookup L (blocksOf basis L) w i).mp h).1
    rw [blocksOf_getElem basis L hL1] at h1
    by_cases hc : i * L < basis.length
    · rw [if_pos hc] at h1
      simp only [Option.map_some', Option.some.injEq] at h1
      exact h1.symm
    · rw [if_neg hc] at h1
      simp at h1
  · intro v block
    simp [bigEndian, computeStrongChecksum_length]

set_option maxRecDepth 100000 in
/-- C18, at the 66-byte test basis with `L = 32`; and on a basis of 64 bytes
1, whose two blocks share the weak checksum 34603040: the entry of block 0
carries the weak checksum 0, the entry of block 1 the true one. -/
theorem C18_signature_write_witness :
    32 ≤ 32 ∧
    (∃ sig, NewSignature testBasis 32 = .ok sig ∧
      sig.Write [] =
        ([] ++ bigEndian 4 32 ++
          (List.range ((testBasis.length + 32 - 1) / 32)).flatMap (fun i =>
            bigEndian 4
              (if List.lookup (computeRollingChecksum ((testBasis.drop (i * 32)).take 32))
                  sig.weakSignaturesToBlockID = some i
               then computeRollingChecksum ((testBasis.drop (i * 32)).take 32) else 0) ++
            computeStrongChecksum ((testBasis.drop (i * 32)).take 32)), none) ∧
      (∀ w i, List.lookup w sig.weakSignaturesToBlockID = some i →
        w = computeRollingChecksum ((testBasis.drop (i * 32)).take 32)) ∧
      (∀ (v : Nat) (block : List Byte),
        (bigEndian 4 v ++ computeStrongChecksum block).length = 36)) ∧
    computeRollingChecksum (List.replicate 32 1) = 34603040 ∧
    (match NewSignature (List.replicate 64 1) 32 with
      | .ok sig => ((sig.Write []).1.take 8, ((sig.Write []).1.drop 40).take 4)
      | .error _ => ([], [])) = ([0, 0, 0, 32, 0, 0, 0, 0], [2, 16, 0, 32]) :=
  ⟨by decide, C18_signature_write testBasis [] 32 (by decide), by decide, by decide!⟩

end librsync

/-! ## Single steps and runs of the scan -/

namespace librsync

theorem getChunk_nomatch (s : Signature) (hs : s.idsInRange) (b : Byte) (tl : List Byte)
    (hno : ¬ s.matchesWindow (b :: tl)) :
    getChunk (b :: tl) (computeRollingChecksum (b :: tl)) s = .ok (.modified [b]) := by
  unfold Signature.matchesWindow at hno
  unfold getChunk
  cases hl : s.weakSignaturesToBlockID.lookup (computeRollingChecksum (b :: tl)) with
  | none => rfl
  | some blockID =>
    rw [hl] at hno
    simp only at hno ⊢
    have hlt : blockID < s.strongSignatures.length := hs _ (lookup_mem _ _ _ hl)
    obtain ⟨strong, hg⟩ : ∃ strong, s.strongSignatures.get? blockID = some strong :=
      ⟨_, List.get?_eq_get hlt⟩
    rw [hg] at hno ⊢
    simp only [Option.some.injEq] at hno
    simp only [hno, if_false]

theorem take_ne_nil (r : List Byte) (n : Nat) (hr : r ≠ []) :
    ∃ b tl, r.take (n + 1) = b :: tl ∧ r.take 1 = [b] := by
  cases r with
  | nil => exact absurd rfl hr
  | cons b r1 => exact ⟨b, r1.take n, rfl, rfl⟩

theorem aligned_nomatch_step (s : Signature) (hs : s.idsInRange) (f n : Nat)
    (r block : List Byte) (rSum : rollsum.RollingSum) (delta : Delta)
    (hb : block.length = n + 1) (hr : r ≠ []) (hno : ¬ s.matchesWindow (r.take (n + 1))) :
    NewDelta.loop s (f + 1) r block rSum chunkTypeReusable delta =
      NewDelta.loop s f (r.drop (n + 1)) (r.take (n + 1)) (rollsum.New.Init (r.take (n + 1)))
        chunkTypeModified (delta.addChunk (.modified (r.take 1))) := by
  rw [NewDelta_loop_succ, if_pos rfl, hb]
  rcases Read_cases r (n + 1) with ⟨h0, _⟩ | ⟨_, h1, _⟩ | ⟨_, _, h2⟩
  · omega
  · exact absurd h1 hr
  · rw [h2]
    simp only
    obtain ⟨b, tl, h3, h4⟩ := take_ne_nil r n hr
    have e : (rSum.Init (r.take (n + 1))).Sum = computeRollingChecksum (r.take (n + 1)) := rfl
    rw [e, h4]
    rw [h3] at hno ⊢
    rw [getChunk_nomatch s hs b tl hno]
    rfl

theorem aligned_match_step (s : Signature) (f n k : Nat) (r block : List Byte)
    (rSum : rollsum.RollingSum) (delta : Delta) (hb : block.length = n + 1) (hr : r ≠ [])
    (h1 : List.lookup (computeRollingChecksum (r.take (n + 1))) s.weakSignaturesToBlockID =
      some k)
    (h2 : s.strongSignatures.get? k = some (computeStrongChecksum (r.take (n + 1)))) :
    NewDelta.loop s (f + 1) r block rSum chunkTypeReusable delta =
      NewDelta.loop s f (r.drop (n + 1)) (r.take (n + 1)) (rollsum.New.Init (r.take (n + 1)))
        chunkTypeReusable
        (delta.addChunk (.reusable (u64 (k * (r.take (n + 1)).length)) (r.take (n + 1)).length)) := by
  rw [NewDelta_loop_succ, if_pos rfl, hb]
  rcases Read_cases r (n + 1) with ⟨h0, _⟩ | ⟨_, h3, _⟩ | ⟨_, _, h4⟩
  · omega
  · exact absurd h3 hr
  · rw [h4]
    simp only
    rw [getChunk_match s (r.take (n + 1)) rSum k h1 h2]
    rfl

theorem window_slide (S : List Byte) (n : Nat) (h : n + 2 ≤ S.length) :
    ∃ b0 tail x r1, S.take (n + 1) = b0 :: tail ∧ S.drop (n + 1) = x :: r1 ∧
      tail ++ [x] = (S.drop 1).take (n + 1) ∧ r1 = (S.drop 1).drop (n + 1) := by
  cases S with
  | nil => simp at h
  | cons b0 S1 =>
    simp only [List.length_cons] at h
    have hn : n < S1.length := by omega
    refine ⟨b0, S1.take n, S1[n], S1.drop (n + 1), rfl, ?_, ?_, rfl⟩
    · simp only [List.drop_succ_cons]
      exact List.drop_eq_getElem_cons hn
    · simp only [List.drop_succ_cons, List.drop_zero]
      rw [List.take_succ, List.getElem?_eq_getElem hn]
      rfl

theorem resync_nomatch_step (s : Signature) (hs : s.idsInRange) (f n : Nat) (S : List Byte)
    (delta : Delta) (h : n + 2 ≤ S.length)
    (hno : ¬ s.matchesWindow ((S.drop 1).take (n + 1))) :
    NewDelta.loop s (f + 1) (S.drop (n + 1)) (S.take (n + 1))
        (rollsum.New.Init (S.take (n + 1))) chunkTypeModified delta =
      NewDelta.loop s f ((S.drop 1).drop (n + 1)) ((S.drop 1).take (n + 1))
        (rollsum.New.Init ((S.drop 1).take (n + 1))) chunkTypeModified
        (delta.addChunk (.modified ((S.drop 1).take 1))) := by
  obtain ⟨b0, tail, x, r1, h1, h2, h3, h4⟩ := window_slide S n h
  rw [NewDelta_loop_succ, if_neg (by decide), h1, h2]
  have hread : stream.Read (x :: r1) 1 = .ok ([x], r1) := by simp [stream.Read]
  simp only [hread]
  have hroll : (rollsum.New.Init (b0 :: tail)).Roll b0 x = rollsum.New.Init (tail ++ [x]) :=
    rollsum.Init_roll rollsum.New rollsum.New b0 tail x
  rw [hroll, h3, ← h4]
  have hne : S.drop 1 ≠ [] := by
    intro e
    have := congrArg List.length e
    simp only [List.length_drop, List.length_nil] at this
    omega
  obtain ⟨b, tl, h5, h6⟩ := take_ne_nil (S.drop 1) n hne
  have e : (rollsum.New.Init ((S.drop 1).take (n + 1))).Sum =
      computeRollingChecksum ((S.drop 1).take (n + 1)) := rfl
  rw [e, h6]
  rw [h5] at hno ⊢
  rw [getChunk_nomatch s hs b tl hno]
  rfl

theorem resync_match_step (s : Signature) (f n k : Nat) (S : List Byte) (delta : Delta)
    (h : n + 2 ≤ S.length)
    (h1 : List.lookup (computeRollingChecksum ((S.drop 1).take (n + 1)))
      s.weakSignaturesToBlockID = some k)
    (h2 : s.strongSignatures.get? k =
      some (computeStrongChecksum ((S.drop 1).take (n + 1)))) :
    NewDelta.loop s (f + 1) (S.drop (n + 1)) (S.take (n + 1))
        (rollsum.New.Init (S.take (n + 1))) chunkTypeModified delta =
      NewDelta.loop s f ((S.drop 1).drop (n + 1)) ((S.drop 1).take (n + 1))
        (rollsum.New.Init ((S.drop 1).take (n + 1))) chunkTypeReusable
        (delta.addChunk (.reusable (u64 (k * (n + 1))) (n + 1))) := by
  obtain ⟨b0, tail, x, r1, e1, e2, e3, e4⟩ := window_slide S n h
  rw [NewDelta_loop_succ, if_neg (by decide), e1, e2]
  have hread : stream.Read (x :: r1) 1 = .ok ([x], r1) := by simp [stream.Read]
  simp only [hread]
  have hroll : (rollsum.New.Init (b0 :: tail)).Roll b0 x = rollsum.New.Init (tail ++ [x]) :=
    rollsum.Init_roll rollsum.New rollsum.New b0 tail x
  rw [hroll, e3, ← e4]
  rw [getChunk_match s ((S.drop 1).take (n + 1)) rollsum.New k h1 h2]
  have hl : ((S.drop 1).take (n + 1)).length = n + 1 := by
    simp only [List.length_take, List.length_drop]
    omega
  rw [hl]
  rfl

theorem addChunk_literal_concat (pre : List chunk) (d d1 : List Byte) :
    Delta.addChunk { chunks := pre ++ [.modified d] } (.modified d1) =
      { chunks := pre ++ [.modified (d ++ d1)] } := by
  rw [addChunk_concat]
  exact if_pos rfl

theorem resync_run (s : Signature) (hs : s.idsInRange) (n : Nat) (pre : List chunk) :
    ∀ (m f : Nat) (S d : List Byte), m + n + 1 ≤ S.length →
    (∀ i, 1 ≤ i → i ≤ m → ¬ s.matchesWindow ((S.drop i).take (n + 1))) →
    NewDelta.loop s (f + m) (S.drop (n + 1)) (S.take (n + 1))
        (rollsum.New.Init (S.take (n + 1))) chunkTypeModified
        { chunks := pre ++ [.modified d] } =
      NewDelta.loop s f ((S.drop m).drop (n + 1)) ((S.drop m).take (n + 1))
        (rollsum.New.Init ((S.drop m).take (n + 1))) chunkTypeModified
        { chunks := pre ++ [.modified (d ++ (S.drop 1).take m)] } := by
  intro m
  induction m with
  | zero => intro f S d _ _; simp
  | succ m ih =>
    intro f S d hlen hno
    have e : f + (m + 1) = (f + m) + 1 := by omega
    rw [e, resync_nomatch_step s hs (f + m) n S _ (by omega) (hno 1 (by omega) (by omega)),
      addChunk_literal_concat]
    rw [ih f (S.drop 1) _ (by simp only [List.length_drop]; omega)
      (fun i h1 h2 => by
        rw [List.drop_drop]
        exact hno (1 + i) (by omega) (by omega))]
    have e1 : (S.drop 1).drop m = S.drop (m + 1) := by rw [List.drop_drop, Nat.add_comm]
    have e2 : (S.drop 1).take 1 ++ ((S.drop 1).drop 1).take m = (S.drop 1).take (m + 1) := by
      rw [Nat.add_comm m 1, List.take_add]
    rw [e1, List.append_assoc, e2]

theorem aligned_run (s : Signature) (n : Nat) : ∀ (j f k : Nat) (r block : List Byte)
    (rSum : rollsum.RollingSum) (delta : Delta), block.length = n + 1 →
    j * (n + 1) ≤ r.length →
    (∀ i, i < j →
      List.lookup (computeRollingChecksum ((r.drop (i * (n + 1))).take (n + 1)))
        s.weakSignaturesToBlockID = some (k + i) ∧
      s.strongSignatures.get? (k + i) =
        some (computeStrongChecksum ((r.drop (i * (n + 1))).take (n + 1)))) →
    ∃ block1 rSum1, block1.length = n + 1 ∧
      NewDelta.loop s (f + j) r block rSum chunkTypeReusable delta =
        NewDelta.loop s f (r.drop (j * (n + 1))) block1 rSum1 chunkTypeReusable
          (((List.range' k j).map fun i => chunk.reusable (u64 (i * (n + 1))) (n + 1)).foldl
            Delta.addChunk delta) := by
  intro j
  induction j with
  | zero =>
    intro f k r block rSum delta hb _ _
    exact ⟨block, rSum, hb, by simp⟩
  | succ j ih =>
    intro f k r block rSum delta hb hlen hfacts
    have hmul : (j + 1) * (n + 1) = (n + 1) + j * (n + 1) := by
      rw [Nat.succ_mul, Nat.add_comm]
    have hr : r ≠ [] := by
      intro e
      rw [e] at hlen
      simp only [List.length_nil] at hlen
      omega
    have h0 := hfacts 0 (by omega)
    simp only [Nat.zero_mul, List.drop_zero, Nat.add_zero] at h0
    have hl : (r.take (n + 1)).length = n + 1 := by
      simp only [List.length_take]
      omega
    have e : f + (j + 1) = (f + j) + 1 := by omega
    rw [e, aligned_match_step s (f + j) n k r block rSum delta hb hr h0.1 h0.2, hl]
    obtain ⟨block1, rSum1, hb1, h1⟩ := ih f (k + 1) (r.drop (n + 1)) (r.take (n + 1))
      (rollsum.New.Init (r.take (n + 1)))
      (delta.addChunk (.reusable (u64 (k * (n + 1))) (n + 1))) hl
      (by simp only [List.length_drop]; omega)
      (fun i hi => by
        have h2 := hfacts (i + 1) (by omega)
        have e1 : (i + 1) * (n + 1) = (n + 1) + i * (n + 1) := by
          rw [Nat.succ_mul, Nat.add_comm]
        have e2 : k + (i + 1) = k + 1 + i := by omega
        rw [List.drop_drop]
        rw [e1, e2] at h2
        exact h2)
    refine ⟨block1, rSum1, hb1, ?_⟩
    rw [h1, List.drop_drop, hmul]
    simp only [List.range'_succ, List.map_cons, List.foldl_cons]

theorem fold_reusable_chunks (cs : List chunk) : ∀ (pre : List chunk) (s l : Nat),
    (∀ c ∈ cs, c.chunkType = chunkTypeReusable) →
    l + (cs.map chunk.byteCount).sum < 18446744073709551616 →
    cs.foldl Delta.addChunk { chunks := pre ++ [.reusable s l] } =
      { chunks := pre ++ [.reusable s (l + (cs.map chunk.byteCount).sum)] } := by
  induction cs with
  | nil => intro pre s l _ _; simp
  | cons c cs ih =>
    intro pre s l hall hlt
    simp only [List.map_cons, List.sum_cons] at hlt
    cases c with
    | modified d =>
      have h := hall (.modified d) (List.mem_cons_self _ _)
      have h2 : chunkTypeModified = chunkTypeReusable := h
      exact absurd h2 (by decide)
    | reusable s1 l1 =>
      simp only [chunk.byteCount] at hlt
      have hadd : Delta.addChunk { chunks := pre ++ [.reusable s l] } (.reusable s1 l1) =
          { chunks := pre ++ [.reusable s (l + l1)] } := by
        rw [addChunk_concat]
        have hu : u64 (l + l1) = l + l1 := Nat.mod_eq_of_lt (by omega)
        rw [← hu]
        exact if_pos rfl
      simp only [List.foldl_cons, hadd, List.map_cons, List.sum_cons, chunk.byteCount]
      rw [ih pre s (l + l1) (fun c hc => hall c (List.mem_cons_of_mem _ hc)) (by omega)]
      simp only [Nat.add_assoc]

end librsync

/-! ## A changed first block, and an inserted byte -/

namespace librsync

theorem addBlocks_idsInRange (L : Nat) (bs : List (List Byte)) :
    (addBlocks { blockLength := L, strongSignatures := [], weakSignaturesToBlockID := [] }
      bs).idsInRange := by
  intro p hp
  obtain ⟨w, i⟩ := p
  have h1 := (addBlocks_mem L bs w i hp).1
  rw [addBlocks_strong]
  simp only [List.nil_append, List.length_map]
  by_contra hc
  rw [List.getElem?_eq_none (by omega)] at h1
  simp at h1

theorem basis_block_facts (basis : List Byte) (L : Nat) (hL : 1 ≤ L)
    (hnd : ((blocksOf basis L).map computeRollingChecksum).Nodup) (i : Nat)
    (hi : i * L < basis.length) :
    List.lookup (computeRollingChecksum ((basis.drop (i * L)).take L))
      (addBlocks { blockLength := L, strongSignatures := [], weakSignaturesToBlockID := [] }
        (blocksOf basis L)).weakSignaturesToBlockID = some i ∧
    (addBlocks { blockLength := L, strongSignatures := [], weakSignaturesToBlockID := [] }
        (blocksOf basis L)).strongSignatures.get? i =
      some (computeStrongChecksum ((basis.drop (i * L)).take L)) := by
  apply addBlocks_facts L (blocksOf basis L) hnd i
  rw [List.get?_eq_getElem?, blocksOf_getElem basis L hL, if_pos hi]

theorem tail_run (basis : List Byte) (L : Nat) (hL : 1 ≤ L)
    (hnd : ((blocksOf basis L).map computeRollingChecksum).Nodup) (k fuel : Nat)
    (block : List Byte) (rSum : rollsum.RollingSum) (pre : List chunk) (s0 l0 : Nat)
    (hb : block.length = L) (hf : (basis.drop (k * L)).length < fuel)
    (hlt : l0 + (basis.drop (k * L)).length < 18446744073709551616) :
    NewDelta.loop
        (addBlocks { blockLength := L, strongSignatures := [], weakSignaturesToBlockID := [] }
          (blocksOf basis L))
        fuel (basis.drop (k * L)) block rSum chunkTypeReusable
        { chunks := pre ++ [.reusable s0 l0] } =
      .ok { chunks := pre ++ [.reusable s0 (l0 + (basis.drop (k * L)).length)] } := by
  have hbne : block ≠ [] := by
    intro e
    rw [e] at hb
    simp only [List.length_nil] at hb
    omega
  rw [self_loop _ L hL fuel (basis.drop (k * L)) block rSum k _ hf hbne (fun _ => hb)]
  · rw [fold_reusable_chunks]
    · congr 4
      rw [List.map_map]
      have e : (chunk.byteCount ∘ fun p : Nat × List Byte =>
          chunk.reusable (u64 (p.1 * p.2.length)) p.2.length) = List.length ∘ Prod.snd := by
        funext p
        rfl
      rw [e, ← List.map_map, List.enumFrom_map_snd,
        blocks_length_sum L hL fuel (basis.drop (k * L)) (by omega)]
    · intro c hc
      obtain ⟨p, _, rfl⟩ := List.mem_map.mp hc
      rfl
    · rw [List.map_map]
      have e : (chunk.byteCount ∘ fun p : Nat × List Byte =>
          chunk.reusable (u64 (p.1 * p.2.length)) p.2.length) = List.length ∘ Prod.snd := by
        funext p
        rfl
      rw [e, ← List.map_map, List.enumFrom_map_snd, blocks_length_sum L hL fuel (basis.drop (k * L)) (by omega)]
      exact hlt
  · intro j b hj
    rw [List.get?_eq_getElem?, blocks_getElem L hL fuel (basis.drop (k * L)) j (by omega)] at hj
    by_cases hc : j * L < (basis.drop (k * L)).length
    · rw [if_pos hc] at hj
      simp only [Option.some.injEq] at hj
      rw [List.length_drop] at hc
      have e : (k + j) * L = k * L + j * L := Nat.add_mul k j L
      have h := basis_block_facts basis L hL hnd (k + j) (by rw [e]; omega)
      rw [e, ← List.drop_drop, hj] at h
      exact h
    · rw [if_neg hc] at hj
      simp at hj

/-- C14. For every block length `L >= 32`, every basis of length `n` with
`2 * L <= n < 2^64` whose blocks have pairwise distinct weak checksums, and
every target of the same length that equals the basis from offset `L` on and
none of whose windows `target[o .. o+L)`, `0 <= o < L`, matches a block of
the signature of the basis: the delta of the target is
`[Literal(target[0 .. L)), Reusable(L, n - L)]`. -/
theorem C14_changed_first_block (basis target : List Byte) (L : Nat) (sig : Signature)
    (hL : 32 ≤ L) (hn : 2 * L ≤ basis.length) (hlt : basis.length < 18446744073709551616)
    (hnd : ((blocksOf basis L).map computeRollingChecksum).Nodup)
    (hlen : target.length = basis.length) (htail : target.drop L = basis.drop L)
    (hsig : NewSignature basis L = .ok sig)
    (hno : ∀ o, o < L → ¬ sig.matchesWindow ((target.drop o).take L)) :
    NewDelta target sig =
      .ok { chunks := [.modified (target.take L), .reusable L (basis.length - L)] } := by
  rw [NewSignature_eq basis L hL] at hsig
  simp only [Except.ok.injEq] at hsig
  subst hsig
  obtain ⟨n0, rfl⟩ : ∃ n0, L = n0 + 1 := ⟨L - 1, by omega⟩
  have hs := addBlocks_idsInRange (n0 + 1) (blocksOf basis (n0 + 1))
  have hr : target ≠ [] := by
    intro e
    rw [e] at hlen
    simp only [List.length_nil] at hlen
    omega
  unfold NewDelta
  rw [addBlocks_blockLength]
  -- the first window does not match
  have h0 := hno 0 (by omega)
  rw [List.drop_zero] at h0
  rw [aligned_nomatch_step _ hs target.length n0 target _ _ _ (by simp) hr h0, addChunk_nil]
  -- nor do the windows at the offsets 1 .. L - 1
  have ef : target.length = (target.length - n0) + n0 := by omega
  have hrun := resync_run _ hs n0 [] n0 (target.length - n0) target (target.take 1) (by omega)
    (fun i _ h2 => hno i (by omega))
  rw [List.nil_append] at hrun
  rw [ef, hrun]
  have e1 : target.take 1 ++ (target.drop 1).take n0 = target.take (n0 + 1) := by
    rw [Nat.add_comm n0 1, List.take_add]
  rw [List.nil_append, e1]
  -- the window at offset L is block 1 of the basis
  have ef2 : target.length - n0 + n0 - n0 = (target.length - n0 - 1) + 1 := by omega
  have hd1 : (target.drop n0).drop 1 = basis.drop (n0 + 1) := by
    rw [List.drop_drop, htail]
  have hfacts := basis_block_facts basis (n0 + 1) (by omega) hnd 1 (by omega)
  rw [Nat.one_mul] at hfacts
  have ef3 : target.length - n0 = (target.length - n0 - 1) + 1 := by omega
  rw [ef3, resync_match_step _ (target.length - n0 - 1) n0 1 (target.drop n0) _
    (by simp only [List.length_drop]; omega) (by rw [hd1]; exact hfacts.1)
    (by rw [hd1]; exact hfacts.2)]
  rw [hd1, List.drop_drop]
  have hadd : Delta.addChunk { chunks := [.modified (target.take (n0 + 1))] }
      (.reusable (u64 (1 * (n0 + 1))) (n0 + 1)) =
      { chunks := [.modified (target.take (n0 + 1))] ++
        [.reusable (u64 (1 * (n0 + 1))) (n0 + 1)] } := rfl
  have e2 : n0 + 1 + (n0 + 1) = 2 * (n0 + 1) := by omega
  rw [hadd, e2]
  rw [tail_run basis (n0 + 1) (by omega) hnd 2 _ _ _ _ _ _
    (by simp only [List.length_take, List.length_drop]; omega)
    (by simp only [List.length_drop]; omega)
    (by simp only [List.length_drop]; omega)]
  have hu : u64 (1 * (n0 + 1)) = n0 + 1 := by
    rw [Nat.one_mul]
    exact Nat.mod_eq_of_lt (by omega)
  have e3 : n0 + 1 + (basis.drop (2 * (n0 + 1))).length = basis.length - (n0 + 1) := by
    simp only [List.length_drop]
    omega
  rw [hu, e3]
  rfl

set_option maxRecDepth 100000 in
/-- C14, at the test `should handle changes`: `L = 32`, the 66-byte test
basis, byte 31 changed from 101 to 102; the delta is the Literal of the first
32 bytes followed by `Reusable(32, 34)`. -/
theorem C14_changed_first_block_witness :
    32 ≤ 32 ∧ 2 * 32 ≤ testBasis.length ∧ testBasis.length < 18446744073709551616 ∧
    ((blocksOf testBasis 32).map computeRollingChecksum).Nodup ∧
    (testBasis.set 31 102).length = testBasis.length ∧
    (testBasis.set 31 102).drop 32 = testBasis.drop 32 ∧
    NewSignature testBasis 32 = .ok testSignature ∧
    (∀ o, o < 32 → ¬ testSignature.matchesWindow (((testBasis.set 31 102).drop o).take 32)) ∧
    NewDelta (testBasis.set 31 102) testSignature =
      .ok { chunks := [.modified ((testBasis.set 31 102).take 32),
        .reusable 32 (testBasis.length - 32)] } ∧
    testBasis.length - 32 = 34 ∧ testBasis.get? 31 = some 101 :=
  ⟨by decide, by decide, by decide, by decide, by decide, by decide, by decide!, by decide!,
    C14_changed_first_block testBasis (testBasis.set 31 102) 32 testSignature (by decide)
      (by decide) (by decide) (by decide) (by decide) (by decide) (by decide!) (by decide!),
    by decide, by decide⟩

theorem fold_range_reusable (L : Nat) : ∀ (j k0 : Nat) (pre : List chunk) (s l : Nat),
    l + j * L < 18446744073709551616 →
    ((List.range' k0 j).map fun i => chunk.reusable (u64 (i * L)) L).foldl Delta.addChunk
        { chunks := pre ++ [.reusable s l] } =
      { chunks := pre ++ [.reusable s (l + j * L)] } := by
  intro j
  induction j with
  | zero => intro k0 pre s l _; simp
  | succ j ih =>
    intro k0 pre s l h
    have e : (j + 1) * L = L + j * L := by rw [Nat.succ_mul, Nat.add_comm]
    rw [e] at h ⊢
    have hadd : Delta.addChunk { chunks := pre ++ [.reusable s l] }
        (.reusable (u64 (k0 * L)) L) = { chunks := pre ++ [.reusable s (l + L)] } := by
      rw [addChunk_concat]
      have hu : u64 (l + L) = l + L := Nat.mod_eq_of_lt (by omega)
      rw [← hu]
      exact if_pos rfl
    simp only [List.range'_succ, List.map_cons, List.foldl_cons, hadd]
    rw [ih (k0 + 1) pre s (l + L) (by omega)]
    simp only [Nat.add_assoc]

theorem take_window_of_append (a b : List Byte) (o L : Nat) (h : o + L ≤ a.length) :
    ((a ++ b).drop o).take L = (a.drop o).take L := by
  rw [List.drop_append_of_le_length (by omega), List.take_append_of_le_length
    (by simp only [List.length_drop]; omega)]

theorem take_window_of_take (basis : List Byte) (p o L : Nat) (h : o + L ≤ p) :
    ((basis.take p).drop o).take L = (basis.drop o).take L := by
  rw [List.drop_take, List.take_take]
  congr 1
  omega

/-- C15. For every block length `L >= 32`, every basis of length `n < 2^64`
whose blocks have pairwise distinct weak checksums, every block boundary
`p = k * L` with `k >= 1` and `p + L <= n`, and every byte `x` such that the
window `[x] ++ basis[p .. p+L-1)` matches no block of the signature of the
basis: the delta of the basis with `x` inserted at offset `p` is
`[Reusable(0, p), Literal([x]), Reusable(p, n - p)]`. -/
theorem C15_inserted_byte (basis : List Byte) (L k : Nat) (x : Byte) (sig : Signature)
    (hL : 32 ≤ L) (hk : 1 ≤ k) (hp : k * L + L ≤ basis.length)
    (hlt : basis.length < 18446744073709551616)
    (hnd : ((blocksOf basis L).map computeRollingChecksum).Nodup)
    (hsig : NewSignature basis L = .ok sig)
    (hno : ¬ sig.matchesWindow ((x :: basis.drop (k * L)).take L)) :
    NewDelta (basis.take (k * L) ++ [x] ++ basis.drop (k * L)) sig =
      .ok { chunks := [.reusable 0 (k * L), .modified [x],
        .reusable (k * L) (basis.length - k * L)] } := by
  rw [NewSignature_eq basis L hL] at hsig
  simp only [Except.ok.injEq] at hsig
  subst hsig
  obtain ⟨n0, rfl⟩ : ∃ n0, L = n0 + 1 := ⟨L - 1, by omega⟩
  obtain ⟨k1, rfl⟩ : ∃ k1, k = k1 + 1 := ⟨k - 1, by omega⟩
  have hs := addBlocks_idsInRange (n0 + 1) (blocksOf basis (n0 + 1))
  have hkl : k1 + 1 ≤ (k1 + 1) * (n0 + 1) := Nat.le_mul_of_pos_right _ (by omega)
  have hT : basis.take ((k1 + 1) * (n0 + 1)) ++ [x] ++ basis.drop ((k1 + 1) * (n0 + 1)) =
      basis.take ((k1 + 1) * (n0 + 1)) ++ (x :: basis.drop ((k1 + 1) * (n0 + 1))) := by simp
  have hTl : (basis.take ((k1 + 1) * (n0 + 1)) ++
      (x :: basis.drop ((k1 + 1) * (n0 + 1)))).length = basis.length + 1 := by
    simp only [List.length_append, List.length_take, List.length_cons, List.length_drop]
    omega
  have hpl : (basis.take ((k1 + 1) * (n0 + 1))).length = (k1 + 1) * (n0 + 1) := by
    simp only [List.length_take]
    omega
  unfold NewDelta
  rw [addBlocks_blockLength, hT, hTl]
  -- the first k blocks match
  have ef : basis.length + 1 + 1 = (basis.length - k1 + 1) + (k1 + 1) := by omega
  obtain ⟨block1, rSum1, hb1, hrun⟩ := aligned_run
    (addBlocks { blockLength := n0 + 1, strongSignatures := [], weakSignaturesToBlockID := [] }
      (blocksOf basis (n0 + 1))) n0 (k1 + 1) (basis.length - k1 + 1) 0
    (basis.take ((k1 + 1) * (n0 + 1)) ++ (x :: basis.drop ((k1 + 1) * (n0 + 1))))
    (List.replicate (n0 + 1) 0) rollsum.New { chunks := [] } (by simp) (by rw [hTl]; omega)
    (fun i hi => by
      have h1 : i * (n0 + 1) + (n0 + 1) ≤ (k1 + 1) * (n0 + 1) := by
        have := Nat.mul_le_mul_right (n0 + 1) (by omega : i + 1 ≤ k1 + 1)
        rw [Nat.succ_mul] at this
        exact this
      rw [take_window_of_append _ _ _ _ (by rw [hpl]; exact h1),
        take_window_of_take _ _ _ _ h1, Nat.zero_add]
      exact basis_block_facts basis (n0 + 1) (by omega) hnd i (by omega))
  rw [ef, hrun]
  have hfold : ((List.range' 0 (k1 + 1)).map fun i =>
      chunk.reusable (u64 (i * (n0 + 1))) (n0 + 1)).foldl Delta.addChunk { chunks := [] } =
      { chunks := [.reusable 0 ((k1 + 1) * (n0 + 1))] } := by
    simp only [List.range'_succ, List.map_cons, List.foldl_cons, addChunk_nil, Nat.zero_mul]
    have h := fold_range_reusable (n0 + 1) k1 (0 + 1) [] (u64 0) (n0 + 1) (by
      rw [Nat.succ_mul] at hp; omega)
    simp only [List.nil_append] at h
    rw [h]
    have e : n0 + 1 + k1 * (n0 + 1) = (k1 + 1) * (n0 + 1) := by
      rw [Nat.succ_mul, Nat.add_comm]
    rw [e]
    rfl
  have hdrop : (basis.take ((k1 + 1) * (n0 + 1)) ++
      (x :: basis.drop ((k1 + 1) * (n0 + 1)))).drop ((k1 + 1) * (n0 + 1)) =
      x :: basis.drop ((k1 + 1) * (n0 + 1)) := by
    rw [List.drop_append_of_le_length (by rw [hpl]), List.drop_of_length_le (by rw [hpl])]
    rfl
  rw [hfold, hdrop]
  -- the window that starts with the inserted byte does not match
  have ef2 : basis.length - k1 + 1 = (basis.length - k1) + 1 := by omega
  rw [ef2, aligned_nomatch_step _ hs (basis.length - k1) n0 _ block1 rSum1 _ hb1 (by simp) hno]
  have hadd1 : Delta.addChunk { chunks := [.reusable 0 ((k1 + 1) * (n0 + 1))] }
      (.modified ((x :: basis.drop ((k1 + 1) * (n0 + 1))).take 1)) =
      { chunks := [.reusable 0 ((k1 + 1) * (n0 + 1)), .modified [x]] } := rfl
  rw [hadd1]
  -- one byte later the window is block k of the basis
  have hfacts := basis_block_facts basis (n0 + 1) (by omega) hnd (k1 + 1) (by omega)
  have hk0 : 1 ≤ basis.length - k1 := by omega
  have ef3 : basis.length - k1 = (basis.length - k1 - 1) + 1 := by omega
  rw [ef3, resync_match_step _ (basis.length - k1 - 1) n0 (k1 + 1)
    (x :: basis.drop ((k1 + 1) * (n0 + 1))) _
    (by simp only [List.length_cons, List.length_drop]; omega)
    (by simp only [List.drop_succ_cons, List.drop_zero]; exact hfacts.1)
    (by simp only [List.drop_succ_cons, List.drop_zero]; exact hfacts.2)]
  have hadd2 : Delta.addChunk
      { chunks := [.reusable 0 ((k1 + 1) * (n0 + 1)), .modified [x]] }
      (.reusable (u64 ((k1 + 1) * (n0 + 1))) (n0 + 1)) =
      { chunks := [.reusable 0 ((k1 + 1) * (n0 + 1)), .modified [x]] ++
        [.reusable (u64 ((k1 + 1) * (n0 + 1))) (n0 + 1)] } := rfl
  have hd2 : ((x :: basis.drop ((k1 + 1) * (n0 + 1))).drop 1).drop (n0 + 1) =
      basis.drop ((k1 + 1 + 1) * (n0 + 1)) := by
    simp only [List.drop_succ_cons, List.drop_zero]
    rw [List.drop_drop, Nat.succ_mul (k1 + 1)]
  rw [hadd2, hd2]
  have hmul : (k1 + 1 + 1) * (n0 + 1) = (k1 + 1) * (n0 + 1) + (n0 + 1) := Nat.succ_mul _ _
  rw [tail_run basis (n0 + 1) (by omega) hnd (k1 + 1 + 1) _ _ _ _ _ _
    (by simp only [List.drop_succ_cons, List.drop_zero, List.length_take, List.length_drop]
        omega)
    (by simp only [List.length_drop]; omega)
    (by simp only [List.length_drop]; omega)]
  have hu : u64 ((k1 + 1) * (n0 + 1)) = (k1 + 1) * (n0 + 1) := Nat.mod_eq_of_lt (by omega)
  have e3 : n0 + 1 + (basis.drop ((k1 + 1 + 1) * (n0 + 1))).length =
      basis.length - (k1 + 1) * (n0 + 1) := by
    simp only [List.length_drop]
    omega
  rw [hu, e3]
  rfl

set_option maxRecDepth 100000 in
/-- C15, at the test `should handle additions`: `L = 32`, the 66-byte test
basis, the byte 19 inserted at offset 32; the delta is
`[Reusable(0,32), Literal([19]), Reusable(32,34)]`. -/
theorem C15_inserted_byte_witness :
    32 ≤ 32 ∧ 1 ≤ 1 ∧ 1 * 32 + 32 ≤ testBasis.length ∧
    testBasis.length < 18446744073709551616 ∧
    ((blocksOf testBasis 32).map computeRollingChecksum).Nodup ∧
    NewSignature testBasis 32 = .ok testSignature ∧
    ¬ testSignature.matchesWindow ((19 :: testBasis.drop (1 * 32)).take 32) ∧
    NewDelta (testBasis.take (1 * 32) ++ [19] ++ testBasis.drop (1 * 32)) testSignature =
      .ok { chunks := [.reusable 0 (1 * 32), .modified [19],
        .reusable (1 * 32) (testBasis.length - 1 * 32)] } ∧
    testBasis.take (1 * 32) ++ [19] ++ testBasis.drop (1 * 32) = testPatched ∧
    Delta.mk [.reusable 0 (1 * 32), .modified [19],
      .reusable (1 * 32) (testBasis.length - 1 * 32)] = testDelta :=
  ⟨by decide, by decide, by decide, by decide, by decide, by decide!, by decide!,
    C15_inserted_byte testBasis 32 1 19 testSignature (by decide) (by decide) (by decide)
      (by decide) (by decide) (by decide!) (by decide!),
    by decide, by decide⟩

end librsync

/-! ## Block ids and the indexed accesses -/

namespace librsync

theorem mem_mapSet (m : List (Nat × Nat)) (k v : Nat) (p : Nat × Nat)
    (h : p ∈ mapSet m k v) : p ∈ m ∨ p = (k, v) := by
  induction m with
  | nil =>
    simp only [mapSet, List.mem_singleton] at h
    exact Or.inr h
  | cons q m ih =>
    obtain ⟨k1, v1⟩ := q
    by_cases hk : k1 = k
    · simp only [mapSet, hk, if_true, List.mem_cons] at h
      rcases h with h | h
      · exact Or.inr h
      · exact Or.inl (List.mem_cons_of_mem _ h)
    · simp only [mapSet, hk, if_false, List.mem_cons] at h
      rcases h with h | h
      · exact Or.inl (by rw [h]; exact List.mem_cons_self _ _)
      · rcases ih h with h1 | h1
        · exact Or.inl (List.mem_cons_of_mem _ h1)
        · exact Or.inr h1

theorem ReadSignature_loop_idsInRange : ∀ (fuel : Nat) (r : List Byte)
    (strong s1 : List (List Byte)) (m m1 : List (Nat × Nat)),
    (∀ p ∈ m, p.2 < strong.length) →
    ReadSignature.loop fuel r strong m = .ok (s1, m1) →
    ∀ p ∈ m1, p.2 < s1.length := by
  intro fuel
  induction fuel with
  | zero => intro r strong s1 m m1 _ h; simp [ReadSignature_loop_zero] at h
  | succ f ih =>
    intro r strong s1 m m1 hm h
    rw [ReadSignature_loop_succ] at h
    cases hb : stream.binaryRead r 4 with
    | error e =>
      rw [hb] at h
      cases e <;> simp at h
      obtain ⟨h1, h2⟩ := h
      subst h1 h2
      exact hm
    | ok v =>
      obtain ⟨weakSig, r1⟩ := v
      rw [hb] at h
      simp only at h
      cases hr : stream.Read r1 32 with
      | error e => rw [hr] at h; simp at h
      | ok v2 =>
        obtain ⟨strongSig, r2⟩ := v2
        rw [hr] at h
        simp only at h
        by_cases hl : strongSig.length = 32
        · simp only [hl, ne_eq, not_true_eq_false, if_false] at h
          apply ih r2 (strong ++ [strongSig]) s1 (mapSet m weakSig strong.length) m1 _ h
          intro p hp
          simp only [List.length_append, List.length_singleton]
          rcases mem_mapSet m weakSig strong.length p hp with h1 | h1
          · have := hm p h1
            omega
          · rw [h1]
            simp
        · simp [hl] at h

theorem ReadSignature_idsInRange (r : List Byte) (sig : Signature)
    (h : ReadSignature r = .ok sig) : sig.idsInRange := by
  unfold ReadSignature at h
  cases hb : stream.binaryRead r 4 with
  | error e => rw [hb] at h; simp at h
  | ok v =>
    obtain ⟨blockLength, r1⟩ := v
    rw [hb] at h
    simp only at h
    cases hl : ReadSignature.loop (r1.length + 1) r1 [] [] with
    | error e => rw [hl] at h; simp at h
    | ok v2 =>
      obtain ⟨s1, m1⟩ := v2
      rw [hl] at h
      simp only [Except.ok.injEq] at h
      rw [← h]
      exact ReadSignature_loop_idsInRange _ r1 [] s1 [] m1 (by simp) hl

theorem NewSignature_idsInRange (basis : List Byte) (L : Nat) (sig : Signature)
    (h : NewSignature basis L = .ok sig) : sig.idsInRange := by
  by_cases hL : 32 ≤ L
  · rw [NewSignature_eq basis L hL] at h
    simp only [Except.ok.injEq] at h
    rw [← h]
    exact addBlocks_idsInRange L (blocksOf basis L)
  · simp [NewSignature, Nat.lt_of_not_le hL] at h

theorem getChunk_no_index_panic (s : Signature) (hs : s.idsInRange) (block : List Byte)
    (w : Nat) : getChunk block w s ≠ .error .indexOutOfRange := by
  cases block with
  | cons b tl =>
    obtain ⟨c, hc⟩ := getChunk_ok (b :: tl) w s (by simp) hs
    rw [hc]
    simp
  | nil =>
    unfold getChunk
    cases hl : s.weakSignaturesToBlockID.lookup w with
    | none => simp
    | some blockID =>
      have hlt : blockID < s.strongSignatures.length := hs _ (lookup_mem _ _ _ hl)
      obtain ⟨strong, hg⟩ : ∃ strong, s.strongSignatures.get? blockID = some strong :=
        ⟨_, List.get?_eq_get hlt⟩
      simp only [hg]
      by_cases he : strong = computeStrongChecksum []
      · rw [if_pos he]
        simp
      · rw [if_neg he]
        simp

theorem fillWeakSigs_ok (m : List (Nat × Nat)) : ∀ acc : List Nat,
    (∀ p ∈ m, p.2 < acc.length) →
    ∃ ws, Signature.fillWeakSigs m acc = .ok ws ∧ ws.length = acc.length := by
  induction m with
  | nil => intro acc _; exact ⟨acc, rfl, rfl⟩
  | cons p m ih =>
    intro acc h
    obtain ⟨w0, i0⟩ := p
    have hi0 : i0 < acc.length := h (w0, i0) (List.mem_cons_self _ _)
    obtain ⟨ws, h1, h2⟩ := ih (acc.set i0 w0)
      (fun p hp => by rw [List.length_set]; exact h p (List.mem_cons_of_mem _ hp))
    refine ⟨ws, ?_, by rw [h2, List.length_set]⟩
    simp only [Signature.fillWeakSigs, hi0, if_true]
    exact h1

theorem writeEntries_ok (strong : List (List Byte)) : ∀ (ws : List Nat) (i : Nat)
    (out : List Byte), i + ws.length ≤ strong.length →
    (Signature.writeEntries strong i ws out).2 = none := by
  intro ws
  induction ws with
  | nil => intro i out _; rfl
  | cons w ws ih =>
    intro i out h
    simp only [List.length_cons] at h
    obtain ⟨hh, hg⟩ : ∃ hh, strong.get? i = some hh := ⟨_, List.get?_eq_get (by omega)⟩
    simp only [Signature.writeEntries, hg]
    exact ih (i + 1) _ (by omega)

theorem Write_no_error (s : Signature) (hs : s.idsInRange) (out : List Byte) :
    (s.Write out).2 = none := by
  unfold Signature.Write
  obtain ⟨ws, h1, h2⟩ := fillWeakSigs_ok s.weakSignaturesToBlockID
    (List.replicate s.strongSignatures.length 0)
    (fun p hp => by rw [List.length_replicate]; exact hs p hp)
  rw [List.length_replicate] at h2
  simp only [h1]
  exact writeEntries_ok s.strongSignatures ws 0 _ (by omega)

set_option maxRecDepth 100000 in
/-- C21. For every signature returned by `NewSignature` or by
`ReadSignature`, every block id stored in the weak-checksum map is smaller
than the number of strong hashes; and on every signature with that property
the access `strongSignatures[blockID]` of `getChunk` is never out of range,
whatever the block and the weak checksum, and `Signature.Write` ends without
an error or a panic: its accesses `weakSigs[ID]` and `strongSignatures[i]`
are in range.  The signature of the tests is an instance. -/
theorem C21_block_ids_in_range (r : List Byte) (L : Nat) (sig : Signature) :
    (NewSignature r L = .ok sig → sig.idsInRange) ∧
    (ReadSignature r = .ok sig → sig.idsInRange) ∧
    (sig.idsInRange →
      (∀ p ∈ sig.weakSignaturesToBlockID, p.2 < sig.strongSignatures.length) ∧
      (∀ (block : List Byte) (w : Nat), getChunk block w sig ≠ .error .indexOutOfRange) ∧
      (∀ out : List Byte, (sig.Write out).2 = none)) ∧
    (testSignature.idsInRange ∧ ReadSignature (testSignature.Write []).1 = .ok testSignature) :=
  ⟨NewSignature_idsInRange r L sig, ReadSignature_idsInRange r sig,
    fun hs => ⟨hs, getChunk_no_index_panic sig hs, Write_no_error sig hs⟩,
    by decide, by decide!⟩

end librsync
